import Mathlib

/-!
Verification of the finite-state-machine library (automata package).

This file gives a shallow embedding of the library's core:

* states are natural numbers (the source allocates globally unique opaque
  identifiers via State(); we thread an explicit counter, and freshness
  hypotheses such as Bounded express the global-uniqueness guarantee);
* the distinguished empty symbol EPSILON (the source stores it as the empty
  string, a sentinel distinct from every input character) is modelled by
  Option Char, with none playing the role of EPSILON;
* Python sets become Finset, Python dicts become association lists whose
  update/merge functions mirror dict assignment and {**a, **b} merging;
* the source's unbounded while-loops become fuel-indexed functions that
  return none when the fuel runs out; a loop that provably diverges is one
  that returns none for every fuel.

Definitions are translated from src/automata (fsm/fsm.py, runners.py,
fsm/simple_regex_parser.py, regex_parser.py, regular_set.py); theorems about
them settle the claims.
-/

namespace Automata

/-- Transition symbols: some c is an input character, none is EPSILON
(the source uses the empty string as the epsilon sentinel, distinct from
every input character). -/
abbrev Symbol := Option Char

/-- Injective numeric code for symbols, used only to give Symbol a linear
order so that finite symbol sets can be listed deterministically (Python
set iteration order is unspecified; every use below is order-insensitive
in content). -/
def symKey : Symbol → ℕ
  | none => 0
  | some c => c.toNat + 1

theorem symKey_injective : Function.Injective symKey := by
  intro a b h
  cases a <;> cases b <;> simp [symKey] at h ⊢
  exact Char.ext (UInt32.ext h)

/-- Inverse of symKey. -/
def symDecode : ℕ → Symbol
  | 0 => none
  | k + 1 => some (Char.ofNat k)

theorem symDecode_symKey (a : Symbol) : symDecode (symKey a) = a := by
  cases a with
  | none => rfl
  | some c => simp [symKey, symDecode, Char.ofNat_toNat]

/-- Deterministic list view of a finite set of naturals, in ascending
order (Python iterates sets in unspecified order; every use below is
order-insensitive in content). -/
def natList (s : Finset ℕ) : List ℕ :=
  (List.range (s.sup id + 1)).filter fun q => decide (q ∈ s)

/-- Deterministic list view of a finite set of symbols. -/
def symList (s : Finset Symbol) : List Symbol :=
  (natList (s.image symKey)).map symDecode

/-- Verdicts of the generic runner (runners.py, class RunnerState). -/
inductive RunnerState where
  | CONTINUE
  | ACCEPT
  | REJECT
deriving DecidableEq, Repr

/-- RunnerState.from_bool (runners.py). -/
def RunnerState.fromBool (flag : Bool) : RunnerState :=
  if flag then .ACCEPT else .REJECT

/-- Runner configuration for finite-state machines (_FSMConfig in
fsm/fsm.py): the remaining input and the current state. -/
structure Cfg where
  string : List Char
  state : ℕ
deriving DecidableEq, Repr

/-- Match record (match.py, class SimpleMatch).  start and stop are Int
because the source computes stop by integer subtraction. -/
structure SimpleMatch where
  start : Int
  stop : Int
  string : List Char
deriving DecidableEq, Repr

/-- Python slicing word[:stop]: a nonnegative stop takes a prefix of that
length (clamped to the word), a negative stop drops that many characters
from the end (clamped to the empty list). -/
def pyPrefix (w : List Char) (stop : Int) : List Char :=
  if 0 ≤ stop then w.take stop.toNat else w.take (w.length - (-stop).toNat)

/-- Transition dictionaries: association lists from (state, symbol) keys to
target-state sets, modelling the multi-valued FrozenDict of the source.
Lookups take the first matching entry; the construction functions below
keep keys unduplicated, like a Python dict. -/
abbrev TransD := List ((ℕ × Symbol) × Finset ℕ)

/-- Dictionary lookup: transitions[key], as an Option (first matching
entry; construction keeps keys unique, like a Python dict). -/
def dictFind : TransD → (ℕ × Symbol) → Option (Finset ℕ)
  | [], _ => none
  | e :: d, k => if e.1 = k then some e.2 else dictFind d k

/-- Target set of a key, empty when the key is absent (the runner's
KeyError-swallowing lookup yields nothing for an absent key). -/
def dictTargets (d : TransD) (k : ℕ × Symbol) : Finset ℕ :=
  (dictFind d k).getD ∅

/-- Dictionary assignment transitions[key] = value: replaces the first
entry with that key in place, appends a new entry otherwise (matching the
in-place update and insertion order of a Python dict). -/
def dictSet : TransD → (ℕ × Symbol) → Finset ℕ → TransD
  | [], k, v => [(k, v)]
  | e :: d, k, v => if e.1 = k then (k, v) :: d else e :: dictSet d k v

/-- NeFSM._update_state (fsm/fsm.py): transitions[key] |= targets, falling
back to transitions[key] = targets when the key is absent. -/
def updateState (d : TransD) (k : ℕ × Symbol) (targets : Finset ℕ) : TransD :=
  match dictFind d k with
  | some s => dictSet d k (s ∪ targets)
  | none => dictSet d k targets

/-- Python's {**a, **b}: a copy of a with b's entries assigned on top,
in order. -/
def dictMerge (a b : TransD) : TransD :=
  b.foldl (fun acc e => dictSet acc e.1 e.2) a

/-- A finite-state machine (fsm/fsm.py, classes DFSM / NeFSM; both carry
the same data, they differ in which runner executes them). -/
structure FSM where
  states : Finset ℕ
  alphabet : Finset Symbol
  transitions : TransD
  start : ℕ
  accepting : Finset ℕ
deriving DecidableEq

/-- next(iter(s)) on a Finset: the first element of its list view
(deterministic; the source only applies this to singleton sets, whose sole
element it returns). -/
def pick1 (s : Finset ℕ) : ℕ :=
  (natList s).headD 0

/-- Every state mentioned by the transition dictionary or as the start
state (the state space the runner can ever touch). -/
def allStates (m : FSM) : Finset ℕ :=
  m.transitions.foldl (fun acc e => acc ∪ insert e.1.1 e.2) {m.start}

/-- Every state the machine mentions anywhere, including the states field
and the accepting set. -/
def fullStates (m : FSM) : Finset ℕ :=
  allStates m ∪ m.states ∪ m.accepting

/-- All of the machine's states are below the counter n: this is how the
source's globally unique State() identifiers are reflected — a machine
built before the counter reached n only mentions states < n. -/
def Bounded (m : FSM) (n : ℕ) : Prop :=
  ∀ q ∈ fullStates m, q < n

/-- The association list has no duplicated keys (true of every Python
dict). -/
def DictWF (d : TransD) : Prop :=
  (d.map Prod.fst).Nodup

instance (m : FSM) (n : ℕ) : Decidable (Bounded m n) :=
  decidable_of_iff (∀ q ∈ fullStates m, q < n) (by unfold Bounded; exact Iff.rfl)

instance (d : TransD) : Decidable (DictWF d) :=
  decidable_of_iff ((d.map Prod.fst).Nodup) (by unfold DictWF; exact Iff.rfl)

/-! ### The runner protocol (runners.py Runner, fsm/fsm.py _DFSMRunner and
_NeFSMRunner) -/

/-- _DFSMRunner.get_keys: the key for the next input character, or the
(state, EPSILON) key once the input is exhausted. -/
def dfsmGetKeys (c : Cfg) : List (ℕ × Symbol) :=
  match c.string with
  | a :: _ => [(c.state, some a)]
  | [] => [(c.state, none)]

/-- _NeFSMRunner.get_keys: the deterministic key, then always also the
(state, EPSILON) key (so with exhausted input the epsilon key is yielded
twice, as in the source). -/
def nfsmGetKeys (c : Cfg) : List (ℕ × Symbol) :=
  dfsmGetKeys c ++ [(c.state, none)]

/-- _DFSMRunner.get_next_config: drop the first input character. -/
def dfsmNextConfig (c : Cfg) (_k : ℕ × Symbol) (q : ℕ) : Cfg :=
  ⟨c.string.tail, q⟩

/-- _NeFSMRunner.get_next_config: an epsilon key keeps the input,
otherwise defer to the deterministic step. -/
def nfsmNextConfig (c : Cfg) (k : ℕ × Symbol) (q : ℕ) : Cfg :=
  if k.2 = none then ⟨c.string, q⟩ else dfsmNextConfig c k q

/-- Runner.__yield_states: all targets of a key, nothing when absent. -/
def lookupStates (d : TransD) (k : ℕ × Symbol) : List ℕ :=
  match dictFind d k with
  | some s => natList s
  | none => []

/-- Successor configurations of a DFSM configuration (Runner's
__next_states specialised to _DFSMRunner). -/
def dfsmSuccs (m : FSM) (c : Cfg) : List Cfg :=
  (dfsmGetKeys c).flatMap fun k => (lookupStates m.transitions k).map (dfsmNextConfig c k)

/-- Successor configurations of a NeFSM configuration. -/
def nfsmSuccs (m : FSM) (c : Cfg) : List Cfg :=
  (nfsmGetKeys c).flatMap fun k => (lookupStates m.transitions k).map (nfsmNextConfig c k)

/-- _DFSMRunner.check_accept: keep going while input remains, then accept
exactly in an accepting state. -/
def dfsmCheckAccept (m : FSM) (c : Cfg) : RunnerState :=
  match c.string with
  | _ :: _ => .CONTINUE
  | [] => RunnerState.fromBool (decide (c.state ∈ m.accepting))

/-- _NeFSMRunner.check_accept: like the DFSM check, but a rejecting
configuration with an outgoing epsilon transition may still continue. -/
def nfsmCheckAccept (m : FSM) (c : Cfg) : RunnerState :=
  match dfsmCheckAccept m c with
  | .REJECT =>
      if (dictFind m.transitions (c.state, none)).isSome then .CONTINUE else .REJECT
  | r => r

/-- _DFSMRunner.check_accept_sliding (shared by both runners): accept as
soon as the current state is accepting, regardless of remaining input. -/
def fsmCheckAcceptSliding (m : FSM) (c : Cfg) : RunnerState :=
  if c.state ∈ m.accepting then .ACCEPT else .CONTINUE

/-- _DFSMRunner.make_match: the match starts at offset 0 and stops where
the remaining input begins. -/
def fsmMakeMatch (w : List Char) (c : Cfg) : SimpleMatch :=
  let stop : Int := (w.length : Int) - (c.string.length : Int)
  ⟨0, stop, pyPrefix w stop⟩

/-- The runner protocol as a bundle of functions (the abstract methods of
Runner in runners.py). -/
structure RunnerI where
  initCfg : List Char → Cfg
  check : Cfg → RunnerState
  checkSliding : Cfg → RunnerState
  succs : Cfg → List Cfg

/-- The _DFSMRunner instance for a machine. -/
def dfsmRI (m : FSM) : RunnerI :=
  ⟨fun w => ⟨w, m.start⟩, dfsmCheckAccept m, fsmCheckAcceptSliding m, dfsmSuccs m⟩

/-- The _NeFSMRunner instance for a machine. -/
def nfsmRI (m : FSM) : RunnerI :=
  ⟨fun w => ⟨w, m.start⟩, nfsmCheckAccept m, fsmCheckAcceptSliding m, nfsmSuccs m⟩

/-! ### The breadth-first exploration loop (runners.py Runner.run_with)

A work item is a pair of the lineage's seen-set and a configuration; the
source stores seen-sets in a precursor-id-indexed table and tags each item
with its precursor id, which is an equivalent state-passing of the same
data.  The initial item carries the empty seen-set (the defaultdict yields
an empty set for the first precursor).  Runner.__push_to_backlog enqueues a
successor only when it is not in the parent's seen-set, and the child's
seen-set is the parent's plus the new configuration. -/

/-- One round of Runner.__advance_states followed by __push_to_backlog for
every successor. -/
def pushToBacklog (seen : Finset Cfg) (cs : List Cfg) : List (Finset Cfg × Cfg) :=
  cs.filterMap fun c => if c ∈ seen then none else some (insert c seen, c)

/-- Runner.run_with's loop, with explicit fuel: pop the first work item,
return ACCEPT if it passes check_accept, drop it if it fails, otherwise
enqueue its unseen successors; REJECT when the queue drains.  none means
the fuel ran out before the loop finished. -/
def runAux (r : RunnerI) : ℕ → List (Finset Cfg × Cfg) → Option RunnerState
  | _, [] => some .REJECT
  | 0, _ :: _ => none
  | fuel + 1, (seen, c) :: rest =>
    match r.check c with
    | .ACCEPT => some .ACCEPT
    | .REJECT => runAux r fuel rest
    | .CONTINUE => runAux r fuel (rest ++ pushToBacklog seen (r.succs c))

/-- Sum of the target-set sizes over the whole dictionary (an upper bound
for how many successors any single lookup can yield). -/
def totalTargets (m : FSM) : ℕ :=
  (m.transitions.map fun e => e.2.card).sum

/-- Branching bound: a configuration has at most two keys, each yielding at
most totalTargets successors. -/
def branchBound (m : FSM) : ℕ :=
  2 * totalTargets m + 2

/-- All configurations the runner can reach on input w: a suffix of w
paired with a mentioned state. -/
def cfgUniverse (m : FSM) (w : List Char) : Finset Cfg :=
  (Finset.range (w.length + 1)).biUnion fun i =>
    (allStates m).image fun q => ⟨w.drop i, q⟩

/-- Fuel that provably suffices for the exploration loop (the termination
measure of the initial backlog, plus one). -/
def runFuel (m : FSM) (w : List Char) : ℕ :=
  branchBound m ^ ((cfgUniverse m w).card + 1) + 1

/-- Runner.run_with for the nondeterministic runner, from the initial
configuration, with provably sufficient fuel. -/
def runWithN (m : FSM) (w : List Char) : Option RunnerState :=
  runAux (nfsmRI m) (runFuel m w) [(∅, ⟨w, m.start⟩)]

/-- Runner.run_with for the deterministic runner. -/
def runWithD (m : FSM) (w : List Char) : Option RunnerState :=
  runAux (dfsmRI m) (runFuel m w) [(∅, ⟨w, m.start⟩)]

/-- NeFSM.run: the run_with verdict compared with ACCEPT. -/
def runBoolN (m : FSM) (w : List Char) : Bool :=
  decide (runWithN m w = some .ACCEPT)

/-- DFSM.run: the run_with verdict compared with ACCEPT. -/
def runBoolD (m : FSM) (w : List Char) : Bool :=
  decide (runWithD m w = some .ACCEPT)

/-! ### Elementary facts about the list views and dictionaries -/

theorem mem_natList {q : ℕ} {s : Finset ℕ} : q ∈ natList s ↔ q ∈ s := by
  constructor
  · intro h
    simpa using (List.mem_filter.mp h).2
  · intro h
    refine List.mem_filter.mpr ⟨List.mem_range.mpr ?_, by simpa using h⟩
    have hle : id q ≤ s.sup id := Finset.le_sup h
    exact Nat.lt_succ_of_le hle

theorem natList_nodup (s : Finset ℕ) : (natList s).Nodup :=
  (List.nodup_range _).filter _

theorem natList_length (s : Finset ℕ) : (natList s).length = s.card := by
  have h1 : (natList s).toFinset = s := by
    ext q; simp [mem_natList]
  calc (natList s).length = (natList s).toFinset.card :=
        (List.toFinset_card_of_nodup (natList_nodup s)).symm
    _ = s.card := by rw [h1]

theorem natList_singleton (x : ℕ) : natList {x} = [x] := by
  have : ∀ n, (List.range n).filter (fun q => decide (q ∈ ({x} : Finset ℕ)))
      = if x < n then [x] else [] := by
    intro n
    induction n with
    | zero => simp
    | succ n ih =>
      rw [List.range_succ, List.filter_append, ih]
      by_cases h : x < n
      · have h2 : ¬ n = x := by omega
        simp [h, Nat.lt_succ_of_lt h, h2]
      · by_cases h2 : x = n
        · subst h2; simp [h, Nat.lt_succ_self]
        · have h3 : ¬ x < n + 1 := by omega
          have h4 : ¬ n = x := by omega
          simp [h, h2, h3, h4]
  have hsup : ({x} : Finset ℕ).sup id = x := by simp
  rw [natList, hsup, this]
  simp

theorem pick1_singleton (x : ℕ) : pick1 {x} = x := by
  rw [pick1, natList_singleton]; rfl

theorem mem_symList {a : Symbol} {s : Finset Symbol} : a ∈ symList s ↔ a ∈ s := by
  constructor
  · intro h
    obtain ⟨k, hk, hdec⟩ := List.mem_map.mp h
    obtain ⟨b, hb, hkey⟩ := Finset.mem_image.mp (mem_natList.mp hk)
    rwa [← hdec, ← hkey, symDecode_symKey]
  · intro h
    refine List.mem_map.mpr ⟨symKey a, mem_natList.mpr ?_, symDecode_symKey a⟩
    exact Finset.mem_image_of_mem _ h

theorem dictFind_mem {d : TransD} {k : ℕ × Symbol} {s : Finset ℕ}
    (h : dictFind d k = some s) : (k, s) ∈ d := by
  induction d with
  | nil => simp [dictFind] at h
  | cons e d ih =>
    rw [dictFind] at h
    by_cases hek : e.1 = k
    · rw [if_pos hek] at h
      have hs : e.2 = s := Option.some_inj.mp h
      have he : (k, s) = e := by
        obtain ⟨e1, e2⟩ := e
        simp only at hek hs
        rw [← hek, ← hs]
      rw [he]
      exact List.mem_cons_self _ _
    · rw [if_neg hek] at h
      exact List.mem_cons_of_mem _ (ih h)

theorem mem_lookupStates {d : TransD} {k : ℕ × Symbol} {q : ℕ} :
    q ∈ lookupStates d k ↔ q ∈ dictTargets d k := by
  rw [lookupStates, dictTargets]
  cases h : dictFind d k with
  | none => simp
  | some s => simp [mem_natList]

theorem foldl_union_init {α : Type} [DecidableEq α] {β : Type}
    (g : β → Finset α) (l : List β) (init : Finset α) :
    init ⊆ l.foldl (fun acc e => acc ∪ g e) init := by
  induction l generalizing init with
  | nil => simp
  | cons e l ih =>
    intro x hx
    exact ih (init ∪ g e) (Finset.mem_union_left _ hx)

theorem foldl_union_mem {α : Type} [DecidableEq α] {β : Type}
    (g : β → Finset α) (l : List β) {e : β} (he : e ∈ l) :
    ∀ init : Finset α, g e ⊆ l.foldl (fun acc e => acc ∪ g e) init := by
  induction l with
  | nil => simp at he
  | cons f l ih =>
    intro init
    rcases List.mem_cons.mp he with h | h
    · subst h
      rw [List.foldl_cons]
      exact fun x hx =>
        foldl_union_init g l _ (Finset.mem_union_right _ hx)
    · exact ih h _

theorem start_mem_allStates (m : FSM) : m.start ∈ allStates m := by
  unfold allStates
  exact foldl_union_init (fun e => insert e.1.1 e.2) m.transitions {m.start}
    (Finset.mem_singleton_self _)

theorem entry_subset_allStates {m : FSM} {e : (ℕ × Symbol) × Finset ℕ}
    (he : e ∈ m.transitions) : insert e.1.1 e.2 ⊆ allStates m := by
  unfold allStates
  exact foldl_union_mem (fun e => insert e.1.1 e.2) m.transitions he {m.start}

theorem target_mem_allStates {m : FSM} {k : ℕ × Symbol} {s : Finset ℕ} {q : ℕ}
    (h : dictFind m.transitions k = some s) (hq : q ∈ s) : q ∈ allStates m :=
  entry_subset_allStates (dictFind_mem h) (Finset.mem_insert_of_mem hq)

theorem source_mem_allStates {m : FSM} {k : ℕ × Symbol} {s : Finset ℕ}
    (h : dictFind m.transitions k = some s) : k.1 ∈ allStates m :=
  entry_subset_allStates (dictFind_mem h) (Finset.mem_insert_self _ _)

theorem card_le_totalTargets {m : FSM} {k : ℕ × Symbol} {s : Finset ℕ}
    (h : dictFind m.transitions k = some s) : s.card ≤ totalTargets m := by
  have hmem : s.card ∈ m.transitions.map fun e => e.2.card :=
    List.mem_map.mpr ⟨(k, s), dictFind_mem h, rfl⟩
  exact List.single_le_sum (fun _ _ => Nat.zero_le _) _ hmem

theorem lookupStates_length_le (m : FSM) (k : ℕ × Symbol) :
    (lookupStates m.transitions k).length ≤ totalTargets m := by
  rw [lookupStates]
  cases h : dictFind m.transitions k with
  | none => simp
  | some s =>
    rw [natList_length]
    exact card_le_totalTargets h

/-! ### Termination of the exploration loop

Each work item carries the seen-set of its lineage; pushed children have a
strictly larger seen-set, all seen-sets stay inside the finite
configuration universe, and each popped item produces at most B - 2
children, so the exponential potential below strictly decreases at every
loop iteration. -/

/-- Potential of one work item. -/
def itemWeight (B N : ℕ) (it : Finset Cfg × Cfg) : ℕ :=
  B ^ (N + 1 - it.1.card)

/-- Potential of a backlog. -/
def backlogMeasure (B N : ℕ) (bl : List (Finset Cfg × Cfg)) : ℕ :=
  (bl.map (itemWeight B N)).sum

theorem backlogMeasure_append (B N : ℕ) (a b : List (Finset Cfg × Cfg)) :
    backlogMeasure B N (a ++ b) = backlogMeasure B N a + backlogMeasure B N b := by
  simp [backlogMeasure]

theorem mem_pushToBacklog {seen : Finset Cfg} {cs : List Cfg}
    {it : Finset Cfg × Cfg} :
    it ∈ pushToBacklog seen cs ↔ ∃ c ∈ cs, c ∉ seen ∧ it = (insert c seen, c) := by
  rw [pushToBacklog]
  simp only [List.mem_filterMap]
  constructor
  · rintro ⟨c, hc, h⟩
    by_cases hs : c ∈ seen
    · rw [if_pos hs] at h
      exact absurd h (by simp)
    · rw [if_neg hs] at h
      exact ⟨c, hc, hs, (Option.some_inj.mp h).symm⟩
  · rintro ⟨c, hc, hs, rfl⟩
    exact ⟨c, hc, by simp [hs]⟩

theorem pushToBacklog_length_le (seen : Finset Cfg) (cs : List Cfg) :
    (pushToBacklog seen cs).length ≤ cs.length :=
  List.length_filterMap_le _ _

theorem sum_const_of_mem {α : Type} (f : α → ℕ) (a : ℕ) :
    ∀ l : List α, (∀ x ∈ l, f x = a) → (l.map f).sum = l.length * a := by
  intro l
  induction l with
  | nil => simp
  | cons x l ih =>
    intro h
    have hx := h x (by simp)
    rw [List.map_cons, List.sum_cons, ih (fun y hy => h y (by simp [hy]))]
    rw [hx, List.length_cons]
    ring

theorem pushToBacklog_measure {B N : ℕ} {seen : Finset Cfg} {cs : List Cfg}
    (hcard : seen.card ≤ N) :
    backlogMeasure B N (pushToBacklog seen cs) = (pushToBacklog seen cs).length * B ^ (N - seen.card) := by
  rw [backlogMeasure]
  apply sum_const_of_mem
  intro it hit
  obtain ⟨c, _, hc, rfl⟩ := mem_pushToBacklog.mp hit
  rw [itemWeight]
  congr 1
  rw [Finset.card_insert_of_not_mem hc]
  omega

/-- The central step inequality: the children pushed for one popped item
weigh at least two less than the popped item itself. -/
theorem push_measure_lt {B N : ℕ} (hB : 2 ≤ B) {seen : Finset Cfg} {c : Cfg}
    {cs : List Cfg} (hcard : seen.card ≤ N) (hlen : cs.length ≤ B - 2) :
    backlogMeasure B N (pushToBacklog seen cs) + 2 ≤ itemWeight B N (seen, c) := by
  have hpow : 1 ≤ B ^ (N - seen.card) :=
    Nat.one_le_pow _ _ (by omega)
  have h1 : backlogMeasure B N (pushToBacklog seen cs)
      ≤ (B - 2) * B ^ (N - seen.card) := by
    rw [pushToBacklog_measure hcard]
    have := pushToBacklog_length_le seen cs
    exact Nat.mul_le_mul (le_trans this hlen) le_rfl
  have h2 : itemWeight B N (seen, c) = B * B ^ (N - seen.card) := by
    rw [itemWeight]
    have : N + 1 - seen.card = (N - seen.card) + 1 := by omega
    rw [this, pow_succ]
    ring
  have h3 : (B - 2) * B ^ (N - seen.card) + 2 * B ^ (N - seen.card)
      = B * B ^ (N - seen.card) := by
    rw [← Nat.add_mul]
    congr 1
    omega
  have h4 : 2 ≤ 2 * B ^ (N - seen.card) := by
    calc 2 = 2 * 1 := by ring
    _ ≤ 2 * B ^ (N - seen.card) := Nat.mul_le_mul le_rfl hpow
  omega

/-- If the fuel exceeds the backlog's potential and the backlog lives in a
finite universe that bounds the branching, the loop finishes. -/
theorem runAux_ne_none (r : RunnerI) (U : Finset Cfg) (B : ℕ) (hB : 2 ≤ B)
    (hlen : ∀ c ∈ U, (r.succs c).length ≤ B - 2)
    (hclosed : ∀ c ∈ U, ∀ c' ∈ r.succs c, c' ∈ U) :
    ∀ fuel bl, (∀ it ∈ bl, it.2 ∈ U ∧ it.1 ⊆ U) →
      backlogMeasure B U.card bl < fuel → runAux r fuel bl ≠ none := by
  intro fuel
  induction fuel with
  | zero => intro bl _ h; exact absurd h (Nat.not_lt_zero _)
  | succ fuel ih =>
    intro bl hinv hm
    match bl with
    | [] => simp [runAux]
    | (seen, c) :: rest =>
      obtain ⟨hcU, hseenU⟩ := hinv _ (List.mem_cons_self _ _)
      have hcard : seen.card ≤ U.card := Finset.card_le_card hseenU
      have hw : 1 ≤ itemWeight B U.card (seen, c) :=
        Nat.one_le_pow _ _ (by omega)
      have hsplit : backlogMeasure B U.card ((seen, c) :: rest)
          = itemWeight B U.card (seen, c) + backlogMeasure B U.card rest := by
        simp [backlogMeasure]
      rw [runAux]
      cases hcheck : r.check c with
      | ACCEPT => simp
      | REJECT =>
        apply ih
        · exact fun it hit => hinv it (List.mem_cons_of_mem _ hit)
        · omega
      | CONTINUE =>
        apply ih
        · intro it hit
          rcases List.mem_append.mp hit with h | h
          · exact hinv it (List.mem_cons_of_mem _ h)
          · obtain ⟨c', hc', hns, rfl⟩ := mem_pushToBacklog.mp h
            refine ⟨hclosed c hcU c' hc', ?_⟩
            intro x hx
            rcases Finset.mem_insert.mp hx with h | h
            · subst h; exact hclosed c hcU x hc'
            · exact hseenU h
        · rw [backlogMeasure_append]
          have := @push_measure_lt B U.card hB seen c (r.succs c) hcard (hlen c hcU)
          omega

/-- The loop never reports CONTINUE. -/
theorem runAux_ne_some_continue (r : RunnerI) :
    ∀ fuel bl, runAux r fuel bl ≠ some .CONTINUE := by
  intro fuel
  induction fuel with
  | zero =>
    intro bl
    match bl with
    | [] => simp [runAux]
    | _ :: _ => simp [runAux]
  | succ fuel ih =>
    intro bl
    match bl with
    | [] => simp [runAux]
    | (seen, c) :: rest =>
      rw [runAux]
      cases r.check c with
      | ACCEPT => simp
      | REJECT => exact ih rest
      | CONTINUE => exact ih _

/-! ### The successor functions respect the configuration universe -/

theorem mem_cfgUniverse {m : FSM} {w : List Char} {c : Cfg} :
    c ∈ cfgUniverse m w ↔
      (∃ i ≤ w.length, c.string = w.drop i) ∧ c.state ∈ allStates m := by
  rw [cfgUniverse]
  simp only [Finset.mem_biUnion, Finset.mem_range, Finset.mem_image]
  constructor
  · rintro ⟨i, hi, q, hq, rfl⟩
    exact ⟨⟨i, by omega, rfl⟩, hq⟩
  · rintro ⟨⟨i, hi, hs⟩, hq⟩
    refine ⟨i, by omega, c.state, hq, ?_⟩
    cases c
    simp_all

theorem dfsmSuccs_sub (m : FSM) (w : List Char) :
    ∀ c ∈ cfgUniverse m w, ∀ c' ∈ dfsmSuccs m c, c' ∈ cfgUniverse m w := by
  intro c hc c' hc'
  obtain ⟨⟨i, hi, hs⟩, _⟩ := mem_cfgUniverse.mp hc
  rw [dfsmSuccs] at hc'
  simp only [List.mem_flatMap, List.mem_map] at hc'
  obtain ⟨k, hk, q, hq, rfl⟩ := hc'
  have hq' : q ∈ dictTargets m.transitions k := mem_lookupStates.mp hq
  rw [dictTargets] at hq'
  have hstate : q ∈ allStates m := by
    cases hfind : dictFind m.transitions k with
    | none => rw [hfind] at hq'; simp at hq'
    | some s => exact target_mem_allStates hfind (by rwa [hfind] at hq')
  apply mem_cfgUniverse.mpr
  refine ⟨⟨min (i + 1) w.length, by omega, ?_⟩, hstate⟩
  rw [dfsmNextConfig]
  simp only
  rw [hs, List.tail_drop]
  rcases le_or_lt (i + 1) w.length with h | h
  · rw [Nat.min_eq_left h]
  · rw [Nat.min_eq_right (by omega)]
    rw [List.drop_eq_nil_of_le (by omega), List.drop_eq_nil_of_le (by omega)]

theorem nfsmSuccs_sub (m : FSM) (w : List Char) :
    ∀ c ∈ cfgUniverse m w, ∀ c' ∈ nfsmSuccs m c, c' ∈ cfgUniverse m w := by
  intro c hc c' hc'
  obtain ⟨⟨i, hi, hs⟩, _⟩ := mem_cfgUniverse.mp hc
  rw [nfsmSuccs] at hc'
  simp only [List.mem_flatMap, List.mem_map] at hc'
  obtain ⟨k, hk, q, hq, rfl⟩ := hc'
  have hq' : q ∈ dictTargets m.transitions k := mem_lookupStates.mp hq
  rw [dictTargets] at hq'
  have hstate : q ∈ allStates m := by
    cases hfind : dictFind m.transitions k with
    | none => rw [hfind] at hq'; simp at hq'
    | some s => exact target_mem_allStates hfind (by rwa [hfind] at hq')
  apply mem_cfgUniverse.mpr
  rw [nfsmNextConfig]
  by_cases hksym : k.2 = none
  · rw [if_pos hksym]
    exact ⟨⟨i, hi, hs⟩, hstate⟩
  · rw [if_neg hksym, dfsmNextConfig]
    refine ⟨⟨min (i + 1) w.length, by omega, ?_⟩, hstate⟩
    simp only
    rw [hs, List.tail_drop]
    rcases le_or_lt (i + 1) w.length with h | h
    · rw [Nat.min_eq_left h]
    · rw [Nat.min_eq_right (by omega)]
      rw [List.drop_eq_nil_of_le (by omega), List.drop_eq_nil_of_le (by omega)]

theorem dfsmSuccs_length (m : FSM) (c : Cfg) :
    (dfsmSuccs m c).length ≤ branchBound m - 2 := by
  rw [dfsmSuccs, branchBound]
  cases hstr : c.string with
  | nil =>
    simp only [dfsmGetKeys, hstr, List.flatMap_cons, List.flatMap_nil,
      List.append_nil, List.length_map]
    have := lookupStates_length_le m (c.state, none)
    omega
  | cons a t =>
    simp only [dfsmGetKeys, hstr, List.flatMap_cons, List.flatMap_nil,
      List.append_nil, List.length_map]
    have := lookupStates_length_le m (c.state, some a)
    omega

theorem nfsmSuccs_length (m : FSM) (c : Cfg) :
    (nfsmSuccs m c).length ≤ branchBound m - 2 := by
  rw [nfsmSuccs, branchBound, nfsmGetKeys]
  cases hstr : c.string with
  | nil =>
    simp only [dfsmGetKeys, hstr, List.cons_append, List.nil_append,
      List.flatMap_cons, List.flatMap_nil, List.append_nil,
      List.length_append, List.length_map]
    have := lookupStates_length_le m (c.state, none)
    omega
  | cons a t =>
    simp only [dfsmGetKeys, hstr, List.cons_append, List.nil_append,
      List.flatMap_cons, List.flatMap_nil, List.append_nil,
      List.length_append, List.length_map]
    have h1 := lookupStates_length_le m (c.state, some a)
    have h2 := lookupStates_length_le m (c.state, none)
    omega

theorem initial_invariant (m : FSM) (w : List Char) :
    ∀ it ∈ ([(∅, Cfg.mk w m.start)] : List (Finset Cfg × Cfg)),
      it.2 ∈ cfgUniverse m w ∧ it.1 ⊆ cfgUniverse m w := by
  intro it hit
  rcases List.mem_singleton.mp hit with rfl
  constructor
  · exact mem_cfgUniverse.mpr ⟨⟨0, Nat.zero_le _, rfl⟩, start_mem_allStates m⟩
  · simp

theorem initial_measure_lt (m : FSM) (w : List Char) :
    backlogMeasure (branchBound m) (cfgUniverse m w).card
      [(∅, Cfg.mk w m.start)] < runFuel m w := by
  rw [backlogMeasure, runFuel]
  simp [itemWeight]

theorem runWithN_ne_none (m : FSM) (w : List Char) : runWithN m w ≠ none := by
  rw [runWithN]
  apply runAux_ne_none (nfsmRI m) (cfgUniverse m w) (branchBound m)
  · rw [branchBound]; omega
  · exact fun c _ => nfsmSuccs_length m c
  · exact nfsmSuccs_sub m w
  · exact initial_invariant m w
  · exact initial_measure_lt m w

theorem runWithD_ne_none (m : FSM) (w : List Char) : runWithD m w ≠ none := by
  rw [runWithD]
  apply runAux_ne_none (dfsmRI m) (cfgUniverse m w) (branchBound m)
  · rw [branchBound]; omega
  · exact fun c _ => dfsmSuccs_length m c
  · exact dfsmSuccs_sub m w
  · exact initial_invariant m w
  · exact initial_measure_lt m w

theorem option_runnerstate_cases (o : Option RunnerState)
    (h1 : o ≠ none) (h2 : o ≠ some .CONTINUE) :
    o = some .ACCEPT ∨ o = some .REJECT := by
  match o with
  | none => exact absurd rfl h1
  | some .CONTINUE => exact absurd rfl h2
  | some .ACCEPT => exact Or.inl rfl
  | some .REJECT => exact Or.inr rfl

/-- C4: for every machine (epsilon-cycles included) and every input word,
run_with terminates and returns Accept or Reject — under both the
deterministic and the nondeterministic runner, the seen-set mechanism makes
the exploration loop finish within the computed fuel, and the verdict is
never anything else. -/
theorem claim_C4_run_with_terminates (m : FSM) (w : List Char) :
    (runWithN m w = some .ACCEPT ∨ runWithN m w = some .REJECT) ∧
    (runWithD m w = some .ACCEPT ∨ runWithD m w = some .REJECT) :=
  ⟨option_runnerstate_cases _ (runWithN_ne_none m w)
      (runAux_ne_some_continue (nfsmRI m) _ _),
   option_runnerstate_cases _ (runWithD_ne_none m w)
      (runAux_ne_some_continue (dfsmRI m) _ _)⟩

/-! ### What the loop computes: reachability in the configuration graph -/

/-- One step of the configuration graph. -/
def StepRel (r : RunnerI) (c c' : Cfg) : Prop :=
  c' ∈ r.succs c

/-- Reachability in the configuration graph. -/
def Reach (r : RunnerI) : Cfg → Cfg → Prop :=
  Relation.ReflTransGen (StepRel r)

/-- Some reachable configuration passes check_accept. -/
def AcceptsCfg (r : RunnerI) (c0 : Cfg) : Prop :=
  ∃ c, Reach r c0 c ∧ r.check c = .ACCEPT

/-- ds is a list of successive successor configurations starting from c. -/
def ChainSteps (r : RunnerI) : Cfg → List Cfg → Prop
  | _, [] => True
  | c, d :: ds => d ∈ r.succs c ∧ ChainSteps r d ds

/-- Endpoint of a chain. -/
def lastCfg (c : Cfg) (ds : List Cfg) : Cfg :=
  ds.getLastD c

theorem lastCfg_cons (c d : Cfg) (ds : List Cfg) :
    lastCfg c (d :: ds) = lastCfg d ds := by
  rw [lastCfg, lastCfg, List.getLastD_cons]

theorem lastCfg_append_cons :
    ∀ (u : List Cfg) (x d : Cfg) (v : List Cfg),
      lastCfg x (u ++ d :: v) = lastCfg d v := by
  intro u
  induction u with
  | nil => intro x d v; rw [List.nil_append, lastCfg_cons]
  | cons a u ih =>
    intro x d v
    rw [List.cons_append, lastCfg_cons]
    exact ih a d v

theorem chainSteps_append_singleton (r : RunnerI) :
    ∀ (ds : List Cfg) (c d : Cfg),
      ChainSteps r c ds → d ∈ r.succs (lastCfg c ds) →
        ChainSteps r c (ds ++ [d]) := by
  intro ds
  induction ds with
  | nil =>
    intro c d _ hd
    exact ⟨hd, trivial⟩
  | cons e ds ih =>
    intro c d hch hd
    obtain ⟨he, hch'⟩ := hch
    rw [lastCfg_cons] at hd
    exact ⟨he, ih e d hch' hd⟩

theorem reach_iff_chain (r : RunnerI) (c c' : Cfg) :
    Reach r c c' ↔ ∃ ds, ChainSteps r c ds ∧ lastCfg c ds = c' := by
  constructor
  · intro h
    induction h with
    | refl => exact ⟨[], trivial, rfl⟩
    | @tail b c2 _ hstep ih =>
      obtain ⟨ds, hch, hlast⟩ := ih
      refine ⟨ds ++ [c2], chainSteps_append_singleton r ds c c2 hch ?_, ?_⟩
      · rwa [hlast]
      · rw [lastCfg, List.getLastD_concat]
  · rintro ⟨ds, hch, rfl⟩
    clear * - hch
    induction ds generalizing c with
    | nil => exact Relation.ReflTransGen.refl
    | cons d ds ih =>
      obtain ⟨hd, hch'⟩ := hch
      rw [lastCfg_cons]
      exact Relation.ReflTransGen.head hd (ih d hch')

theorem chainSteps_split (r : RunnerI) :
    ∀ (u : List Cfg) (x d : Cfg) (v : List Cfg),
      ChainSteps r x (u ++ d :: v) → ChainSteps r d v := by
  intro u
  induction u with
  | nil =>
    intro x d v h
    exact h.2
  | cons a u ih =>
    intro x d v h
    exact ih a d v h.2

/-- A chain can be thinned to a duplicate-free chain with the same start
and endpoint, using only configurations of the original chain. -/
theorem chain_dedup (r : RunnerI) :
    ∀ (n : ℕ) (c : Cfg) (ds : List Cfg), ds.length ≤ n → ChainSteps r c ds →
      ∃ ds', ChainSteps r c ds' ∧ lastCfg c ds' = lastCfg c ds ∧
        ds'.Nodup ∧ ds' ⊆ ds := by
  intro n
  induction n with
  | zero =>
    intro c ds hlen _
    match ds, hlen with
    | [], _ => exact ⟨[], trivial, rfl, List.nodup_nil, by simp⟩
  | succ n ih =>
    intro c ds hlen hch
    match ds with
    | [] => exact ⟨[], trivial, rfl, List.nodup_nil, by simp⟩
    | d :: ds1 =>
      obtain ⟨hd, hch1⟩ := hch
      by_cases hmem : d ∈ ds1
      · obtain ⟨u, v, rfl⟩ := List.append_of_mem hmem
        have hchv : ChainSteps r d v := chainSteps_split r u d d v hch1
        have hlenv : (d :: v).length ≤ n := by
          have := hlen
          simp only [List.length_cons, List.length_append] at this ⊢
          omega
        obtain ⟨ds', hch', hlast', hnd', hsub'⟩ :=
          ih c (d :: v) hlenv ⟨hd, hchv⟩
        refine ⟨ds', hch', ?_, hnd', ?_⟩
        · rw [hlast', lastCfg_cons, lastCfg_cons, lastCfg_append_cons]
        · intro x hx
          rcases List.mem_cons.mp (hsub' hx) with h | h
          · exact List.mem_cons.mpr (Or.inl h)
          · exact List.mem_cons.mpr (Or.inr (by
              rcases List.mem_append.mp (List.mem_append.mpr (Or.inr (List.mem_cons.mpr (Or.inr h)))) with h' | h'
              · exact List.mem_append.mpr (Or.inl h')
              · exact List.mem_append.mpr (Or.inr h')))
      · obtain ⟨ds'', hch'', hlast'', hnd'', hsub''⟩ :=
          ih d ds1 (by simpa using hlen) hch1
        refine ⟨d :: ds'', ⟨hd, hch''⟩, ?_, ?_, ?_⟩
        · rw [lastCfg_cons, lastCfg_cons, hlast'']
        · exact List.nodup_cons.mpr ⟨fun h => hmem (hsub'' h), hnd''⟩
        · intro x hx
          rcases List.mem_cons.mp hx with h | h
          · exact List.mem_cons.mpr (Or.inl h)
          · exact List.mem_cons.mpr (Or.inr (hsub'' h))

/-- Soundness of the loop: an ACCEPT verdict exhibits a configuration that
satisfies any step-closed predicate holding of the backlog. -/
theorem runAux_accept_sound (r : RunnerI) (P : Cfg → Prop)
    (hP : ∀ c c', P c → c' ∈ r.succs c → P c') :
    ∀ fuel bl, (∀ it ∈ bl, P it.2) → runAux r fuel bl = some .ACCEPT →
      ∃ c, P c ∧ r.check c = .ACCEPT := by
  intro fuel
  induction fuel with
  | zero =>
    intro bl hbl h
    match bl with
    | [] => simp [runAux] at h
    | _ :: _ => simp [runAux] at h
  | succ fuel ih =>
    intro bl hbl h
    match bl with
    | [] => simp [runAux] at h
    | (seen, c) :: rest =>
      rw [runAux] at h
      cases hcheck : r.check c with
      | ACCEPT => exact ⟨c, hbl _ (List.mem_cons_self _ _), hcheck⟩
      | REJECT =>
        rw [hcheck] at h
        exact ih rest (fun it hit => hbl it (List.mem_cons_of_mem _ hit)) h
      | CONTINUE =>
        rw [hcheck] at h
        apply ih _ _ h
        intro it hit
        rcases List.mem_append.mp hit with hm | hm
        · exact hbl it (List.mem_cons_of_mem _ hm)
        · obtain ⟨c', hc', _, rfl⟩ := mem_pushToBacklog.mp hm
          exact hP c c' (hbl _ (List.mem_cons_self _ _)) hc'

/-- A work item that can still lead to acceptance: a duplicate-free chain
to an accepting configuration avoiding the item's seen-set. -/
def GoodItem (r : RunnerI) (it : Finset Cfg × Cfg) : Prop :=
  ∃ ds, ChainSteps r it.2 ds ∧ r.check (lastCfg it.2 ds) = .ACCEPT ∧
    ds.Nodup ∧ ∀ d ∈ ds, d ∉ it.1

/-- Some item of the backlog can still lead to acceptance. -/
def GoodBL (r : RunnerI) (bl : List (Finset Cfg × Cfg)) : Prop :=
  ∃ it ∈ bl, GoodItem r it

/-- Completeness of the loop: if rejecting configurations have no
successors, a backlog with a live accepting chain cannot drain to
REJECT. -/
theorem runAux_complete (r : RunnerI)
    (hrej : ∀ c, r.check c = .REJECT → r.succs c = []) :
    ∀ fuel bl res, runAux r fuel bl = some res → GoodBL r bl →
      res = .ACCEPT := by
  intro fuel
  induction fuel with
  | zero =>
    intro bl res h hg
    match bl with
    | [] =>
      obtain ⟨it, hit, _⟩ := hg
      simp at hit
    | _ :: _ => simp [runAux] at h
  | succ fuel ih =>
    intro bl res h hg
    match bl with
    | [] =>
      obtain ⟨it, hit, _⟩ := hg
      simp at hit
    | (seen, c) :: rest =>
      rw [runAux] at h
      cases hcheck : r.check c with
      | ACCEPT =>
        rw [hcheck] at h
        exact (Option.some_inj.mp h).symm
      | REJECT =>
        rw [hcheck] at h
        obtain ⟨it, hit, hgood⟩ := hg
        rcases List.mem_cons.mp hit with rfl | hmem
        · obtain ⟨ds, hch, hacc, _, _⟩ := hgood
          match ds with
          | [] => rw [lastCfg] at hacc; simp at hacc; rw [hacc] at hcheck; simp at hcheck
          | d :: ds' =>
            have := hch.1
            rw [hrej c hcheck] at this
            simp at this
        · exact ih rest res h ⟨it, hmem, hgood⟩
      | CONTINUE =>
        rw [hcheck] at h
        obtain ⟨it, hit, hgood⟩ := hg
        rcases List.mem_cons.mp hit with rfl | hmem
        · obtain ⟨ds, hch, hacc, hnd, hav⟩ := hgood
          match ds with
          | [] => rw [lastCfg] at hacc; simp at hacc; rw [hacc] at hcheck; simp at hcheck
          | d :: ds' =>
            apply ih _ res h
            refine ⟨(insert d seen, d), ?_, ?_⟩
            · apply List.mem_append.mpr
              apply Or.inr
              apply mem_pushToBacklog.mpr
              exact ⟨d, hch.1, hav d (List.mem_cons_self _ _), rfl⟩
            · refine ⟨ds', hch.2, ?_, (List.nodup_cons.mp hnd).2, ?_⟩
              · rwa [lastCfg_cons] at hacc
              · intro e he hins
                rcases Finset.mem_insert.mp hins with h' | h'
                · subst h'
                  exact (List.nodup_cons.mp hnd).1 he
                · exact hav e (List.mem_cons_of_mem _ he) h'
        · exact ih _ res h ⟨it, List.mem_append.mpr (Or.inl hmem), hgood⟩

/-- For the NeFSM runner, a rejecting configuration has no successors. -/
theorem nfsm_reject_no_succs (m : FSM) (c : Cfg) :
    nfsmCheckAccept m c = .REJECT → nfsmSuccs m c = [] := by
  intro h
  rw [nfsmCheckAccept] at h
  cases hstr : c.string with
  | cons a t =>
    rw [dfsmCheckAccept, hstr] at h
    simp at h
  | nil =>
    rw [dfsmCheckAccept, hstr] at h
    by_cases hfind : (dictFind m.transitions (c.state, none)).isSome
    · rw [RunnerState.fromBool] at h
      by_cases hmem : decide (c.state ∈ m.accepting) = true
      · rw [if_pos hmem] at h; simp at h
      · rw [if_neg hmem, if_pos hfind] at h; simp at h
    · rw [nfsmSuccs, nfsmGetKeys, dfsmGetKeys, hstr]
      have : lookupStates m.transitions (c.state, none) = [] := by
        rw [lookupStates]
        cases hf : dictFind m.transitions (c.state, none) with
        | none => rfl
        | some s => rw [hf] at hfind; simp at hfind
      simp [this]

theorem nfsmCheck_accept_iff (m : FSM) (c : Cfg) :
    nfsmCheckAccept m c = .ACCEPT ↔ c.string = [] ∧ c.state ∈ m.accepting := by
  rw [nfsmCheckAccept, dfsmCheckAccept]
  cases hstr : c.string with
  | cons a t => simp
  | nil =>
    by_cases hmem : c.state ∈ m.accepting
    · simp [RunnerState.fromBool, hmem]
    · by_cases hfind : (dictFind m.transitions (c.state, none)).isSome
      · simp [RunnerState.fromBool, hmem, hfind]
      · simp [RunnerState.fromBool, hmem, hfind]

/-- Language of the machine under the NeFSM runner, as configuration-graph
reachability: some accepting state is reachable with the input consumed. -/
def NAccepts (m : FSM) (w : List Char) : Prop :=
  ∃ f ∈ m.accepting, Reach (nfsmRI m) ⟨w, m.start⟩ ⟨[], f⟩

theorem acceptsCfg_nfsm_iff (m : FSM) (w : List Char) :
    AcceptsCfg (nfsmRI m) ⟨w, m.start⟩ ↔ NAccepts m w := by
  constructor
  · rintro ⟨c, hr, hacc⟩
    obtain ⟨hstr, hmem⟩ := (nfsmCheck_accept_iff m c).mp hacc
    refine ⟨c.state, hmem, ?_⟩
    have : c = ⟨[], c.state⟩ := by cases c; simp_all
    rwa [this] at hr
  · rintro ⟨f, hf, hr⟩
    exact ⟨⟨[], f⟩, hr, (nfsmCheck_accept_iff m _).mpr ⟨rfl, hf⟩⟩

/-- The loop's verdict coincides with configuration-graph acceptance. -/
theorem runWithN_accept_iff (m : FSM) (w : List Char) :
    runWithN m w = some .ACCEPT ↔ NAccepts m w := by
  rw [← acceptsCfg_nfsm_iff]
  constructor
  · intro h
    rw [runWithN] at h
    obtain ⟨c, hc, hacc⟩ := runAux_accept_sound (nfsmRI m)
      (Reach (nfsmRI m) ⟨w, m.start⟩)
      (fun c c' hc hstep => Relation.ReflTransGen.tail hc hstep)
      _ _ (by
        intro it hit
        rcases List.mem_singleton.mp hit with rfl
        exact Relation.ReflTransGen.refl) h
    exact ⟨c, hc, hacc⟩
  · rintro ⟨c, hr, hacc⟩
    obtain ⟨ds, hch, hlast⟩ := (reach_iff_chain _ _ _).mp hr
    obtain ⟨ds', hch', hlast', hnd', _⟩ :=
      chain_dedup (nfsmRI m) ds.length _ ds le_rfl hch
    rcases (claim_C4_run_with_terminates m w).1 with h | h
    · exact h
    · exfalso
      have := runAux_complete (nfsmRI m) (nfsm_reject_no_succs m) _ _ _ h
        ⟨(∅, ⟨w, m.start⟩), List.mem_singleton.mpr rfl,
          ds', hch', by rw [hlast', hlast]; exact hacc, hnd', by simp⟩
      simp at this

/-- NeFSM.run agrees with the reachability language. -/
theorem runBoolN_iff (m : FSM) (w : List Char) :
    runBoolN m w = true ↔ NAccepts m w := by
  rw [runBoolN, decide_eq_true_iff]
  exact runWithN_accept_iff m w

theorem runBoolN_false_iff (m : FSM) (w : List Char) :
    runBoolN m w = false ↔ ¬ NAccepts m w := by
  rw [← runBoolN_iff]
  cases h : runBoolN m w <;> simp

/-! ### Dictionary lemmas -/

theorem dictFind_eq_none_iff {d : TransD} {k : ℕ × Symbol} :
    dictFind d k = none ↔ ∀ e ∈ d, e.1 ≠ k := by
  induction d with
  | nil => simp [dictFind]
  | cons e d ih =>
    rw [dictFind]
    by_cases hek : e.1 = k
    · simp [hek]
    · simp [hek, ih]

theorem dictFind_isSome_iff {d : TransD} {k : ℕ × Symbol} :
    (dictFind d k).isSome = true ↔ ∃ e ∈ d, e.1 = k := by
  rw [Option.isSome_iff_ne_none, Ne, dictFind_eq_none_iff]
  push_neg
  rfl

theorem dictFind_dictSet_self (d : TransD) (k : ℕ × Symbol) (v : Finset ℕ) :
    dictFind (dictSet d k v) k = some v := by
  induction d with
  | nil => simp [dictSet, dictFind]
  | cons e d ih =>
    rw [dictSet]
    by_cases hek : e.1 = k
    · rw [if_pos hek, dictFind, if_pos rfl]
    · rw [if_neg hek, dictFind, if_neg hek]
      exact ih

theorem dictFind_dictSet_other (d : TransD) (k k' : ℕ × Symbol) (v : Finset ℕ)
    (hne : k' ≠ k) : dictFind (dictSet d k v) k' = dictFind d k' := by
  induction d with
  | nil =>
    rw [dictSet, dictFind, dictFind, if_neg (fun h => hne h.symm)]
    rfl
  | cons e d ih =>
    rw [dictSet]
    by_cases hek : e.1 = k
    · rw [if_pos hek, dictFind, dictFind, if_neg (fun h => hne h.symm),
        if_neg (by rw [hek]; exact fun h => hne h.symm)]
    · rw [if_neg hek, dictFind, dictFind]
      by_cases hek' : e.1 = k'
      · rw [if_pos hek', if_pos hek']
      · rw [if_neg hek', if_neg hek']
        exact ih

theorem dictTargets_dictSet_self (d : TransD) (k : ℕ × Symbol) (v : Finset ℕ) :
    dictTargets (dictSet d k v) k = v := by
  rw [dictTargets, dictFind_dictSet_self]
  rfl

theorem dictTargets_dictSet_other (d : TransD) (k k' : ℕ × Symbol)
    (v : Finset ℕ) (hne : k' ≠ k) :
    dictTargets (dictSet d k v) k' = dictTargets d k' := by
  rw [dictTargets, dictFind_dictSet_other d k k' v hne, dictTargets]

theorem dictTargets_updateState_self (d : TransD) (k : ℕ × Symbol)
    (v : Finset ℕ) : dictTargets (updateState d k v) k = dictTargets d k ∪ v := by
  rw [updateState]
  cases h : dictFind d k with
  | some s =>
    rw [dictTargets_dictSet_self, dictTargets, h]
    rfl
  | none =>
    rw [dictTargets_dictSet_self, dictTargets, h]
    simp

theorem dictTargets_updateState_other (d : TransD) (k k' : ℕ × Symbol)
    (v : Finset ℕ) (hne : k' ≠ k) :
    dictTargets (updateState d k v) k' = dictTargets d k' := by
  rw [updateState]
  cases dictFind d k with
  | some s => exact dictTargets_dictSet_other d k k' _ hne
  | none => exact dictTargets_dictSet_other d k k' _ hne

theorem mem_dictSet_sub {d : TransD} {k : ℕ × Symbol} {v : Finset ℕ}
    {e : (ℕ × Symbol) × Finset ℕ} (he : e ∈ dictSet d k v) :
    e ∈ d ∨ e = (k, v) := by
  induction d with
  | nil =>
    rw [dictSet] at he
    exact Or.inr (List.mem_singleton.mp he)
  | cons f d ih =>
    rw [dictSet] at he
    by_cases hfk : f.1 = k
    · rw [if_pos hfk] at he
      rcases List.mem_cons.mp he with h | h
      · exact Or.inr h
      · exact Or.inl (List.mem_cons_of_mem _ h)
    · rw [if_neg hfk] at he
      rcases List.mem_cons.mp he with h | h
      · exact Or.inl (List.mem_cons.mpr (Or.inl h))
      · rcases ih h with h' | h'
        · exact Or.inl (List.mem_cons_of_mem _ h')
        · exact Or.inr h'

theorem mem_updateState_sub {d : TransD} {k : ℕ × Symbol} {v : Finset ℕ}
    {e : (ℕ × Symbol) × Finset ℕ} (he : e ∈ updateState d k v) :
    e ∈ d ∨ (e.1 = k ∧ e.2 ⊆ dictTargets d k ∪ v) := by
  rw [updateState] at he
  cases h : dictFind d k with
  | some s =>
    rw [h] at he
    rcases mem_dictSet_sub he with h' | h'
    · exact Or.inl h'
    · refine Or.inr ⟨by rw [h'], ?_⟩
      rw [h', dictTargets, h]
      exact fun x hx => by simpa using hx
  | none =>
    rw [h] at he
    rcases mem_dictSet_sub he with h' | h'
    · exact Or.inl h'
    · refine Or.inr ⟨by rw [h'], ?_⟩
      rw [h', dictTargets, h]
      exact fun x hx => Finset.mem_union_right _ hx

theorem mem_dictMerge_sub {a b : TransD} {e : (ℕ × Symbol) × Finset ℕ}
    (he : e ∈ dictMerge a b) : e ∈ a ∨ e ∈ b := by
  rw [dictMerge] at he
  induction b generalizing a with
  | nil => exact Or.inl he
  | cons f b ih =>
    rw [List.foldl_cons] at he
    rcases ih he with h | h
    · rcases mem_dictSet_sub h with h' | h'
      · exact Or.inl h'
      · refine Or.inr (List.mem_cons.mpr (Or.inl ?_))
        rw [h']
    · exact Or.inr (List.mem_cons.mpr (Or.inr h))

/-- Keys of a merged dictionary resolve to the overriding dictionary first
(requires the overriding dictionary to have unduplicated keys, as Python
dicts do). -/
theorem dictFind_dictMerge (a b : TransD) (hb : DictWF b) (k : ℕ × Symbol) :
    dictFind (dictMerge a b) k =
      match dictFind b k with
      | some v => some v
      | none => dictFind a k := by
  induction b generalizing a with
  | nil => simp [dictMerge, dictFind]
  | cons e b ih =>
    have hb' : DictWF b := (List.nodup_cons.mp hb).2
    have hkey : e.1 ∉ b.map Prod.fst := (List.nodup_cons.mp hb).1
    rw [dictMerge, List.foldl_cons, ← dictMerge, ih _ hb']
    by_cases hk : e.1 = k
    · have hbnone : dictFind b k = none := by
        rw [dictFind_eq_none_iff]
        intro f hf hfk
        exact hkey (List.mem_map.mpr ⟨f, hf, by rw [hfk, ← hk]⟩)
      rw [hbnone, dictFind, if_pos hk]
      simp only
      rw [← hk, dictFind_dictSet_self]
    · rw [dictFind, if_neg hk]
      cases h : dictFind b k with
      | some v => rfl
      | none =>
        simp only
        exact dictFind_dictSet_other a e.1 k e.2 (fun h => hk h.symm)

theorem dictTargets_dictMerge (a b : TransD) (hb : DictWF b) (k : ℕ × Symbol) :
    dictTargets (dictMerge a b) k =
      if (dictFind b k).isSome then dictTargets b k else dictTargets a k := by
  rw [dictTargets, dictFind_dictMerge a b hb k]
  cases h : dictFind b k with
  | some v => simp [dictTargets, h]
  | none => simp [dictTargets, h]

theorem dictTargets_eq_empty_of_not_source {d : TransD} {k : ℕ × Symbol}
    (h : ∀ e ∈ d, e.1 ≠ k) : dictTargets d k = ∅ := by
  rw [dictTargets, dictFind_eq_none_iff.mpr h]
  rfl

/-- Characterisation of membership in a union-fold. -/
theorem mem_foldl_union_iff {α : Type} [DecidableEq α] {β : Type}
    (g : β → Finset α) (l : List β) (init : Finset α) (x : α) :
    x ∈ l.foldl (fun acc e => acc ∪ g e) init ↔ x ∈ init ∨ ∃ e ∈ l, x ∈ g e := by
  induction l generalizing init with
  | nil => simp
  | cons f l ih =>
    rw [List.foldl_cons, ih]
    simp only [Finset.mem_union, List.mem_cons]
    constructor
    · rintro (⟨h | h⟩ | ⟨e, he, hx⟩)
      · exact Or.inl h
      · exact Or.inr ⟨f, Or.inl rfl, h⟩
      · exact Or.inr ⟨e, Or.inr he, hx⟩
    · rintro (h | ⟨e, he | he, hx⟩)
      · exact Or.inl (Or.inl h)
      · exact Or.inl (Or.inr (he ▸ hx))
      · exact Or.inr ⟨e, he, hx⟩

theorem mem_allStates_iff {m : FSM} {q : ℕ} :
    q ∈ allStates m ↔ q = m.start ∨ ∃ e ∈ m.transitions, q ∈ insert e.1.1 e.2 := by
  unfold allStates
  rw [mem_foldl_union_iff]
  simp

theorem dictTargets_subset_allStates (m : FSM) (k : ℕ × Symbol) :
    dictTargets m.transitions k ⊆ allStates m := by
  intro q hq
  rw [dictTargets] at hq
  cases h : dictFind m.transitions k with
  | none => rw [h] at hq; simp at hq
  | some s => exact target_mem_allStates h (by rwa [h] at hq)

theorem not_source_of_not_mem_allStates {m : FSM} {q : ℕ}
    (h : q ∉ allStates m) (sym : Symbol) :
    dictTargets m.transitions (q, sym) = ∅ := by
  apply dictTargets_eq_empty_of_not_source
  intro e he hek
  apply h
  rw [mem_allStates_iff]
  exact Or.inr ⟨e, he, by rw [hek]; exact Finset.mem_insert_self _ _⟩

/-! ### NFSM algebraic operations (fsm/fsm.py NeFSM) -/

/-- DFSM._get_all_prev_states: sources of every edge targeting q. -/
def getAllPrevStates (d : TransD) (q : ℕ) : List ℕ :=
  (d.filter fun e => decide (q ∈ e.2)).map fun e => e.1.1

/-- NeFSM._accepting_states_in_normal_form: a single accepting state with
no outgoing transitions on any alphabet symbol or EPSILON. -/
def acceptingInNormalForm (m : FSM) : Bool :=
  if m.accepting.card = 1 then
    decide (∀ sym ∈ insert (none : Symbol) m.alphabet,
      dictFind m.transitions (pick1 m.accepting, sym) = none)
  else false

/-- NeFSM.to_normal_form, with the state counter threaded in place of the
source's global State() allocation. -/
def toNormalForm (m : FSM) (c : ℕ) : FSM × ℕ :=
  let p :=
    if 0 < (getAllPrevStates m.transitions m.start).length then
      (c, dictSet m.transitions (c, none) {m.start}, c + 1)
    else (m.start, m.transitions, c)
  let start := p.1
  let t1 := p.2.1
  let c1 := p.2.2
  let q :=
    if acceptingInNormalForm m then (pick1 m.accepting, t1, c1)
    else
      (c1, (natList m.accepting).foldl (fun t f => updateState t (f, none) {c1}) t1,
        c1 + 1)
  let accept := q.1
  let t2 := q.2.1
  let c2 := q.2.2
  (⟨m.states ∪ {start, accept}, m.alphabet, t2, start, {accept}⟩, c2)

/-- NeFSM.atom_matcher. -/
def atomMatcher (sym : Symbol) (c : ℕ) : FSM × ℕ :=
  (⟨{c, c + 1}, {sym}, [((c, sym), {c + 1})], c, {c + 1}⟩, c + 2)

/-- NeFSM.concat. -/
def concatFSM (A B : FSM) (c : ℕ) : FSM × ℕ :=
  let pa := toNormalForm A c
  let a := pa.1
  let pb := toNormalForm B pa.2
  let b := pb.1
  let c2 := pb.2
  let t := dictMerge a.transitions b.transitions
  let aAccept := pick1 a.accepting
  let bAccept := pick1 b.accepting
  let t := updateState t (aAccept, none) {b.start}
  (⟨a.states ∪ b.states, a.alphabet ∪ b.alphabet, t, a.start, {bAccept}⟩, c2)

/-- NeFSM.union. -/
def unionFSM (A B : FSM) (c : ℕ) : FSM × ℕ :=
  let pa := toNormalForm A c
  let a := pa.1
  let pb := toNormalForm B pa.2
  let b := pb.1
  let c2 := pb.2
  let t := dictMerge a.transitions b.transitions
  let aAccept := pick1 a.accepting
  let bAccept := pick1 b.accepting
  let start := c2
  let accept := c2 + 1
  let t := dictSet t (start, none) {a.start, b.start}
  let t := updateState t (aAccept, none) {accept}
  let t := updateState t (bAccept, none) {accept}
  (⟨a.states ∪ b.states ∪ {start, accept}, a.alphabet ∪ b.alphabet, t, start,
      {accept}⟩, c2 + 2)

/-- NeFSM.kleene_star (the fresh state is allocated before normalising, as
in the source, and the result is normalised again). -/
def kleeneStarFSM (m : FSM) (c : ℕ) : FSM × ℕ :=
  let state := c
  let px := toNormalForm m (c + 1)
  let x := px.1
  let c1 := px.2
  let accept := pick1 x.accepting
  let t := dictSet x.transitions (state, none) {x.start}
  let t := updateState t (accept, none) {state}
  toNormalForm ⟨x.states ∪ {state}, x.alphabet, t, state, {state}⟩ c1

/-! ### Steps of the nondeterministic runner, in transition terms -/

theorem mem_nfsmSuccs_iff (m : FSM) (c c' : Cfg) :
    c' ∈ nfsmSuccs m c ↔
      (∃ a t, c.string = a :: t ∧ c'.string = t ∧
        c'.state ∈ dictTargets m.transitions (c.state, some a)) ∨
      (c'.string = c.string ∧
        c'.state ∈ dictTargets m.transitions (c.state, none)) := by
  obtain ⟨s, q⟩ := c
  obtain ⟨s', q'⟩ := c'
  cases s with
  | nil =>
    rw [nfsmSuccs, nfsmGetKeys, dfsmGetKeys]
    simp only [List.cons_append, List.nil_append, List.flatMap_cons,
      List.flatMap_nil, List.append_nil, List.mem_append, List.mem_map]
    have hnc : ∀ x : ℕ,
        nfsmNextConfig ⟨[], q⟩ (q, none) x = ⟨[], x⟩ := by
      intro x
      rw [nfsmNextConfig]
      simp
    constructor
    · rintro (⟨x, hx, heq⟩ | ⟨x, hx, heq⟩) <;>
      · rw [hnc] at heq
        injection heq with h1 h2
        subst h1; subst h2
        exact Or.inr ⟨rfl, mem_lookupStates.mp hx⟩
    · rintro (⟨a, t, h, _, _⟩ | ⟨h1, h2⟩)
      · exact absurd h (by simp)
      · subst h1
        exact Or.inl ⟨q', mem_lookupStates.mpr h2, hnc q'⟩
  | cons a t =>
    rw [nfsmSuccs, nfsmGetKeys, dfsmGetKeys]
    simp only [List.cons_append, List.nil_append, List.flatMap_cons,
      List.flatMap_nil, List.append_nil, List.mem_append, List.mem_map]
    have hnc1 : ∀ x : ℕ,
        nfsmNextConfig ⟨a :: t, q⟩ (q, some a) x = ⟨t, x⟩ := by
      intro x
      rw [nfsmNextConfig]
      simp [dfsmNextConfig]
    have hnc2 : ∀ x : ℕ,
        nfsmNextConfig ⟨a :: t, q⟩ (q, none) x = ⟨a :: t, x⟩ := by
      intro x
      rw [nfsmNextConfig]
      simp
    constructor
    · rintro (⟨x, hx, heq⟩ | ⟨x, hx, heq⟩)
      · rw [hnc1] at heq
        injection heq with h1 h2
        subst h1; subst h2
        exact Or.inl ⟨a, t, rfl, rfl, mem_lookupStates.mp hx⟩
      · rw [hnc2] at heq
        injection heq with h1 h2
        subst h1; subst h2
        exact Or.inr ⟨rfl, mem_lookupStates.mp hx⟩
    · rintro (⟨a', t', h, h1, h2⟩ | ⟨h1, h2⟩)
      · injection h with ha ht
        subst ha; subst ht; subst h1
        exact Or.inl ⟨q', mem_lookupStates.mpr h2, hnc1 q'⟩
      · subst h1
        exact Or.inr ⟨q', mem_lookupStates.mpr h2, hnc2 q'⟩

theorem nfsmSuccs_mono {m m' : FSM}
    (h : ∀ k, dictTargets m.transitions k ⊆ dictTargets m'.transitions k)
    {c c' : Cfg} (hc : c' ∈ nfsmSuccs m c) : c' ∈ nfsmSuccs m' c := by
  rcases (mem_nfsmSuccs_iff m c c').mp hc with ⟨a, t, h1, h2, h3⟩ | ⟨h1, h2⟩
  · exact (mem_nfsmSuccs_iff m' c c').mpr (Or.inl ⟨a, t, h1, h2, h _ h3⟩)
  · exact (mem_nfsmSuccs_iff m' c c').mpr (Or.inr ⟨h1, h _ h2⟩)

theorem reach_mono {m m' : FSM}
    (h : ∀ k, dictTargets m.transitions k ⊆ dictTargets m'.transitions k)
    {c c' : Cfg} (hr : Reach (nfsmRI m) c c') : Reach (nfsmRI m') c c' := by
  induction hr with
  | refl => exact Relation.ReflTransGen.refl
  | tail _ hstep ih =>
    exact Relation.ReflTransGen.tail ih (nfsmSuccs_mono h hstep)

theorem reach_of_no_succs {r : RunnerI} {c c' : Cfg} (h : r.succs c = [])
    (hr : Reach r c c') : c' = c := by
  rcases Relation.ReflTransGen.cases_head hr with heq | ⟨c1, hstep, _⟩
  · exact heq.symm
  · rw [StepRel, h] at hstep
    simp at hstep

theorem nfsmSuccs_eq_nil_of_empty {m : FSM} {c : Cfg}
    (h : ∀ sym, dictTargets m.transitions (c.state, sym) = ∅) :
    nfsmSuccs m c = [] := by
  rw [List.eq_nil_iff_forall_not_mem]
  intro c' hc'
  rcases (mem_nfsmSuccs_iff m c c').mp hc' with ⟨a, t, _, _, h3⟩ | ⟨_, h2⟩
  · rw [h (some a)] at h3
    simp at h3
  · rw [h none] at h2
    simp at h2

theorem naccepts_congr (m m' : FSM) (ht : m'.transitions = m.transitions)
    (hs : m'.start = m.start) (ha : m'.accepting = m.accepting)
    (w : List Char) : NAccepts m' w ↔ NAccepts m w := by
  have h1 : ∀ k, dictTargets m'.transitions k ⊆ dictTargets m.transitions k := by
    rw [ht]; exact fun k => le_rfl
  have h2 : ∀ k, dictTargets m.transitions k ⊆ dictTargets m'.transitions k := by
    rw [ht]; exact fun k => le_rfl
  rw [NAccepts, NAccepts, ha, hs]
  constructor
  · rintro ⟨f, hf, hr⟩
    exact ⟨f, hf, reach_mono h1 hr⟩
  · rintro ⟨f, hf, hr⟩
    exact ⟨f, hf, reach_mono h2 hr⟩

theorem accepting_eq_singleton_pick1 {m : FSM} (h : m.accepting.card = 1) :
    m.accepting = {pick1 m.accepting} := by
  obtain ⟨x, hx⟩ := Finset.card_eq_one.mp h
  rw [hx, pick1_singleton]

theorem dictTargets_foldl_updateState (u : ℕ) :
    ∀ (l : List ℕ) (t0 : TransD) (k : ℕ × Symbol),
      dictTargets (l.foldl (fun t f => updateState t (f, none) {u}) t0) k =
        dictTargets t0 k ∪ (if k.1 ∈ l ∧ k.2 = none then {u} else ∅) := by
  intro l
  induction l with
  | nil => simp
  | cons f l ih =>
    intro t0 k
    rw [List.foldl_cons, ih]
    by_cases hk : k = (f, none)
    · subst hk
      rw [dictTargets_updateState_self]
      rw [if_pos (show ((f, none) : ℕ × Symbol).1 ∈ f :: l ∧
        ((f, none) : ℕ × Symbol).2 = none from ⟨by simp, rfl⟩)]
      by_cases hfl : f ∈ l
      · rw [if_pos (show ((f, none) : ℕ × Symbol).1 ∈ l ∧
          ((f, none) : ℕ × Symbol).2 = none from ⟨hfl, rfl⟩)]
        rw [Finset.union_assoc, Finset.union_self]
      · rw [if_neg (by simp [hfl])]
        rw [Finset.union_empty]
    · rw [dictTargets_updateState_other _ _ _ _ hk]
      congr 1
      by_cases hsym : k.2 = none
      · have hkf : k.1 ≠ f := by
          intro hh
          apply hk
          obtain ⟨k1, k2⟩ := k
          simp only at hh hsym
          rw [hh, hsym]
        simp only [hsym, and_true, List.mem_cons]
        rw [if_congr (Iff.intro
          (fun hh => by
            rcases hh with hh | hh
            · exact absurd hh hkf
            · exact hh)
          (fun hh => Or.inr hh)) rfl rfl]
      · simp [hsym]

/-! ### Language preservation of the two normalisation phases -/

/-- Adding a fresh start state r with a single epsilon edge to the old
start does not change the accepted language. -/
theorem lang_add_fresh_start (m m' : FSM) (r : ℕ)
    (htrans : m'.transitions = dictSet m.transitions (r, none) {m.start})
    (hstart : m'.start = r) (hacc : m'.accepting = m.accepting)
    (hfr : r ∉ allStates m) (hfacc : r ∉ m.accepting) (w : List Char) :
    NAccepts m' w ↔ NAccepts m w := by
  rw [NAccepts, NAccepts, hacc, hstart]
  constructor
  · rintro ⟨f, hf, hr⟩
    have hfne : f ≠ r := fun hh => hfacc (hh ▸ hf)
    have key : ∀ c, Reach (nfsmRI m') c ⟨[], f⟩ → c.state ≠ r →
        Reach (nfsmRI m) c ⟨[], f⟩ := by
      intro c hreach
      induction hreach using Relation.ReflTransGen.head_induction_on with
      | refl => exact fun _ => Relation.ReflTransGen.refl
      | @head a c1 hstep htail ih =>
        intro ha
        have hkeyeq : ∀ sym, dictTargets m'.transitions (a.state, sym)
            = dictTargets m.transitions (a.state, sym) := by
          intro sym
          rw [htrans]
          exact dictTargets_dictSet_other _ _ _ _
            (fun hh => ha (congrArg Prod.fst hh))
        rcases (mem_nfsmSuccs_iff m' a c1).mp hstep with ⟨x, t, h1, h2, h3⟩ | ⟨h1, h2⟩
        · rw [hkeyeq] at h3
          have hc1 : c1.state ≠ r :=
            fun hh => hfr (hh ▸ dictTargets_subset_allStates m _ h3)
          exact Relation.ReflTransGen.head
            ((mem_nfsmSuccs_iff m a c1).mpr (Or.inl ⟨x, t, h1, h2, h3⟩)) (ih hc1)
        · rw [hkeyeq] at h2
          have hc1 : c1.state ≠ r :=
            fun hh => hfr (hh ▸ dictTargets_subset_allStates m _ h2)
          exact Relation.ReflTransGen.head
            ((mem_nfsmSuccs_iff m a c1).mpr (Or.inr ⟨h1, h2⟩)) (ih hc1)
    rcases Relation.ReflTransGen.cases_head hr with heq | ⟨c1, hstep, htail⟩
    · exfalso
      injection heq with _ h2
      exact hfne h2.symm
    · rcases (mem_nfsmSuccs_iff m' _ c1).mp hstep with ⟨x, t, _, _, h3⟩ | ⟨h1, h2⟩
      · exfalso
        rw [htrans, dictTargets_dictSet_other _ _ _ _ (by simp)] at h3
        rw [not_source_of_not_mem_allStates hfr (some x)] at h3
        simp at h3
      · rw [htrans] at h2
        simp only at h2
        rw [dictTargets_dictSet_self] at h2
        have hc1 : c1 = ⟨w, m.start⟩ := by
          obtain ⟨s1, q1⟩ := c1
          simp only at h1 h2
          rw [Finset.mem_singleton] at h2
          rw [h1, h2]
        rw [hc1] at htail
        refine ⟨f, hf, key _ htail ?_⟩
        exact fun hh => hfr (hh ▸ start_mem_allStates m)
  · rintro ⟨f, hf, hr⟩
    have hmono : ∀ k, dictTargets m.transitions k ⊆ dictTargets m'.transitions k := by
      intro k
      by_cases hk : k = ((r, none) : ℕ × Symbol)
      · subst hk
        rw [not_source_of_not_mem_allStates hfr none]
        exact Finset.empty_subset _
      · rw [htrans, dictTargets_dictSet_other _ _ _ _ hk]
    refine ⟨f, hf, Relation.ReflTransGen.head ?_ (reach_mono hmono hr)⟩
    apply (mem_nfsmSuccs_iff m' ⟨w, r⟩ ⟨w, m.start⟩).mpr
    refine Or.inr ⟨rfl, ?_⟩
    rw [htrans]
    simp only
    rw [dictTargets_dictSet_self]
    exact Finset.mem_singleton_self _

/-- Redirecting every old accepting state to a fresh sole accepting state u
through epsilon edges does not change the accepted language. -/
theorem lang_add_fresh_accept (m m' : FSM) (u : ℕ)
    (htrans : m'.transitions =
      (natList m.accepting).foldl (fun t f => updateState t (f, none) {u})
        m.transitions)
    (hstart : m'.start = m.start) (hacc : m'.accepting = {u})
    (hu1 : u ∉ allStates m) (hu2 : u ∉ m.accepting) (hu3 : u ≠ m.start)
    (w : List Char) : NAccepts m' w ↔ NAccepts m w := by
  have hchar : ∀ k, dictTargets m'.transitions k =
      dictTargets m.transitions k ∪
        (if k.1 ∈ m.accepting ∧ k.2 = none then {u} else ∅) := by
    intro k
    rw [htrans, dictTargets_foldl_updateState]
    congr 1
    simp only [mem_natList]
  have hu_no : ∀ sym, dictTargets m'.transitions (u, sym) = ∅ := by
    intro sym
    rw [hchar, not_source_of_not_mem_allStates hu1 sym]
    simp [hu2]
  rw [NAccepts, NAccepts, hacc, hstart]
  constructor
  · rintro ⟨f', hf', hr⟩
    rw [Finset.mem_singleton] at hf'
    rw [hf'] at hr
    clear hf'
    have key : ∀ c, Reach (nfsmRI m') c ⟨[], u⟩ → c.state ≠ u →
        ∃ f ∈ m.accepting, Reach (nfsmRI m) c ⟨[], f⟩ := by
      intro c hreach
      induction hreach using Relation.ReflTransGen.head_induction_on with
      | refl => exact fun hh => absurd rfl hh
      | @head a c1 hstep htail ih =>
        intro _
        rcases (mem_nfsmSuccs_iff m' a c1).mp hstep with ⟨x, t, h1, h2, h3⟩ | ⟨h1, h2⟩
        · rw [hchar] at h3
          have h3' : c1.state ∈ dictTargets m.transitions (a.state, some x) := by
            simpa using h3
          have hc1 : c1.state ≠ u :=
            fun hh => hu1 (hh ▸ dictTargets_subset_allStates m _ h3')
          obtain ⟨f, hf, hpath⟩ := ih hc1
          exact ⟨f, hf, Relation.ReflTransGen.head
            ((mem_nfsmSuccs_iff m a c1).mpr (Or.inl ⟨x, t, h1, h2, h3'⟩)) hpath⟩
        · rw [hchar] at h2
          by_cases hc1 : c1.state = u
          · have hmemF : a.state ∈ m.accepting := by
              rcases Finset.mem_union.mp h2 with hh | hh
              · exact absurd (hc1 ▸ dictTargets_subset_allStates m _ hh) hu1
              · by_cases hcond : a.state ∈ m.accepting ∧ (none : Symbol) = none
                · exact hcond.1
                · rw [if_neg (by simpa using hcond)] at hh
                  simp at hh
            have hstuck : nfsmSuccs m' c1 = [] := by
              apply nfsmSuccs_eq_nil_of_empty
              intro sym
              rw [hc1]
              exact hu_no sym
            have heq : (⟨[], u⟩ : Cfg) = c1 := reach_of_no_succs hstuck htail
            have hastr : a.string = [] := by
              rw [← h1, ← heq]
            have haeq : a = ⟨[], a.state⟩ := by
              obtain ⟨s1, q1⟩ := a
              simp only at hastr
              rw [hastr]
            refine ⟨a.state, hmemF, ?_⟩
            rw [show (⟨[], a.state⟩ : Cfg) = a from haeq.symm]
            exact Relation.ReflTransGen.refl
          · have h2' : c1.state ∈ dictTargets m.transitions (a.state, none) := by
              rcases Finset.mem_union.mp h2 with hh | hh
              · exact hh
              · exfalso
                by_cases hcond : a.state ∈ m.accepting ∧ (none : Symbol) = none
                · rw [if_pos (by simpa using hcond)] at hh
                  exact hc1 (Finset.mem_singleton.mp hh)
                · rw [if_neg (by simpa using hcond)] at hh
                  simp at hh
            obtain ⟨f, hf, hpath⟩ := ih hc1
            exact ⟨f, hf, Relation.ReflTransGen.head
              ((mem_nfsmSuccs_iff m a c1).mpr (Or.inr ⟨h1, h2'⟩)) hpath⟩
    exact key _ hr (Ne.symm hu3)
  · rintro ⟨f, hf, hr⟩
    have hmono : ∀ k, dictTargets m.transitions k ⊆ dictTargets m'.transitions k := by
      intro k
      rw [hchar]
      exact Finset.subset_union_left
    refine ⟨u, Finset.mem_singleton_self u, Relation.ReflTransGen.tail
      (reach_mono hmono hr) ?_⟩
    apply (mem_nfsmSuccs_iff m' ⟨[], f⟩ ⟨[], u⟩).mpr
    refine Or.inr ⟨rfl, ?_⟩
    rw [hchar]
    apply Finset.mem_union_right
    rw [if_pos (show f ∈ m.accepting ∧ ((none : Symbol) = none) from ⟨hf, rfl⟩)]
    exact Finset.mem_singleton_self u

/-! ### Structural facts about to_normal_form -/

theorem toNormalForm_ff {m : FSM} {c : ℕ}
    (h1 : ¬ 0 < (getAllPrevStates m.transitions m.start).length)
    (h2 : acceptingInNormalForm m = true) :
    toNormalForm m c =
      (⟨m.states ∪ {m.start, pick1 m.accepting}, m.alphabet, m.transitions,
        m.start, {pick1 m.accepting}⟩, c) := by
  rw [toNormalForm]
  simp only [if_neg h1, if_pos h2]

theorem toNormalForm_tf {m : FSM} {c : ℕ}
    (h1 : 0 < (getAllPrevStates m.transitions m.start).length)
    (h2 : acceptingInNormalForm m = true) :
    toNormalForm m c =
      (⟨m.states ∪ {c, pick1 m.accepting}, m.alphabet,
        dictSet m.transitions (c, none) {m.start}, c, {pick1 m.accepting}⟩,
        c + 1) := by
  rw [toNormalForm]
  simp only [if_pos h1, if_pos h2]

theorem toNormalForm_ft {m : FSM} {c : ℕ}
    (h1 : ¬ 0 < (getAllPrevStates m.transitions m.start).length)
    (h2 : ¬ acceptingInNormalForm m = true) :
    toNormalForm m c =
      (⟨m.states ∪ {m.start, c}, m.alphabet,
        (natList m.accepting).foldl (fun t f => updateState t (f, none) {c})
          m.transitions, m.start, {c}⟩, c + 1) := by
  rw [toNormalForm]
  simp only [if_neg h1, if_neg h2]

theorem toNormalForm_tt {m : FSM} {c : ℕ}
    (h1 : 0 < (getAllPrevStates m.transitions m.start).length)
    (h2 : ¬ acceptingInNormalForm m = true) :
    toNormalForm m c =
      (⟨m.states ∪ {c, c + 1}, m.alphabet,
        (natList m.accepting).foldl (fun t f => updateState t (f, none) {c + 1})
          (dictSet m.transitions (c, none) {m.start}), c, {c + 1}⟩, c + 2) := by
  rw [toNormalForm]
  simp only [if_pos h1, if_neg h2]

theorem accNF_card {m : FSM} (h : acceptingInNormalForm m = true) :
    m.accepting.card = 1 := by
  rw [acceptingInNormalForm] at h
  by_cases hc : m.accepting.card = 1
  · exact hc
  · rw [if_neg hc] at h
    exact absurd h (by simp)

theorem accNF_no_out {m : FSM} (h : acceptingInNormalForm m = true) :
    ∀ sym ∈ insert (none : Symbol) m.alphabet,
      dictFind m.transitions (pick1 m.accepting, sym) = none := by
  have hc := accNF_card h
  rw [acceptingInNormalForm, if_pos hc] at h
  exact of_decide_eq_true h

theorem accNF_singleton {m : FSM} (h : acceptingInNormalForm m = true) :
    m.accepting = {pick1 m.accepting} :=
  accepting_eq_singleton_pick1 (accNF_card h)

theorem mem_keys_dictSet {d : TransD} {k k' : ℕ × Symbol} {v : Finset ℕ}
    (h : k' ∈ (dictSet d k v).map Prod.fst) :
    k' ∈ d.map Prod.fst ∨ k' = k := by
  obtain ⟨e, he, hk⟩ := List.mem_map.mp h
  rcases mem_dictSet_sub he with h' | h'
  · exact Or.inl (List.mem_map.mpr ⟨e, h', hk⟩)
  · refine Or.inr ?_
    rw [← hk, h']

theorem dictWF_dictSet {d : TransD} (h : DictWF d) (k : ℕ × Symbol)
    (v : Finset ℕ) : DictWF (dictSet d k v) := by
  induction d with
  | nil =>
    rw [dictSet, DictWF]
    simp
  | cons e d ih =>
    rw [DictWF, List.map_cons] at h
    obtain ⟨hk, hd⟩ := List.nodup_cons.mp h
    rw [dictSet]
    by_cases hek : e.1 = k
    · rw [if_pos hek, DictWF, List.map_cons, List.nodup_cons]
      exact ⟨hek ▸ hk, hd⟩
    · rw [if_neg hek, DictWF, List.map_cons, List.nodup_cons]
      refine ⟨?_, ih hd⟩
      intro hmem
      rcases mem_keys_dictSet hmem with h' | h'
      · exact hk h'
      · exact hek h'

theorem dictWF_updateState {d : TransD} (h : DictWF d) (k : ℕ × Symbol)
    (v : Finset ℕ) : DictWF (updateState d k v) := by
  rw [updateState]
  cases dictFind d k with
  | some s => exact dictWF_dictSet h _ _
  | none => exact dictWF_dictSet h _ _

theorem dictWF_foldl_updateState (u : ℕ) (l : List ℕ) {t0 : TransD}
    (h : DictWF t0) :
    DictWF (l.foldl (fun t f => updateState t (f, none) {u}) t0) := by
  induction l generalizing t0 with
  | nil => exact h
  | cons f l ih => exact ih (dictWF_updateState h _ _)

theorem dictWF_toNormalForm {m : FSM} (c : ℕ) (h : DictWF m.transitions) :
    DictWF (toNormalForm m c).1.transitions := by
  by_cases h1 : 0 < (getAllPrevStates m.transitions m.start).length <;>
    by_cases h2 : acceptingInNormalForm m = true
  · rw [toNormalForm_tf h1 h2]
    exact dictWF_dictSet h _ _
  · rw [toNormalForm_tt h1 h2]
    exact dictWF_foldl_updateState _ _ (dictWF_dictSet h _ _)
  · rw [toNormalForm_ff h1 h2]
    exact h
  · rw [toNormalForm_ft h1 h2]
    exact dictWF_foldl_updateState _ _ h

theorem mem_foldl_updateState_entry (u : ℕ) :
    ∀ (l : List ℕ) (t0 : TransD) (e : (ℕ × Symbol) × Finset ℕ),
      e ∈ l.foldl (fun t f => updateState t (f, none) {u}) t0 →
        (e.1.1 ∈ l ∧ e.1.2 = none ∧ e.2 ⊆ dictTargets t0 e.1 ∪ {u}) ∨ e ∈ t0 := by
  intro l
  induction l with
  | nil => exact fun t0 e he => Or.inr he
  | cons f l ih =>
    intro t0 e he
    rw [List.foldl_cons] at he
    rcases ih _ e he with ⟨hk, hsym, hsub⟩ | hmem
    · refine Or.inl ⟨List.mem_cons_of_mem _ hk, hsym, ?_⟩
      intro x hx
      rcases Finset.mem_union.mp (hsub hx) with h' | h'
      · by_cases hke : e.1 = ((f, none) : ℕ × Symbol)
        · rw [hke, dictTargets_updateState_self] at h'
          rw [hke]
          rcases Finset.mem_union.mp h' with h'' | h''
          · exact Finset.mem_union_left _ h''
          · exact Finset.mem_union_right _ h''
        · rw [dictTargets_updateState_other _ _ _ _ hke] at h'
          exact Finset.mem_union_left _ h'
      · exact Finset.mem_union_right _ h'
    · rcases mem_updateState_sub hmem with h' | ⟨h1, h2⟩
      · exact Or.inr h'
      · refine Or.inl ⟨?_, ?_, ?_⟩
        · rw [h1]; exact List.mem_cons_self _ _
        · rw [h1]
        · rw [h1]; exact h2

theorem fullStates_bounds : ∀ {m : FSM} {n : ℕ}, Bounded m n →
    (m.start < n ∧ ∀ q ∈ allStates m, q < n) := by
  intro m n hb
  exact ⟨hb _ (Finset.mem_union_left _ (Finset.mem_union_left _
      (start_mem_allStates m))),
    fun q hq => hb _ (Finset.mem_union_left _ (Finset.mem_union_left _ hq))⟩

theorem bounded_start {m : FSM} {n : ℕ} (hb : Bounded m n) : m.start < n :=
  (fullStates_bounds hb).1

theorem bounded_allStates {m : FSM} {n : ℕ} (hb : Bounded m n) :
    ∀ q ∈ allStates m, q < n :=
  (fullStates_bounds hb).2

theorem bounded_accepting {m : FSM} {n : ℕ} (hb : Bounded m n) :
    ∀ q ∈ m.accepting, q < n :=
  fun _ hq => hb _ (Finset.mem_union_right _ hq)

theorem bounded_states {m : FSM} {n : ℕ} (hb : Bounded m n) :
    ∀ q ∈ m.states, q < n :=
  fun _ hq => hb _ (Finset.mem_union_left _ (Finset.mem_union_right _ hq))

theorem mem_fullStates_start (m : FSM) : m.start ∈ fullStates m :=
  Finset.mem_union_left _ (Finset.mem_union_left _ (start_mem_allStates m))

theorem allStates_sub_fullStates (m : FSM) : allStates m ⊆ fullStates m :=
  fun _ hq => Finset.mem_union_left _ (Finset.mem_union_left _ hq)

theorem accepting_sub_fullStates (m : FSM) : m.accepting ⊆ fullStates m :=
  fun _ hq => Finset.mem_union_right _ hq

theorem states_sub_fullStates (m : FSM) : m.states ⊆ fullStates m :=
  fun _ hq => Finset.mem_union_left _ (Finset.mem_union_right _ hq)

theorem accNF_pick1_mem {m : FSM} (h : acceptingInNormalForm m = true) :
    pick1 m.accepting ∈ m.accepting := by
  obtain ⟨x, hx⟩ := Finset.card_eq_one.mp (accNF_card h)
  rw [hx, pick1_singleton]
  exact Finset.mem_singleton_self x

theorem not_mem_allStates_of_bounded {m : FSM} {c q : ℕ} (hb : Bounded m c)
    (hq : c ≤ q) : q ∉ allStates m :=
  fun hmem => absurd (bounded_allStates hb q hmem) (by omega)

theorem not_mem_accepting_of_bounded {m : FSM} {c q : ℕ} (hb : Bounded m c)
    (hq : c ≤ q) : q ∉ m.accepting :=
  fun hmem => absurd (bounded_accepting hb q hmem) (by omega)

/-- Freshness bookkeeping for to_normal_form: the counter does not
decrease, and every state of the output is either a state of the input or
one of the freshly allocated ones. -/
theorem fullStates_toNormalForm (m : FSM) (c : ℕ) (hb : Bounded m c) :
    c ≤ (toNormalForm m c).2 ∧ (toNormalForm m c).2 ≤ c + 2 ∧
      ∀ q ∈ fullStates (toNormalForm m c).1,
        q ∈ fullStates m ∨ (c ≤ q ∧ q < (toNormalForm m c).2) := by
  have hpick : acceptingInNormalForm m = true → pick1 m.accepting ∈ fullStates m :=
    fun h => accepting_sub_fullStates m (accNF_pick1_mem h)
  by_cases h1 : 0 < (getAllPrevStates m.transitions m.start).length <;>
    by_cases h2 : acceptingInNormalForm m = true
  · rw [toNormalForm_tf h1 h2]
    refine ⟨by omega, by omega, ?_⟩
    intro q hq
    rcases Finset.mem_union.mp hq with hq | hq
    · rcases Finset.mem_union.mp hq with hq | hq
      · rw [mem_allStates_iff] at hq
        rcases hq with rfl | ⟨e, he, hqe⟩
        · exact Or.inr ⟨le_rfl, by omega⟩
        · rcases mem_dictSet_sub he with h' | h'
          · exact Or.inl (allStates_sub_fullStates m (entry_subset_allStates h' hqe))
          · rw [h'] at hqe
            rcases Finset.mem_insert.mp hqe with rfl | hq2
            · exact Or.inr ⟨le_rfl, by omega⟩
            · rw [Finset.mem_singleton] at hq2
              rw [hq2]
              exact Or.inl (mem_fullStates_start m)
      · rcases Finset.mem_union.mp hq with hq | hq
        · exact Or.inl (states_sub_fullStates m hq)
        · rcases Finset.mem_insert.mp hq with rfl | hq2
          · exact Or.inr ⟨le_rfl, by omega⟩
          · rw [Finset.mem_singleton] at hq2
            rw [hq2]
            exact Or.inl (hpick h2)
    · rw [Finset.mem_singleton] at hq
      rw [hq]
      exact Or.inl (hpick h2)
  · rw [toNormalForm_tt h1 h2]
    refine ⟨by omega, by omega, ?_⟩
    have htsub : ∀ k, dictTargets (dictSet m.transitions (c, none) {m.start}) k
        ⊆ insert c (allStates m) := by
      intro k
      by_cases hk : k = ((c, none) : ℕ × Symbol)
      · rw [hk, dictTargets_dictSet_self]
        intro x hx
        rw [Finset.mem_singleton] at hx
        rw [hx]
        exact Finset.mem_insert_of_mem (start_mem_allStates m)
      · rw [dictTargets_dictSet_other _ _ _ _ hk]
        exact fun x hx =>
          Finset.mem_insert_of_mem (dictTargets_subset_allStates m k hx)
    intro q hq
    rcases Finset.mem_union.mp hq with hq | hq
    · rcases Finset.mem_union.mp hq with hq | hq
      · rw [mem_allStates_iff] at hq
        rcases hq with rfl | ⟨e, he, hqe⟩
        · exact Or.inr ⟨le_rfl, by omega⟩
        · rcases mem_foldl_updateState_entry _ _ _ _ he with ⟨hk, _, hsub⟩ | hmem
          · rcases Finset.mem_insert.mp hqe with rfl | hq2
            · exact Or.inl (accepting_sub_fullStates m (mem_natList.mp hk))
            · rcases Finset.mem_union.mp (hsub hq2) with h' | h'
              · rcases Finset.mem_insert.mp (htsub _ h') with rfl | h''
                · exact Or.inr ⟨le_rfl, by omega⟩
                · exact Or.inl (allStates_sub_fullStates m h'')
              · rw [Finset.mem_singleton] at h'
                exact Or.inr ⟨by omega, by omega⟩
          · rcases mem_dictSet_sub hmem with h' | h'
            · exact Or.inl (allStates_sub_fullStates m (entry_subset_allStates h' hqe))
            · rw [h'] at hqe
              rcases Finset.mem_insert.mp hqe with rfl | hq2
              · exact Or.inr ⟨le_rfl, by omega⟩
              · rw [Finset.mem_singleton] at hq2
                rw [hq2]
                exact Or.inl (mem_fullStates_start m)
      · rcases Finset.mem_union.mp hq with hq | hq
        · exact Or.inl (states_sub_fullStates m hq)
        · rcases Finset.mem_insert.mp hq with rfl | hq2
          · exact Or.inr ⟨le_rfl, by omega⟩
          · rw [Finset.mem_singleton] at hq2
            exact Or.inr ⟨by omega, by omega⟩
    · rw [Finset.mem_singleton] at hq
      exact Or.inr ⟨by omega, by omega⟩
  · rw [toNormalForm_ff h1 h2]
    refine ⟨le_rfl, by omega, ?_⟩
    intro q hq
    rcases Finset.mem_union.mp hq with hq | hq
    · rcases Finset.mem_union.mp hq with hq | hq
      · rw [mem_allStates_iff] at hq
        rcases hq with rfl | ⟨e, he, hqe⟩
        · exact Or.inl (mem_fullStates_start m)
        · exact Or.inl (allStates_sub_fullStates m (entry_subset_allStates he hqe))
      · rcases Finset.mem_union.mp hq with hq | hq
        · exact Or.inl (states_sub_fullStates m hq)
        · rcases Finset.mem_insert.mp hq with rfl | hq2
          · exact Or.inl (mem_fullStates_start m)
          · rw [Finset.mem_singleton] at hq2
            rw [hq2]
            exact Or.inl (hpick h2)
    · rw [Finset.mem_singleton] at hq
      rw [hq]
      exact Or.inl (hpick h2)
  · rw [toNormalForm_ft h1 h2]
    refine ⟨by omega, by omega, ?_⟩
    intro q hq
    rcases Finset.mem_union.mp hq with hq | hq
    · rcases Finset.mem_union.mp hq with hq | hq
      · rw [mem_allStates_iff] at hq
        rcases hq with rfl | ⟨e, he, hqe⟩
        · exact Or.inl (mem_fullStates_start m)
        · rcases mem_foldl_updateState_entry _ _ _ _ he with ⟨hk, _, hsub⟩ | hmem
          · rcases Finset.mem_insert.mp hqe with rfl | hq2
            · exact Or.inl (accepting_sub_fullStates m (mem_natList.mp hk))
            · rcases Finset.mem_union.mp (hsub hq2) with h' | h'
              · exact Or.inl (allStates_sub_fullStates m
                  (dictTargets_subset_allStates m _ h'))
              · rw [Finset.mem_singleton] at h'
                exact Or.inr ⟨by omega, by omega⟩
          · exact Or.inl (allStates_sub_fullStates m (entry_subset_allStates hmem hqe))
      · rcases Finset.mem_union.mp hq with hq | hq
        · exact Or.inl (states_sub_fullStates m hq)
        · rcases Finset.mem_insert.mp hq with rfl | hq2
          · exact Or.inl (mem_fullStates_start m)
          · rw [Finset.mem_singleton] at hq2
            exact Or.inr ⟨by omega, by omega⟩
    · rw [Finset.mem_singleton] at hq
      exact Or.inr ⟨by omega, by omega⟩

theorem bounded_toNormalForm (m : FSM) (c : ℕ) (hb : Bounded m c) :
    Bounded (toNormalForm m c).1 (toNormalForm m c).2 := by
  obtain ⟨hc, _, hsub⟩ := fullStates_toNormalForm m c hb
  intro q hq
  rcases hsub q hq with h | h
  · exact lt_of_lt_of_le (hb q h) hc
  · exact h.2

/-- to_normal_form preserves the accepted language. -/
theorem toNormalForm_lang (m : FSM) (c : ℕ) (hb : Bounded m c)
    (w : List Char) : NAccepts (toNormalForm m c).1 w ↔ NAccepts m w := by
  have hfr : c ∉ allStates m := not_mem_allStates_of_bounded hb le_rfl
  have hfacc : c ∉ m.accepting := not_mem_accepting_of_bounded hb le_rfl
  by_cases h1 : 0 < (getAllPrevStates m.transitions m.start).length <;>
    by_cases h2 : acceptingInNormalForm m = true
  · rw [toNormalForm_tf h1 h2]
    exact lang_add_fresh_start m
      ⟨m.states ∪ {c, pick1 m.accepting}, m.alphabet,
        dictSet m.transitions (c, none) {m.start}, c, {pick1 m.accepting}⟩
      c rfl rfl (accNF_singleton h2).symm hfr hfacc w
  · rw [toNormalForm_tt h1 h2]
    have hsub1 : allStates (⟨m.states, m.alphabet,
        dictSet m.transitions (c, none) {m.start}, c, m.accepting⟩ : FSM)
        ⊆ insert c (allStates m) := by
      intro q hq
      rw [mem_allStates_iff] at hq
      rcases hq with rfl | ⟨e, he, hqe⟩
      · exact Finset.mem_insert_self _ _
      · rcases mem_dictSet_sub he with h' | h'
        · exact Finset.mem_insert_of_mem (entry_subset_allStates h' hqe)
        · rw [h'] at hqe
          rcases Finset.mem_insert.mp hqe with rfl | hq2
          · exact Finset.mem_insert_self _ _
          · rw [Finset.mem_singleton] at hq2
            rw [hq2]
            exact Finset.mem_insert_of_mem (start_mem_allStates m)
    refine Iff.trans (lang_add_fresh_accept
      ⟨m.states, m.alphabet, dictSet m.transitions (c, none) {m.start}, c,
        m.accepting⟩
      ⟨m.states ∪ {c, c + 1}, m.alphabet,
        (natList m.accepting).foldl (fun t f => updateState t (f, none) {c + 1})
          (dictSet m.transitions (c, none) {m.start}), c, {c + 1}⟩
      (c + 1) rfl rfl rfl ?_ ?_ ?_ w)
      (lang_add_fresh_start m
        ⟨m.states, m.alphabet, dictSet m.transitions (c, none) {m.start}, c,
          m.accepting⟩ c rfl rfl rfl hfr hfacc w)
    · intro hmem
      rcases Finset.mem_insert.mp (hsub1 hmem) with h' | h'
      · omega
      · exact absurd (bounded_allStates hb _ h') (by omega)
    · show c + 1 ∉ m.accepting
      exact not_mem_accepting_of_bounded hb (by omega)
    · show c + 1 ≠ c
      omega
  · rw [toNormalForm_ff h1 h2]
    exact naccepts_congr m
      ⟨m.states ∪ {m.start, pick1 m.accepting}, m.alphabet, m.transitions,
        m.start, {pick1 m.accepting}⟩ rfl rfl (accNF_singleton h2).symm w
  · rw [toNormalForm_ft h1 h2]
    exact lang_add_fresh_accept m
      ⟨m.states ∪ {m.start, c}, m.alphabet,
        (natList m.accepting).foldl (fun t f => updateState t (f, none) {c})
          m.transitions, m.start, {c}⟩
      c rfl rfl rfl hfr hfacc
      (Ne.symm (Nat.ne_of_lt (bounded_start hb))) w

/-- The normalised machine has exactly one accepting state, and it is the
one next(iter(...)) picks. -/
theorem toNormalForm_accepting (m : FSM) (c : ℕ) :
    (toNormalForm m c).1.accepting = {pick1 (toNormalForm m c).1.accepting} := by
  by_cases h1 : 0 < (getAllPrevStates m.transitions m.start).length <;>
    by_cases h2 : acceptingInNormalForm m = true
  · rw [toNormalForm_tf h1 h2]
    simp only
    rw [pick1_singleton]
  · rw [toNormalForm_tt h1 h2]
    simp only
    rw [pick1_singleton]
  · rw [toNormalForm_ff h1 h2]
    simp only
    rw [pick1_singleton]
  · rw [toNormalForm_ft h1 h2]
    simp only
    rw [pick1_singleton]

/-- The normalised machine's accepting state has no outgoing epsilon
transition. -/
theorem toNormalForm_acc_no_eps (m : FSM) (c : ℕ) (hb : Bounded m c) :
    dictTargets (toNormalForm m c).1.transitions
      (pick1 (toNormalForm m c).1.accepting, none) = ∅ := by
  by_cases h1 : 0 < (getAllPrevStates m.transitions m.start).length <;>
    by_cases h2 : acceptingInNormalForm m = true
  · rw [toNormalForm_tf h1 h2]
    simp only
    rw [pick1_singleton]
    rw [dictTargets_dictSet_other _ _ _ _ (by
      intro hh
      have := congrArg Prod.fst hh
      simp only at this
      have hlt := bounded_accepting hb _ (accNF_pick1_mem h2)
      omega)]
    rw [dictTargets, accNF_no_out h2 none (Finset.mem_insert_self _ _)]
    rfl
  · rw [toNormalForm_tt h1 h2]
    simp only
    rw [pick1_singleton]
    rw [dictTargets_foldl_updateState]
    rw [if_neg (by
      intro hh
      have := mem_natList.mp hh.1
      have := bounded_accepting hb _ this
      omega)]
    rw [dictTargets_dictSet_other _ _ _ _ (by
      intro hh
      have := congrArg Prod.fst hh
      simp only at this
      omega)]
    rw [not_source_of_not_mem_allStates
      (not_mem_allStates_of_bounded hb (by omega)) none]
    simp
  · rw [toNormalForm_ff h1 h2]
    simp only
    rw [pick1_singleton]
    rw [dictTargets, accNF_no_out h2 none (Finset.mem_insert_self _ _)]
    rfl
  · rw [toNormalForm_ft h1 h2]
    simp only
    rw [pick1_singleton]
    rw [dictTargets_foldl_updateState]
    rw [if_neg (by
      intro hh
      have := mem_natList.mp hh.1
      have := bounded_accepting hb _ this
      omega)]
    rw [not_source_of_not_mem_allStates
      (not_mem_allStates_of_bounded hb le_rfl) none]
    simp

/-! ### Correctness of union -/

/-- Language of the machine union assembles: with two normalised operand
machines on disjoint state sets and two fresh states s (new start) and t
(new accept), the constructed machine accepts exactly the union of the two
languages. -/
theorem union_shape_lang (a b : FSM) (s t aAcc bAcc : ℕ) (U : FSM)
    (haAcc : a.accepting = {aAcc}) (hbAcc2 : b.accepting = {bAcc})
    (haeps : dictTargets a.transitions (aAcc, none) = ∅)
    (hbeps : dictTargets b.transitions (bAcc, none) = ∅)
    (hwfb : DictWF b.transitions)
    (hdisj : ∀ q, q ∈ fullStates a → q ∈ fullStates b → False)
    (hfa : ∀ q ∈ fullStates a, q < s) (hfb : ∀ q ∈ fullStates b, q < s)
    (hst : t = s + 1)
    (hUtrans : U.transitions = updateState (updateState (dictSet
        (dictMerge a.transitions b.transitions) (s, none) {a.start, b.start})
        (aAcc, none) {t}) (bAcc, none) {t})
    (hUstart : U.start = s) (hUacc : U.accepting = {t}) (w : List Char) :
    NAccepts U w ↔ (NAccepts a w ∨ NAccepts b w) := by
  have haAccSA : aAcc ∈ fullStates a := by
    apply accepting_sub_fullStates a
    rw [haAcc]
    exact Finset.mem_singleton_self _
  have hbAccSB : bAcc ∈ fullStates b := by
    apply accepting_sub_fullStates b
    rw [hbAcc2]
    exact Finset.mem_singleton_self _
  have hane : aAcc ≠ bAcc := fun hh => hdisj aAcc haAccSA (hh ▸ hbAccSB)
  have hbfind : ∀ k : ℕ × Symbol, k.1 ∉ fullStates b →
      dictFind b.transitions k = none := by
    intro k hk
    rw [dictFind_eq_none_iff]
    intro e he hek
    exact hk (hek ▸ allStates_sub_fullStates b
      (entry_subset_allStates he (Finset.mem_insert_self _ _)))
  have hafind : ∀ k : ℕ × Symbol, k.1 ∉ fullStates a →
      dictTargets a.transitions k = ∅ := by
    intro k hk
    apply dictTargets_eq_empty_of_not_source
    intro e he hek
    exact hk (hek ▸ allStates_sub_fullStates a
      (entry_subset_allStates he (Finset.mem_insert_self _ _)))
  have hbtgt : ∀ k, dictTargets b.transitions k ⊆ fullStates b :=
    fun k => le_trans (dictTargets_subset_allStates b k)
      (allStates_sub_fullStates b)
  have hatgt : ∀ k, dictTargets a.transitions k ⊆ fullStates a :=
    fun k => le_trans (dictTargets_subset_allStates a k)
      (allStates_sub_fullStates a)
  have hmerge : ∀ k, dictTargets (dictMerge a.transitions b.transitions) k =
      if (dictFind b.transitions k).isSome then dictTargets b.transitions k
      else dictTargets a.transitions k :=
    dictTargets_dictMerge a.transitions b.transitions hwfb
  -- Lookup characterisation of the constructed dictionary.
  have hQ1 : dictTargets U.transitions (s, none) = {a.start, b.start} := by
    rw [hUtrans,
      dictTargets_updateState_other _ _ _ _ (by
        intro hh
        have := congrArg Prod.fst hh
        simp only at this
        exact absurd (this ▸ hfb bAcc hbAccSB) (by omega)),
      dictTargets_updateState_other _ _ _ _ (by
        intro hh
        have := congrArg Prod.fst hh
        simp only at this
        exact absurd (this ▸ hfa aAcc haAccSA) (by omega)),
      dictTargets_dictSet_self]
  have hQs : ∀ x : Char, dictTargets U.transitions (s, some x) = ∅ := by
    intro x
    rw [hUtrans,
      dictTargets_updateState_other _ _ _ _ (by
        intro hh
        have := congrArg Prod.fst hh
        simp only at this
        exact absurd (this ▸ hfb bAcc hbAccSB) (by omega)),
      dictTargets_updateState_other _ _ _ _ (by
        intro hh
        have := congrArg Prod.fst hh
        simp only at this
        exact absurd (this ▸ hfa aAcc haAccSA) (by omega)),
      dictTargets_dictSet_other _ _ _ _ (by
        intro hh
        exact absurd (congrArg Prod.snd hh) (by simp)),
      hmerge]
    rw [hbfind _ (fun hh => absurd (hfb s hh) (by omega))]
    simp only [Option.isSome_none, Bool.false_eq_true, if_false]
    exact hafind _ (fun hh => absurd (hfa s hh) (by omega))
  have hQaAcc : dictTargets U.transitions (aAcc, none) = {t} := by
    rw [hUtrans,
      dictTargets_updateState_other _ _ _ _ (by
        intro hh
        exact hane (congrArg Prod.fst hh)),
      dictTargets_updateState_self,
      dictTargets_dictSet_other _ _ _ _ (by
        intro hh
        have := congrArg Prod.fst hh
        simp only at this
        exact absurd (this ▸ hfa aAcc haAccSA) (by omega)),
      hmerge]
    rw [hbfind _ (fun hh => hdisj aAcc haAccSA hh)]
    simp only [Option.isSome_none, Bool.false_eq_true, if_false]
    rw [haeps]
    simp
  have hQbAcc : dictTargets U.transitions (bAcc, none) = {t} := by
    rw [hUtrans, dictTargets_updateState_self,
      dictTargets_updateState_other _ _ _ _ (by
        intro hh
        exact hane (congrArg Prod.fst hh).symm),
      dictTargets_dictSet_other _ _ _ _ (by
        intro hh
        have := congrArg Prod.fst hh
        simp only at this
        exact absurd (this ▸ hfb bAcc hbAccSB) (by omega)),
      hmerge]
    cases hfind : dictFind b.transitions (bAcc, none) with
    | some v =>
      simp only [Option.isSome_some, if_true]
      rw [hbeps]
      simp
    | none =>
      simp only [Option.isSome_none, Bool.false_eq_true, if_false]
      rw [hafind _ (fun hh => hdisj bAcc hh hbAccSB)]
      simp
  have hQa : ∀ k : ℕ × Symbol, k.1 ∈ fullStates a →
      k ≠ (aAcc, none) → dictTargets U.transitions k =
        dictTargets a.transitions k := by
    intro k hk hka
    rw [hUtrans,
      dictTargets_updateState_other _ _ _ _ (by
        intro hh
        exact hdisj k.1 hk ((congrArg Prod.fst hh) ▸ hbAccSB)),
      dictTargets_updateState_other _ _ _ _ hka,
      dictTargets_dictSet_other _ _ _ _ (by
        intro hh
        exact absurd ((congrArg Prod.fst hh) ▸ hfa k.1 hk) (by omega)),
      hmerge]
    rw [hbfind _ (fun hh => hdisj k.1 hk hh)]
    simp
  have hQb : ∀ k : ℕ × Symbol, k.1 ∈ fullStates b →
      k ≠ (bAcc, none) → dictTargets U.transitions k =
        dictTargets b.transitions k := by
    intro k hk hkb
    rw [hUtrans,
      dictTargets_updateState_other _ _ _ _ hkb,
      dictTargets_updateState_other _ _ _ _ (by
        intro hh
        exact hdisj k.1 ((congrArg Prod.fst hh) ▸ haAccSA) hk),
      dictTargets_dictSet_other _ _ _ _ (by
        intro hh
        exact absurd ((congrArg Prod.fst hh) ▸ hfb k.1 hk) (by omega)),
      hmerge]
    cases hfind : dictFind b.transitions k with
    | some v =>
      simp
    | none =>
      simp only [Option.isSome_none, Bool.false_eq_true, if_false]
      rw [hafind _ (fun hh => hdisj k.1 hh hk)]
      rw [dictTargets, hfind]
      rfl
  have hQt : ∀ sym, dictTargets U.transitions (t, sym) = ∅ := by
    intro sym
    rw [hUtrans,
      dictTargets_updateState_other _ _ _ _ (by
        intro hh
        have := congrArg Prod.fst hh
        simp only at this
        exact absurd (this ▸ hfb bAcc hbAccSB) (by omega)),
      dictTargets_updateState_other _ _ _ _ (by
        intro hh
        have := congrArg Prod.fst hh
        simp only at this
        exact absurd (this ▸ hfa aAcc haAccSA) (by omega)),
      dictTargets_dictSet_other _ _ _ _ (by
        intro hh
        have := congrArg Prod.fst hh
        simp only at this
        omega),
      hmerge]
    rw [hbfind _ (fun hh => absurd (hfb t hh) (by omega))]
    simp only [Option.isSome_none, Bool.false_eq_true, if_false]
    exact hafind _ (fun hh => absurd (hfa t hh) (by omega))
  have hstuckT : ∀ cfg : Cfg, cfg.state = t → nfsmSuccs U cfg = [] := by
    intro cfg hcfg
    apply nfsmSuccs_eq_nil_of_empty
    intro sym
    rw [hcfg]
    exact hQt sym
  have claimA : ∀ cfg : Cfg, Reach (nfsmRI U) cfg ⟨[], t⟩ →
      cfg.state ∈ fullStates a → Reach (nfsmRI a) cfg ⟨[], aAcc⟩ := by
    intro cfg hreach
    induction hreach using Relation.ReflTransGen.head_induction_on with
    | refl =>
      intro hmem
      exact absurd (hfa t hmem) (by omega)
    | @head x y hstep htail ih =>
      intro hmem
      rcases (mem_nfsmSuccs_iff U x y).mp hstep with ⟨z, u, h1, h2, h3⟩ | ⟨h1, h2⟩
      · rw [hQa (x.state, some z) hmem (by
          intro hh
          exact absurd (congrArg Prod.snd hh) (by simp))] at h3
        have hymem : y.state ∈ fullStates a := hatgt _ h3
        exact Relation.ReflTransGen.head
          ((mem_nfsmSuccs_iff a x y).mpr (Or.inl ⟨z, u, h1, h2, h3⟩)) (ih hymem)
      · by_cases hx : x.state = aAcc
        · rw [hx, hQaAcc] at h2
          rw [Finset.mem_singleton] at h2
          have hyeq : (⟨[], t⟩ : Cfg) = y :=
            reach_of_no_succs (hstuckT y h2) htail
          have hxstr : x.string = [] := by
            rw [← h1, ← hyeq]
          have hxeq : x = ⟨[], aAcc⟩ := by
            obtain ⟨s1, q1⟩ := x
            simp only at hxstr hx
            rw [hxstr, hx]
          rw [hxeq]
          exact Relation.ReflTransGen.refl
        · rw [hQa (x.state, none) hmem (by
            intro hh
            exact hx (congrArg Prod.fst hh))] at h2
          have hymem : y.state ∈ fullStates a := hatgt _ h2
          exact Relation.ReflTransGen.head
            ((mem_nfsmSuccs_iff a x y).mpr (Or.inr ⟨h1, h2⟩)) (ih hymem)
  have claimB : ∀ cfg : Cfg, Reach (nfsmRI U) cfg ⟨[], t⟩ →
      cfg.state ∈ fullStates b → Reach (nfsmRI b) cfg ⟨[], bAcc⟩ := by
    intro cfg hreach
    induction hreach using Relation.ReflTransGen.head_induction_on with
    | refl =>
      intro hmem
      exact absurd (hfb t hmem) (by omega)
    | @head x y hstep htail ih =>
      intro hmem
      rcases (mem_nfsmSuccs_iff U x y).mp hstep with ⟨z, u, h1, h2, h3⟩ | ⟨h1, h2⟩
      · rw [hQb (x.state, some z) hmem (by
          intro hh
          exact absurd (congrArg Prod.snd hh) (by simp))] at h3
        have hymem : y.state ∈ fullStates b := hbtgt _ h3
        exact Relation.ReflTransGen.head
          ((mem_nfsmSuccs_iff b x y).mpr (Or.inl ⟨z, u, h1, h2, h3⟩)) (ih hymem)
      · by_cases hx : x.state = bAcc
        · rw [hx, hQbAcc] at h2
          rw [Finset.mem_singleton] at h2
          have hyeq : (⟨[], t⟩ : Cfg) = y :=
            reach_of_no_succs (hstuckT y h2) htail
          have hxstr : x.string = [] := by
            rw [← h1, ← hyeq]
          have hxeq : x = ⟨[], bAcc⟩ := by
            obtain ⟨s1, q1⟩ := x
            simp only at hxstr hx
            rw [hxstr, hx]
          rw [hxeq]
          exact Relation.ReflTransGen.refl
        · rw [hQb (x.state, none) hmem (by
            intro hh
            exact hx (congrArg Prod.fst hh))] at h2
          have hymem : y.state ∈ fullStates b := hbtgt _ h2
          exact Relation.ReflTransGen.head
            ((mem_nfsmSuccs_iff b x y).mpr (Or.inr ⟨h1, h2⟩)) (ih hymem)
  rw [NAccepts, hUacc, hUstart]
  constructor
  · rintro ⟨f, hf, hr⟩
    rw [Finset.mem_singleton] at hf
    rw [hf] at hr
    clear hf
    rcases Relation.ReflTransGen.cases_head hr with heq | ⟨y, hstep, htail⟩
    · exfalso
      injection heq with _ h2
      omega
    · rcases (mem_nfsmSuccs_iff U _ y).mp hstep with ⟨z, u, _, _, h3⟩ | ⟨h1, h2⟩
      · exfalso
        rw [hQs z] at h3
        simp at h3
      · rw [hQ1] at h2
        simp only at h1
        rcases Finset.mem_insert.mp h2 with hy | hy
        · left
          refine ⟨aAcc, by rw [haAcc]; exact Finset.mem_singleton_self _, ?_⟩
          have hyeq : y = ⟨w, a.start⟩ := by
            obtain ⟨s1, q1⟩ := y
            simp only at h1 hy
            rw [h1, hy]
          rw [hyeq] at htail
          exact claimA _ htail (by
            exact allStates_sub_fullStates a (start_mem_allStates a))
        · rw [Finset.mem_singleton] at hy
          right
          refine ⟨bAcc, by rw [hbAcc2]; exact Finset.mem_singleton_self _, ?_⟩
          have hyeq : y = ⟨w, b.start⟩ := by
            obtain ⟨s1, q1⟩ := y
            simp only at h1 hy
            rw [h1, hy]
          rw [hyeq] at htail
          exact claimB _ htail (by
            exact allStates_sub_fullStates b (start_mem_allStates b))
  · have hmonoA : ∀ k, dictTargets a.transitions k ⊆ dictTargets U.transitions k := by
      intro k
      by_cases hk1 : k.1 ∈ fullStates a
      · by_cases hk2 : k = ((aAcc, none) : ℕ × Symbol)
        · rw [hk2, haeps]
          exact Finset.empty_subset _
        · rw [hQa k hk1 hk2]
      · rw [hafind k hk1]
        exact Finset.empty_subset _
    have hmonoB : ∀ k, dictTargets b.transitions k ⊆ dictTargets U.transitions k := by
      intro k
      by_cases hk1 : k.1 ∈ fullStates b
      · by_cases hk2 : k = ((bAcc, none) : ℕ × Symbol)
        · rw [hk2, hbeps]
          exact Finset.empty_subset _
        · rw [hQb k hk1 hk2]
      · have hbempty : dictTargets b.transitions k = ∅ := by
          rw [dictTargets, hbfind k hk1]
          rfl
        rw [hbempty]
        exact Finset.empty_subset _
    rintro (⟨f, hf, hr⟩ | ⟨f, hf, hr⟩)
    · rw [haAcc, Finset.mem_singleton] at hf
      rw [hf] at hr
      refine ⟨t, Finset.mem_singleton_self t, ?_⟩
      refine Relation.ReflTransGen.head
        ((mem_nfsmSuccs_iff U ⟨w, s⟩ ⟨w, a.start⟩).mpr (Or.inr ⟨rfl, by
          rw [hQ1]; exact Finset.mem_insert_self _ _⟩)) ?_
      exact Relation.ReflTransGen.tail (reach_mono hmonoA hr)
        ((mem_nfsmSuccs_iff U ⟨[], aAcc⟩ ⟨[], t⟩).mpr (Or.inr ⟨rfl, by
          rw [hQaAcc]; exact Finset.mem_singleton_self _⟩))
    · rw [hbAcc2, Finset.mem_singleton] at hf
      rw [hf] at hr
      refine ⟨t, Finset.mem_singleton_self t, ?_⟩
      refine Relation.ReflTransGen.head
        ((mem_nfsmSuccs_iff U ⟨w, s⟩ ⟨w, b.start⟩).mpr (Or.inr ⟨rfl, by
          rw [hQ1]
          exact Finset.mem_insert_of_mem (Finset.mem_singleton_self _)⟩)) ?_
      exact Relation.ReflTransGen.tail (reach_mono hmonoB hr)
        ((mem_nfsmSuccs_iff U ⟨[], bAcc⟩ ⟨[], t⟩).mpr (Or.inr ⟨rfl, by
          rw [hQbAcc]; exact Finset.mem_singleton_self _⟩))

/-- NeFSM.union computes the union language, for operands with disjoint
state sets. -/
theorem unionFSM_lang (A B : FSM) (c : ℕ) (hbA : Bounded A c)
    (hbB : Bounded B c) (hwfB : DictWF B.transitions)
    (hdisj : ∀ q, q ∈ fullStates A → q ∈ fullStates B → False)
    (w : List Char) :
    NAccepts (unionFSM A B c).1 w ↔ (NAccepts A w ∨ NAccepts B w) := by
  obtain ⟨hc1, _, hsubA⟩ := fullStates_toNormalForm A c hbA
  have hbB1 : Bounded B (toNormalForm A c).2 :=
    fun q hq => lt_of_lt_of_le (hbB q hq) hc1
  obtain ⟨hc2, _, hsubB⟩ :=
    fullStates_toNormalForm B (toNormalForm A c).2 hbB1
  have hba := bounded_toNormalForm A c hbA
  have hbb := bounded_toNormalForm B (toNormalForm A c).2 hbB1
  have hdisj2 : ∀ q, q ∈ fullStates (toNormalForm A c).1 →
      q ∈ fullStates (toNormalForm B (toNormalForm A c).2).1 → False := by
    intro q hqa hqb
    rcases hsubA q hqa with h | h
    · rcases hsubB q hqb with h' | h'
      · exact hdisj q h h'
      · exact absurd (hbA q h) (by omega)
    · rcases hsubB q hqb with h' | h'
      · exact absurd (hbB q h') (by omega)
      · omega
  have hfa : ∀ q ∈ fullStates (toNormalForm A c).1,
      q < (toNormalForm B (toNormalForm A c).2).2 :=
    fun q hq => lt_of_lt_of_le (hba q hq) hc2
  have hmain := union_shape_lang (toNormalForm A c).1
    (toNormalForm B (toNormalForm A c).2).1
    (toNormalForm B (toNormalForm A c).2).2
    ((toNormalForm B (toNormalForm A c).2).2 + 1)
    (pick1 (toNormalForm A c).1.accepting)
    (pick1 (toNormalForm B (toNormalForm A c).2).1.accepting)
    (unionFSM A B c).1
    (toNormalForm_accepting A c)
    (toNormalForm_accepting B (toNormalForm A c).2)
    (toNormalForm_acc_no_eps A c hbA)
    (toNormalForm_acc_no_eps B (toNormalForm A c).2 hbB1)
    (dictWF_toNormalForm (toNormalForm A c).2 hwfB)
    hdisj2 hfa hbb rfl rfl rfl rfl w
  rw [hmain, toNormalForm_lang A c hbA w,
    toNormalForm_lang B (toNormalForm A c).2 hbB1 w]

/-- Operand machines that share the states 1 and 2 (Python permits reusing
State objects across machines): merging the transition dictionaries drops
A's edge (2, b) -> 3 in favour of B's (2, b) -> 5. -/
def cexUnionA : FSM :=
  ⟨{1, 2, 3}, {some 'a', some 'b'},
    [((1, some 'a'), {2}), ((2, some 'b'), {3})], 1, {3}⟩

/-- Second operand for the union counterexample, sharing states with
cexUnionA. -/
def cexUnionB : FSM :=
  ⟨{1, 2, 5, 6}, {some 'a', some 'b', some 'c'},
    [((1, some 'a'), {2}), ((2, some 'b'), {5}), ((5, some 'c'), {6})], 1, {6}⟩

/-- C3, counterexample to the claim as stated: for the state-sharing
operands cexUnionA and cexUnionB, A accepts "ab" but the union machine
rejects "ab", so (A ∪ B).run(w) is not equivalent to A.run(w) ∨ B.run(w)
for all NFSMs. -/
theorem claim_C3_counterexample :
    runBoolN cexUnionA ['a', 'b'] = true ∧
    runBoolN (unionFSM cexUnionA cexUnionB 10).1 ['a', 'b'] = false := by
  constructor
  · rfl
  · rfl

/-- First operand machine for the union witness. -/
def witUnionA : FSM := ⟨{0, 1}, {some 'a'}, [((0, some 'a'), {1})], 0, {1}⟩

/-- Second operand machine for the union witness, state-disjoint from the
first. -/
def witUnionB : FSM := ⟨{2, 3}, {some 'b'}, [((2, some 'b'), {3})], 2, {3}⟩

/-- C3 (amended): for NFSMs with disjoint state sets — as produced by
independent constructions with globally fresh state identifiers — and a
fresh state counter, (A ∪ B).run(w) is true iff A.run(w) is true or
B.run(w) is true. -/
theorem claim_C3_union_run (A B : FSM) (c : ℕ) (hbA : Bounded A c)
    (hbB : Bounded B c) (hwfB : DictWF B.transitions)
    (hdisj : Disjoint (fullStates A) (fullStates B)) (w : List Char) :
    runBoolN (unionFSM A B c).1 w = (runBoolN A w || runBoolN B w) := by
  have h := unionFSM_lang A B c hbA hbB hwfB
    (fun q h1 h2 => (Finset.disjoint_left.mp hdisj h1) h2) w
  have hiff : runBoolN (unionFSM A B c).1 w = true ↔
      (runBoolN A w = true ∨ runBoolN B w = true) := by
    rw [runBoolN_iff, h, runBoolN_iff, runBoolN_iff]
  cases hU : runBoolN (unionFSM A B c).1 w <;>
    cases hA2 : runBoolN A w <;> cases hB2 : runBoolN B w <;> simp_all

/-- C3, witness: the amended theorem applied to the concrete disjoint
machines for the atoms a and b, on the input "a". -/
theorem claim_C3_union_run_witness :
    Bounded witUnionA 4 ∧ Bounded witUnionB 4 ∧
    DictWF witUnionB.transitions ∧
    Disjoint (fullStates witUnionA) (fullStates witUnionB) ∧
    runBoolN (unionFSM witUnionA witUnionB 4).1 ['a'] =
      (runBoolN witUnionA ['a'] || runBoolN witUnionB ['a']) :=
  ⟨by decide, by decide, by decide, by decide,
    claim_C3_union_run witUnionA witUnionB 4 (by decide) (by decide)
      (by decide) (by decide) ['a']⟩

/-! ### to_normal_form on machines already in normal form -/

/-- C7: a machine already in normal form — no transition enters the start
state, exactly one accepting state, and the accepting state has no
outgoing transition on any symbol including epsilon — is returned by
to_normal_form unchanged: same states, transitions, initial state and
accepting set (and the state counter is untouched). -/
theorem claim_C7_toNormalForm_id (m : FSM) (c : ℕ) (f : ℕ)
    (hacc : m.accepting = {f})
    (hnoin : ∀ e ∈ m.transitions, m.start ∉ e.2)
    (hnoout : ∀ sym : Symbol, dictFind m.transitions (f, sym) = none)
    (hs : m.start ∈ m.states) (hf : f ∈ m.states) :
    toNormalForm m c = (m, c) := by
  have h1 : ¬ 0 < (getAllPrevStates m.transitions m.start).length := by
    intro hpos
    rw [getAllPrevStates, List.length_map] at hpos
    obtain ⟨e, he⟩ := List.exists_mem_of_length_pos hpos
    have he2 := List.mem_filter.mp he
    exact hnoin e he2.1 (by simpa using he2.2)
  have hp1 : pick1 m.accepting = f := by
    rw [hacc, pick1_singleton]
  have h2 : acceptingInNormalForm m = true := by
    rw [acceptingInNormalForm,
      if_pos (by rw [hacc]; exact Finset.card_singleton f)]
    apply decide_eq_true
    intro sym _
    rw [hp1]
    exact hnoout sym
  rw [toNormalForm_ff h1 h2, hp1]
  have hstates : m.states ∪ {m.start, f} = m.states :=
    Finset.union_eq_left.mpr (by
      intro q hq
      rcases Finset.mem_insert.mp hq with rfl | hq2
      · exact hs
      · rw [Finset.mem_singleton] at hq2
        rw [hq2]
        exact hf)
  obtain ⟨st, al, tr, s0, ac⟩ := m
  simp only at hstates hacc ⊢
  rw [hstates, ← hacc]

/-- A machine already in normal form, used to witness C7. -/
def witNormal : FSM := ⟨{0, 1}, {some 'a'}, [((0, some 'a'), {1})], 0, {1}⟩

/-! ### Reachability sweeps, simplify, make_total, complement, to_dfsm
(fsm/fsm.py DFSM.simplify, DFSM.make_total, DFSM.complement,
NeFSM.to_dfsm and helpers).

The source's frontier loops (while new: acc |= new; new = step(new)) never
subtract the already-visited states from the frontier, so they terminate
only when some frontier becomes empty; frontLoop mirrors this with a fuel
argument, returning none when the fuel runs out. -/

/-- The source's frontier loop shape. -/
def frontLoop (step : Finset ℕ → Finset ℕ) :
    ℕ → Finset ℕ → Finset ℕ → Option (Finset ℕ)
  | fuel, acc, new =>
    if new = ∅ then some acc
    else
      match fuel with
      | 0 => none
      | fuel + 1 => frontLoop step fuel (acc ∪ new) (step new)

/-- DFSM._get_all_next_states: all targets over the alphabet's symbols. -/
def getAllNextStates (m : FSM) (q : ℕ) : Finset ℕ :=
  m.alphabet.biUnion fun sym => dictTargets m.transitions (q, sym)

/-- DFSM._get_all_prev_states, as a set. -/
def getPrevStates (m : FSM) (q : ℕ) : Finset ℕ :=
  ((m.transitions.filter fun e => decide (q ∈ e.2)).map fun e => e.1.1).toFinset

/-- DFSM._get_unreachable_states (fuelled). -/
def getUnreachableStates (m : FSM) (fuel : ℕ) : Option (Finset ℕ) :=
  (frontLoop (fun s => s.biUnion (getAllNextStates m)) fuel ∅ {m.start}).map
    fun reachable => m.states \ reachable

/-- DFSM._get_useless_states (fuelled). -/
def getUselessStates (m : FSM) (fuel : ℕ) : Option (Finset ℕ) :=
  (frontLoop (fun s => s.biUnion (getPrevStates m)) fuel ∅ m.accepting).map
    fun useful => m.states \ useful

/-- DFSM._empty_machine. -/
def emptyMachine (m : FSM) (c : ℕ) : FSM :=
  ⟨{c}, m.alphabet, [], c, ∅⟩

/-- DFSM.simplify (fuelled).  Two behaviours of the source are mirrored
faithfully: (1) the edge-dropping loop tests whether an entry's value — a
frozenset of states — is a member of the set of removed states, which is
never true, so no transition is ever deleted; (2) the new accepting set is
states - removed (all surviving states), not accepting - removed. -/
def simplifyF (m : FSM) (c : ℕ) (fuel : ℕ) : Option (FSM × ℕ) := do
  let useless ← getUselessStates m fuel
  if m.start ∈ useless then
    pure (emptyMachine m c, c + 1)
  else do
    let unreachable ← getUnreachableStates m fuel
    let remove := unreachable ∪ useless
    pure (⟨m.states \ remove, m.alphabet, m.transitions, m.start,
      m.states \ remove⟩, c)

/-- DFSM.is_total. -/
def isTotal (m : FSM) : Bool :=
  decide (∀ q ∈ m.states, ∀ sym ∈ m.alphabet,
    (dictFind m.transitions (q, sym)).isSome)

/-- DFSM.make_total. -/
def makeTotal (m : FSM) (c : ℕ) : FSM × ℕ :=
  if isTotal m then (m, c)
  else
    let trash := c
    let t := (natList m.states).foldl (fun t q =>
      (symList m.alphabet).foldl (fun t sym =>
        if (dictFind m.transitions (q, sym)).isSome then t
        else dictSet t (q, sym) {trash}) t) m.transitions
    let t := (symList m.alphabet).foldl
      (fun t sym => dictSet t (trash, sym) {trash}) t
    (⟨m.states ∪ {trash}, m.alphabet, t, m.start, m.accepting⟩, c + 1)

/-- DFSM.complement: make total, then flip the accepting set. -/
def complementD (m : FSM) (c : ℕ) : FSM × ℕ :=
  let p := makeTotal m c
  (⟨p.1.states, p.1.alphabet, p.1.transitions, p.1.start,
    p.1.states \ p.1.accepting⟩, p.2)

/-- Generic association-list lookup (for the superstate table of subset
construction). -/
def alFind {α β : Type} [DecidableEq α] : List (α × β) → α → Option β
  | [], _ => none
  | e :: d, k => if e.1 = k then some e.2 else alFind d k

/-- Generic association-list assignment. -/
def alSet {α β : Type} [DecidableEq α] : List (α × β) → α → β → List (α × β)
  | [], k, v => [(k, v)]
  | e :: d, k, v => if e.1 = k then (k, v) :: d else e :: alSet d k v

/-- NeFSM._get_epsilon_closure (fuelled; diverges — returns none for every
fuel — on an epsilon cycle, because the frontier never subtracts visited
states). -/
def getEpsilonClosure (m : FSM) (q : ℕ) (fuel : ℕ) : Option (Finset ℕ) :=
  frontLoop (fun s => s.biUnion fun q2 => dictTargets m.transitions (q2, none))
    fuel ∅ {q}

/-- NeFSM._construct_superset: union over the key's targets of their
epsilon closures (superstates are canonicalised as Finsets; the source
uses tuples of a Python set's iteration order). -/
def constructSuperset (m : FSM) (old : Finset ℕ) (sym : Symbol)
    (efuel : ℕ) : Option (Finset ℕ) :=
  (natList old).foldlM (fun acc q =>
    (natList (dictTargets m.transitions (q, sym))).foldlM
      (fun acc2 q2 => (getEpsilonClosure m q2 efuel).map fun cl => acc2 ∪ cl)
      acc) ∅

/-- One symbol of the body of the subset-construction worklist loop. -/
def toDfsmSymbol (m : FSM) (current : Finset ℕ) (efuel : ℕ)
    (st : List (Finset ℕ) × List (Finset ℕ × ℕ) × List ((ℕ × Symbol) × ℕ) ×
      Finset ℕ × ℕ) (sym : Symbol) :
    Option (List (Finset ℕ) × List (Finset ℕ × ℕ) × List ((ℕ × Symbol) × ℕ) ×
      Finset ℕ × ℕ) := do
  let stk := st.1
  let sups := st.2.1
  let trs := st.2.2.1
  let ac := st.2.2.2.1
  let cnt := st.2.2.2.2
  let superstate ← constructSuperset m current sym efuel
  if superstate = ∅ then
    pure (stk, sups, trs, ac, cnt)
  else
    let stk := if (alFind sups superstate).isSome then stk
      else superstate :: stk
    let p : ℕ × ℕ := match alFind sups superstate with
      | some st0 => (st0, cnt)
      | none => (cnt, cnt + 1)
    let state := p.1
    let sups := alSet sups superstate state
    let trs := alSet trs ((alFind sups current).getD 0, sym) state
    let ac := if superstate ∩ m.accepting ≠ ∅ then insert state ac else ac
    pure (stk, sups, trs, ac, p.2)

/-- The subset-construction worklist loop (fuelled). -/
def toDfsmLoop (m : FSM) (efuel : ℕ) :
    ℕ → List (Finset ℕ) → List (Finset ℕ × ℕ) → List ((ℕ × Symbol) × ℕ) →
      Finset ℕ → ℕ →
      Option (List (Finset ℕ × ℕ) × List ((ℕ × Symbol) × ℕ) × Finset ℕ × ℕ)
  | _, [], supersets, trs, acc, cnt => some (supersets, trs, acc, cnt)
  | 0, _ :: _, _, _, _, _ => none
  | fuel + 1, current :: stack, supersets, trs, acc, cnt => do
    let st ←
      (symList m.alphabet).foldlM (toDfsmSymbol m current efuel)
        (stack, supersets, trs, acc, cnt)
    toDfsmLoop m efuel fuel st.1 st.2.1 st.2.2.1 st.2.2.2.1 st.2.2.2.2

/-- NeFSM.to_dfsm (fuelled; the fresh DFSM state for the initial
superstate is allocated first, then one fresh state per new superstate). -/
def toDfsm (m : FSM) (c : ℕ) (fuel : ℕ) : Option (FSM × ℕ) := do
  let initial := c
  let closure ← getEpsilonClosure m m.start fuel
  let acc0 : Finset ℕ :=
    if closure ∩ m.accepting ≠ ∅ then {initial} else ∅
  let (supersets, trans1, acc, cnt) ←
    toDfsmLoop m fuel fuel [closure] [(closure, initial)] [] acc0 (c + 1)
  pure (⟨(supersets.map Prod.snd).toFinset, m.alphabet,
    trans1.map (fun e => (e.1, ({e.2} : Finset ℕ))), initial, acc⟩, cnt)

/-- NeFSM.complement: subset construction, then DFSM complement. -/
def complementN (m : FSM) (c : ℕ) (fuel : ℕ) : Option (FSM × ℕ) := do
  let (d, c1) ← toDfsm m c fuel
  pure (complementD d c1)

/-- NeFSM.intersection with a DFSM right operand (the case reached from
DFSM.__sub__): ~(~self | ~other), where ~self goes through subset
construction (NeFSM.complement) but ~other is the plain DFSM complement. -/
def intersectionN (A B : FSM) (c : ℕ) (fuel : ℕ) : Option (FSM × ℕ) := do
  let (na, c1) ← complementN A c fuel
  let pb := complementD B c1
  let pu := unionFSM na pb.1 pb.2
  complementN pu.1 pu.2 fuel

/-- DFSM.__sub__: self & ~other, where & is intersection through the
nondeterministic view. -/
def subD (A B : FSM) (c : ℕ) (fuel : ℕ) : Option (FSM × ℕ) := do
  let pb := complementD B c
  intersectionN A pb.1 pb.2 fuel

/-- DFSM.__bool__: simplify, then test for the canonical empty machine. -/
def boolD (m : FSM) (c : ℕ) (fuel : ℕ) : Option (Bool × ℕ) := do
  let (s, c1) ← simplifyF m c fuel
  pure (!(decide (s.accepting.card = 0) && decide (s.transitions.length = 0)), c1)

/-- DFSM.__eq__: bool(self - other) and bool(other - self), with Python's
short-circuiting conjunction. -/
def eqD (A B : FSM) (c : ℕ) (fuel : ℕ) : Option Bool := do
  let (d1, c1) ← subD A B c fuel
  let (b1, c2) ← boolD d1 c1 fuel
  if b1 then do
    let (d2, c3) ← subD B A c2 fuel
    let (b2, _) ← boolD d2 c3 fuel
    pure (b1 && b2)
  else
    pure false

/-- C7, witness: the hypotheses hold of the concrete normal machine for
the atom a, and to_normal_form returns it unchanged. -/
theorem claim_C7_toNormalForm_id_witness :
    witNormal.accepting = {1} ∧
    (∀ e ∈ witNormal.transitions, witNormal.start ∉ e.2) ∧
    (∀ sym : Symbol, dictFind witNormal.transitions (1, sym) = none) ∧
    witNormal.start ∈ witNormal.states ∧ (1 : ℕ) ∈ witNormal.states ∧
    toNormalForm witNormal 2 = (witNormal, 2) := by
  have hnoout : ∀ sym : Symbol, dictFind witNormal.transitions (1, sym) = none := by
    intro sym
    apply dictFind_eq_none_iff.mpr
    intro e he hek
    have he2 : e = ((0, some 'a'), ({1} : Finset ℕ)) := by
      simpa [witNormal] using he
    rw [he2] at hek
    have := congrArg Prod.fst hek
    simp at this
  exact ⟨by decide, by decide, hnoout, by decide, by decide,
    claim_C7_toNormalForm_id witNormal 2 1 (by decide) (by decide) hnoout
      (by decide) (by decide)⟩

/-! ### The simple regex front end (fsm/simple_regex_parser.py)

Tokens: STAR, UNION, SYMBOL (payload a character, or the empty string
after epsilon fill — a Symbol), GROUP (a bracketed token list).  The
fuelled functions mirror the source's loops and recursions; none is
returned when the fuel runs out or where the source raises. -/

inductive RToken where
  | star : RToken
  | unionT : RToken
  | symbol : Symbol → RToken
  | group : List RToken → RToken

/-- Is this token UNION? -/
def RToken.isUnionT : RToken → Bool
  | RToken.unionT => true
  | _ => false

/-- Is this token STAR? -/
def RToken.isStar : RToken → Bool
  | RToken.star => true
  | _ => false

/-- The trailing epsilon fill: append an epsilon SYMBOL when the list is
empty or ends in UNION. -/
def trailingFill (r : List RToken) : List RToken :=
  if r.isEmpty || (match r.getLast? with
      | some t => t.isUnionT
      | none => false) then
    r ++ [RToken.symbol none]
  else r

/-- _tokenize: returns the tokens and the unconsumed rest of the stream
(the source's recursive calls share one iterator).  none where the source
raises: end of input inside a group, an unescaped closing bracket at top
level, or a trailing escape character. -/
def tokenizeF : ℕ → List Char → Bool → Option (List RToken × List Char)
  | 0, _, _ => none
  | _ + 1, [], recursive => if recursive then none else some ([], [])
  | fuel + 1, ch :: rest, recursive =>
    if ch = '*' then
      (tokenizeF fuel rest recursive).map fun p => (RToken.star :: p.1, p.2)
    else if ch = '(' then do
      let (inner, rem) ← tokenizeF fuel rest true
      let (ts, rem2) ← tokenizeF fuel rem recursive
      pure (RToken.group inner :: ts, rem2)
    else if ch = ')' then
      if recursive then some ([], rest) else none
    else if ch = '|' then
      (tokenizeF fuel rest recursive).map fun p => (RToken.unionT :: p.1, p.2)
    else if ch = '\\' then
      match rest with
      | [] => none
      | d :: rest2 =>
        (tokenizeF fuel rest2 recursive).map fun p =>
          (RToken.symbol (some d) :: p.1, p.2)
    else
      (tokenizeF fuel rest recursive).map fun p =>
        (RToken.symbol (some ch) :: p.1, p.2)

/-- The body of _apply_epsilon_fill's loop: prev is the previous token of
the ORIGINAL list (none at index 0), which is what the source's
tokens[index-1] inspects. -/
def epsFillAux (fuel : ℕ) : Option RToken → List RToken → List RToken :=
  fun prev ts =>
    match fuel, prev, ts with
    | 0, _, _ => []
    | _ + 1, _, [] => []
    | fuel + 1, prev, t :: rest =>
      let prevU : Bool := match prev with
        | none => true
        | some RToken.unionT => true
        | some _ => false
      match t with
      | RToken.group g =>
        RToken.group (trailingFill (epsFillAux fuel none g)) ::
          epsFillAux fuel (some t) rest
      | RToken.star =>
        (if prevU then RToken.symbol none else RToken.star) ::
          epsFillAux fuel (some t) rest
      | RToken.unionT =>
        (if prevU then [RToken.symbol none, RToken.unionT] else [RToken.unionT])
          ++ epsFillAux fuel (some t) rest
      | RToken.symbol s => RToken.symbol s :: epsFillAux fuel (some t) rest

/-- _apply_epsilon_fill, including the trailing fill when the result is
empty or ends in UNION. -/
def epsFillF (fuel : ℕ) (ts : List RToken) : List RToken :=
  trailingFill (epsFillAux fuel none ts)

/-- _to_postfix: each UNION bubbles past its right operand and the
consecutive STAR tokens directly after it; scanning resumes after the
union's new position.  none where the source's swap would index past the
end (a trailing UNION). -/
def toPostfixOrder : ℕ → List RToken → Option (List RToken)
  | 0, _ => none
  | _ + 1, [] => some []
  | fuel + 1, RToken.unionT :: rest =>
    match rest with
    | [] => none
    | x :: rest2 =>
      let stars := rest2.takeWhile RToken.isStar
      let rest3 := rest2.drop stars.length
      (toPostfixOrder fuel rest3).map fun tail =>
        x :: stars ++ RToken.unionT :: tail
  | fuel + 1, t :: rest => (toPostfixOrder fuel rest).map fun tail => t :: tail

/-- _recursive_to_postfix: the flat pass first, then each group's payload
recursively. -/
def recPostfixOrder : ℕ → List RToken → Option (List RToken)
  | 0, _ => none
  | fuel + 1, ts => do
    let ts1 ← toPostfixOrder (fuel + 1) ts
    ts1.mapM fun t =>
      match t with
      | RToken.group g => (recPostfixOrder fuel g).map RToken.group
      | t => some t

/-- The regex syntax tree (Node/Leaf of the source). -/
inductive RTree where
  | leaf : Symbol → RTree
  | union : RTree → RTree → RTree
  | concat : RTree → RTree → RTree
  | star : RTree → RTree
deriving DecidableEq

/-- _make_chain: right-nested concatenation of the remaining stack.  none
on an empty stack (where the source would fail). -/
def makeChain : List RTree → Option RTree
  | [] => none
  | [t] => some t
  | t :: rest => (makeChain rest).map (RTree.concat t)

/-- _build_tree's stack loop; the stack's head is its top.  none on a pop
from an empty stack. -/
def buildTreeAux : ℕ → List RToken → List RTree → Option (List RTree)
  | 0, _, _ => none
  | _ + 1, [], stack => some stack
  | fuel + 1, t :: rest, stack =>
    match t with
    | RToken.symbol s => buildTreeAux fuel rest (RTree.leaf s :: stack)
    | RToken.star =>
      match stack with
      | [] => none
      | x :: stk => buildTreeAux fuel rest (RTree.star x :: stk)
    | RToken.unionT =>
      match stack with
      | r :: l :: stk => buildTreeAux fuel rest (RTree.union l r :: stk)
      | _ => none
    | RToken.group g => do
      let stk2 ← buildTreeAux fuel g []
      let sub ← makeChain stk2.reverse
      buildTreeAux fuel rest (sub :: stack)

/-- _build_tree. -/
def buildTree (fuel : ℕ) (ts : List RToken) : Option RTree := do
  let stk ← buildTreeAux fuel ts []
  makeChain stk.reverse

/-- _tree_to_regex: Thompson-style lowering through the NeFSM operations,
left subtree first (Python's operand order), threading the state
counter. -/
def treeToFsm : RTree → ℕ → FSM × ℕ
  | RTree.leaf s, c => atomMatcher s c
  | RTree.union l r, c =>
    let pl := treeToFsm l c
    let pr := treeToFsm r pl.2
    unionFSM pl.1 pr.1 pr.2
  | RTree.concat l r, c =>
    let pl := treeToFsm l c
    let pr := treeToFsm r pl.2
    concatFSM pl.1 pr.1 pr.2
  | RTree.star t, c =>
    let pt := treeToFsm t c
    kleeneStarFSM pt.1 pt.2

/-- compile_regex = parse_regex then _tree_to_regex. -/
def compileRegexF (pattern : List Char) (c : ℕ) (fuel : ℕ) :
    Option (FSM × ℕ) := do
  let (ts, _) ← tokenizeF fuel pattern false
  let ts1 := epsFillF fuel ts
  let ts2 ← recPostfixOrder fuel ts1
  let tree ← buildTree fuel ts2
  pure (treeToFsm tree c)

/-! ### C5: the machine compiled from (ab)* -/

/-- C5: compiling the pattern (ab)* succeeds, and the resulting machine
accepts the empty word, ab and abab, and rejects a, abb and aba — exactly
the spec's table row. -/
theorem claim_C5_compile_ab_star :
    ((compileRegexF ['(', 'a', 'b', ')', '*'] 0 100).map fun p =>
      (runBoolN p.1 [], runBoolN p.1 ['a', 'b'],
       runBoolN p.1 ['a', 'b', 'a', 'b'], runBoolN p.1 ['a'],
       runBoolN p.1 ['a', 'b', 'b'], runBoolN p.1 ['a', 'b', 'a'])) =
    some (true, true, true, false, false, false) := by
  decide

/-! ### C1: simplify changes the accepted language (code bug) -/

/-- The two-state recognizer of the single word a: it rejects the empty
word. -/
def cexSimplifyM : FSM := ⟨{0, 1}, {some 'a'}, [((0, some 'a'), {1})], 0, {1}⟩

/-- C1: simplify does not preserve the language.  On the two-state
recognizer of the word a — all of whose states are reachable and useful,
so nothing should change — simplify keeps states and transitions but
replaces the accepting set {1} by all surviving states {0, 1}
(`accepting=self.__states - remove` in the source), so the simplified
machine accepts the empty word while the original rejects it. -/
theorem claim_C1_simplify_changes_language :
    simplifyF cexSimplifyM 2 5 =
      some (⟨{0, 1}, {some 'a'}, [((0, some 'a'), {1})], 0, {0, 1}⟩, 2) ∧
    runBoolD cexSimplifyM [] = false ∧
    runBoolD ⟨{0, 1}, {some 'a'}, [((0, some 'a'), {1})], 0, {0, 1}⟩ [] = true := by
  exact ⟨by decide, by decide, by decide⟩

/-! ### C2: to_dfsm diverges on an epsilon self-loop (code bug) -/

/-- If q always stays in the frontier, the source's frontier loop never
terminates: the fuelled embedding returns none for every fuel. -/
theorem frontLoop_diverge (step : Finset ℕ → Finset ℕ) (q : ℕ)
    (hstep : ∀ s, q ∈ s → q ∈ step s) :
    ∀ fuel acc new, q ∈ new → frontLoop step fuel acc new = none := by
  intro fuel
  induction fuel with
  | zero =>
    intro acc new hq
    rw [frontLoop, if_neg (Finset.ne_empty_of_mem hq)]
  | succ f ih =>
    intro acc new hq
    rw [frontLoop, if_neg (Finset.ne_empty_of_mem hq)]
    exact ih _ _ (hstep _ hq)

/-- The machine of test.py's epsilon-self-loop test: one state with an
ε-loop on itself, accepting. -/
def cexEpsM : FSM := ⟨{0}, {some 'a'}, [((0, none), {0})], 0, {0}⟩

/-- C2: to_dfsm does not terminate on a machine with an ε-cycle, because
_get_epsilon_closure's frontier loop never subtracts the states already
visited: on an ε-self-loop the frontier is forever {0}.  The machine
itself is run correctly by the runner (it accepts ε and rejects a), so
the claimed equivalence to_dfsm(A).run(w) = A.run(w) fails: the left side
never returns. -/
theorem claim_C2_to_dfsm_diverges :
    (∀ fuel, toDfsm cexEpsM 1 fuel = none) ∧
    runBoolN cexEpsM [] = true ∧ runBoolN cexEpsM ['a'] = false := by
  refine ⟨?_, by decide, by decide⟩
  intro fuel
  have h : getEpsilonClosure cexEpsM 0 fuel = none := by
    apply frontLoop_diverge _ 0 ?_ fuel ∅ {0} (by decide)
    intro s hs
    exact Finset.mem_biUnion.2 ⟨0, hs, by decide⟩
  show (getEpsilonClosure cexEpsM cexEpsM.start fuel).bind _ = none
  rw [show cexEpsM.start = 0 from rfl, h]
  rfl

/-! ### C6: machine equality

The source's __eq__ is `bool(self - other) and bool(other - self)` — with
no negation, so it claims equality exactly when both differences are
non-empty.  __bool__ goes through simplify, whose backward sweep from the
accepting states (_get_useless_states) loops forever whenever some
accepting state lies on a cycle of the transition graph; the difference
machine A − B built by complement/union/subset-construction has exactly
that shape whenever its language is non-empty over a non-empty alphabet
(its complement stage adds a trash state with self-loops, and the trash
state becomes accepting when the accepting set is flipped).  So == hangs
on the very inputs the claim says it returns True on. -/

/-- The frontier loop stops at once on an empty frontier. -/
theorem frontLoop_stop (step : Finset ℕ → Finset ℕ) (fuel : ℕ)
    (acc new : Finset ℕ) (hn : new = ∅) :
    frontLoop step fuel acc new = some acc := by
  rw [frontLoop.eq_def]
  exact if_pos hn

/-- The frontier loop with no fuel and a non-empty frontier gives none. -/
theorem frontLoop_zero (step : Finset ℕ → Finset ℕ) (acc new : Finset ℕ)
    (hn : ¬ new = ∅) : frontLoop step 0 acc new = none := by
  rw [frontLoop.eq_def]
  exact if_neg hn

/-- One iteration of the frontier loop. -/
theorem frontLoop_succ (step : Finset ℕ → Finset ℕ) (f : ℕ)
    (acc new : Finset ℕ) (hn : ¬ new = ∅) :
    frontLoop step (f + 1) acc new = frontLoop step f (acc ∪ new) (step new) := by
  rw [frontLoop.eq_def]
  exact if_neg hn

/-- Fuel monotonicity of the frontier loop: a result obtained with less
fuel is the loop's one true result. -/
theorem frontLoop_mono {step : Finset ℕ → Finset ℕ} :
    ∀ {f f' : ℕ} {acc new r : Finset ℕ}, f ≤ f' →
      frontLoop step f acc new = some r → frontLoop step f' acc new = some r := by
  intro f
  induction f with
  | zero =>
    intro f' acc new r _ h0
    by_cases hn : new = ∅
    · rw [frontLoop_stop _ _ _ _ hn] at h0 ⊢
      exact h0
    · rw [frontLoop_zero _ _ _ hn] at h0
      exact absurd h0 (by simp)
  | succ f ih =>
    intro f' acc new r hle h0
    by_cases hn : new = ∅
    · rw [frontLoop_stop _ _ _ _ hn] at h0 ⊢
      exact h0
    · rw [frontLoop_succ _ _ _ _ hn] at h0
      match f', hle with
      | f'' + 1, hle =>
        rw [frontLoop_succ _ _ _ _ hn]
        exact ih (Nat.succ_le_succ_iff.mp hle) h0

/-- Monotone steps give a monotone Option-valued fold. -/
theorem foldlM_mono {α β : Type} {g g' : β → α → Option β}
    (hg : ∀ b a r, g b a = some r → g' b a = some r) :
    ∀ (l : List α) (b r : β), List.foldlM g b l = some r →
      List.foldlM g' b l = some r := by
  intro l
  induction l with
  | nil => intro b r h; simpa using h
  | cons a t ih =>
    intro b r h
    rw [List.foldlM_cons] at h ⊢
    rcases hb : g b a with _ | b'
    · rw [hb] at h
      exact absurd h (by simp)
    · rw [hb] at h
      rw [hg b a b' hb]
      simp only [Option.bind_eq_bind, Option.some_bind] at h ⊢
      exact ih b' r h

/-- Fuel monotonicity of the epsilon closure. -/
theorem getEpsilonClosure_mono {m : FSM} {q : ℕ} {f f' : ℕ} (h : f ≤ f')
    {r : Finset ℕ} (h0 : getEpsilonClosure m q f = some r) :
    getEpsilonClosure m q f' = some r :=
  frontLoop_mono h h0

/-- Fuel monotonicity of _construct_superset. -/
theorem constructSuperset_mono {m : FSM} {old : Finset ℕ} {sym : Symbol}
    {f f' : ℕ} (h : f ≤ f') {r : Finset ℕ}
    (h0 : constructSuperset m old sym f = some r) :
    constructSuperset m old sym f' = some r := by
  rw [constructSuperset] at h0 ⊢
  refine foldlM_mono ?_ _ _ _ h0
  intro b a r2 h2
  refine foldlM_mono ?_ _ _ _ h2
  intro b2 a2 r3 h3
  rcases hg : getEpsilonClosure m a2 f with _ | cl
  · rw [hg] at h3
    exact absurd h3 (by simp)
  · rw [hg] at h3
    rw [getEpsilonClosure_mono h hg]
    exact h3

/-- Fuel monotonicity of one symbol of the subset-construction loop. -/
theorem toDfsmSymbol_mono {m : FSM} {current : Finset ℕ} {f f' : ℕ}
    (h : f ≤ f') :
    ∀ st sym r, toDfsmSymbol m current f st sym = some r →
      toDfsmSymbol m current f' st sym = some r := by
  intro st sym r h0
  rw [toDfsmSymbol] at h0 ⊢
  rcases hcs : constructSuperset m current sym f with _ | ss
  · rw [hcs] at h0
    exact absurd h0 (by simp)
  · rw [hcs] at h0
    rw [constructSuperset_mono h hcs]
    exact h0

/-- Fuel monotonicity of the subset-construction worklist loop (in both
the closure fuel and the loop fuel). -/
theorem toDfsmLoop_mono {m : FSM} {ef ef' : ℕ} (hef : ef ≤ ef') :
    ∀ {lf lf' : ℕ}, lf ≤ lf' →
      ∀ {stk sups trs acc cnt r},
        toDfsmLoop m ef lf stk sups trs acc cnt = some r →
        toDfsmLoop m ef' lf' stk sups trs acc cnt = some r := by
  intro lf
  induction lf with
  | zero =>
    intro lf' h stk sups trs acc cnt r h0
    cases stk with
    | nil =>
      simp only [toDfsmLoop] at h0
      cases lf' with
      | zero => exact h0
      | succ l => exact h0
    | cons cur rest => exact absurd h0 (by simp [toDfsmLoop])
  | succ lf ih =>
    intro lf' h stk sups trs acc cnt r h0
    cases stk with
    | nil =>
      simp only [toDfsmLoop] at h0
      cases lf' with
      | zero => exact h0
      | succ l => exact h0
    | cons cur rest =>
      match lf', h with
      | lf'' + 1, h =>
        simp only [toDfsmLoop, Option.bind_eq_bind] at h0 ⊢
        rcases hfold : List.foldlM (toDfsmSymbol m cur ef)
            (rest, sups, trs, acc, cnt) (symList m.alphabet) with _ | st
        · rw [hfold] at h0
          exact absurd h0 (by simp)
        · rw [hfold] at h0
          rw [foldlM_mono (fun b a r => toDfsmSymbol_mono hef b a r) _ _ _ hfold]
          simp only [Option.some_bind] at h0 ⊢
          exact ih (Nat.succ_le_succ_iff.mp h) h0

/-- Fuel monotonicity of to_dfsm. -/
theorem toDfsm_mono {m : FSM} {c : ℕ} {f f' : ℕ} (h : f ≤ f')
    {r : FSM × ℕ} (h0 : toDfsm m c f = some r) : toDfsm m c f' = some r := by
  rw [toDfsm] at h0 ⊢
  rcases hcl : getEpsilonClosure m m.start f with _ | cl
  · rw [hcl] at h0
    exact absurd h0 (by simp)
  · rw [hcl] at h0
    rw [getEpsilonClosure_mono h hcl]
    simp only [Option.bind_eq_bind, Option.some_bind] at h0 ⊢
    rcases hlp : toDfsmLoop m f f [cl] [(cl, c)] []
        (if cl ∩ m.accepting ≠ ∅ then {c} else ∅) (c + 1) with _ | st
    · rw [hlp] at h0
      exact absurd h0 (by simp)
    · rw [hlp] at h0
      rw [toDfsmLoop_mono h h hlp]
      exact h0

/-- Fuel monotonicity of the NFSM complement. -/
theorem complementN_mono {m : FSM} {c : ℕ} {f f' : ℕ} (h : f ≤ f')
    {r : FSM × ℕ} (h0 : complementN m c f = some r) :
    complementN m c f' = some r := by
  rw [complementN] at h0 ⊢
  rcases hd : toDfsm m c f with _ | p
  · rw [hd] at h0
    exact absurd h0 (by simp)
  · rw [hd] at h0
    rw [toDfsm_mono h hd]
    exact h0

/-- Fuel monotonicity of the intersection. -/
theorem intersectionN_mono {A B : FSM} {c : ℕ} {f f' : ℕ} (h : f ≤ f')
    {r : FSM × ℕ} (h0 : intersectionN A B c f = some r) :
    intersectionN A B c f' = some r := by
  rw [intersectionN] at h0 ⊢
  rcases ha : complementN A c f with _ | pa
  · rw [ha] at h0
    exact absurd h0 (by simp)
  · rw [ha] at h0
    rw [complementN_mono h ha]
    simp only [Option.bind_eq_bind, Option.some_bind] at h0 ⊢
    rcases hu : complementN (unionFSM pa.1 (complementD B pa.2).1
        (complementD B pa.2).2).1
        (unionFSM pa.1 (complementD B pa.2).1 (complementD B pa.2).2).2 f
        with _ | pu
    · rw [hu] at h0
      exact absurd h0 (by simp)
    · rw [hu] at h0
      rw [complementN_mono h hu]
      exact h0

/-- Fuel monotonicity of the difference A − B. -/
theorem subD_mono {A B : FSM} {c : ℕ} {f f' : ℕ} (h : f ≤ f')
    {r : FSM × ℕ} (h0 : subD A B c f = some r) : subD A B c f' = some r := by
  rw [subD] at h0 ⊢
  exact intersectionN_mono h h0

/-- The recognizer of the word a on states 0, 1. -/
def cexC6A : FSM := ⟨{0, 1}, {some 'a'}, [((0, some 'a'), {1})], 0, {1}⟩

/-- The recognizer of the word b on states 2, 3. -/
def cexC6B : FSM := ⟨{2, 3}, {some 'b'}, [((2, some 'b'), {3})], 2, {3}⟩

/-- The machine the source builds for cexC6A − cexC6B (the value of subD
at any sufficient fuel).  Its state 17 is accepting and carries self-loops
on both symbols, so simplify's backward sweep from the accepting states
never empties its frontier. -/
def cexC6D : FSM :=
  ⟨{12, 13, 14, 15, 16, 17}, {some 'a', some 'b'},
    [((12, some 'a'), {13}), ((12, some 'b'), {14}), ((14, some 'b'), {15}),
     ((15, some 'b'), {15}), ((13, some 'a'), {16}), ((16, some 'a'), {16}),
     ((13, some 'b'), {17}), ((14, some 'a'), {17}), ((15, some 'a'), {17}),
     ((16, some 'b'), {17}), ((17, some 'a'), {17}), ((17, some 'b'), {17})],
    12, {13, 15, 17}⟩

/-- A machine rendered as plain lists of naturals, so that concrete
machine computations can be checked by reduction without deciding Finset
equalities. -/
def fsmRepr (m : FSM) : List ℕ × List ℕ × List ((ℕ × ℕ) × List ℕ) × ℕ × List ℕ :=
  (natList m.states, (symList m.alphabet).map symKey,
    m.transitions.map (fun e => ((e.1.1, symKey e.1.2), natList e.2)),
    m.start, natList m.accepting)

theorem natList_inj {s t : Finset ℕ} (h : natList s = natList t) : s = t := by
  ext a
  rw [← mem_natList, ← mem_natList, h]

theorem symList_inj {s t : Finset Symbol} (h : symList s = symList t) :
    s = t := by
  ext a
  rw [← mem_symList, ← mem_symList, h]

theorem fsmRepr_inj {m1 m2 : FSM} (h : fsmRepr m1 = fsmRepr m2) : m1 = m2 := by
  obtain ⟨s1, a1, t1, q1, f1⟩ := m1
  obtain ⟨s2, a2, t2, q2, f2⟩ := m2
  simp only [fsmRepr, Prod.mk.injEq] at h
  obtain ⟨h1, h2, h3, h4, h5⟩ := h
  have ha : a1 = a2 := symList_inj (List.map_injective_iff.mpr symKey_injective h2)
  have ht : t1 = t2 := by
    refine List.map_injective_iff.mpr ?_ h3
    rintro ⟨⟨x1, y1⟩, z1⟩ ⟨⟨x2, y2⟩, z2⟩ he
    simp only [Prod.mk.injEq] at he
    obtain ⟨⟨hx, hy⟩, hz⟩ := he
    exact Prod.ext (Prod.ext hx (symKey_injective hy)) (natList_inj hz)
  exact FSM.mk.injEq .. |>.mpr ⟨natList_inj h1, ha, ht, h4, natList_inj h5⟩

/-- Turn a checked fsmRepr computation back into a machine equation. -/
theorem option_fsm_eq {o : Option (FSM × ℕ)} {m : FSM} {k : ℕ}
    (h : o.map (fun p => (fsmRepr p.1, p.2)) = some (fsmRepr m, k)) :
    o = some (m, k) := by
  rcases o with _ | p
  · exact absurd h (by simp)
  · obtain ⟨pm, pk⟩ := p
    simp only [Option.map_some'] at h
    have hp := Option.some_injective _ h
    have h1 : fsmRepr pm = fsmRepr m := congrArg Prod.fst hp
    have h2 : pk = k := congrArg Prod.snd hp
    rw [fsmRepr_inj h1, h2]

/-- Turn a checked fsmRepr computation back into a machine pair. -/
theorem pair_fsm_eq {p : FSM × ℕ} {m : FSM} {k : ℕ}
    (h : (fsmRepr p.1, p.2) = (fsmRepr m, k)) : p = (m, k) := by
  obtain ⟨pm, pk⟩ := p
  have h1 : fsmRepr pm = fsmRepr m := congrArg Prod.fst h
  have h2 : pk = k := congrArg Prod.snd h
  rw [fsmRepr_inj h1, h2]

/-- ~cexC6B (DFSM complement: made total with trash state 4, flipped). -/
def cexC6B1 : FSM :=
  ⟨{2, 3, 4}, {some 'b'},
    [((2, some 'b'), {3}), ((3, some 'b'), {4}), ((4, some 'b'), {4})],
    2, {2, 4}⟩

theorem stage_C6_1 : complementD cexC6B 4 = (cexC6B1, 5) :=
  pair_fsm_eq (by rfl)

/-- The subset construction of cexC6A. -/
def cexC6A1 : FSM := ⟨{5, 6}, {some 'a'}, [((5, some 'a'), {6})], 5, {6}⟩

theorem stage_C6_2 : toDfsm cexC6A 5 8 = some (cexC6A1, 7) :=
  option_fsm_eq (by rfl)

/-- ~(subset construction of cexC6A). -/
def cexC6M1 : FSM :=
  ⟨{5, 6, 7}, {some 'a'},
    [((5, some 'a'), {6}), ((6, some 'a'), {7}), ((7, some 'a'), {7})],
    5, {5, 7}⟩

theorem stage_C6_3 : complementD cexC6A1 7 = (cexC6M1, 8) :=
  pair_fsm_eq (by rfl)

/-- ~cexC6B1 (already total, so no fresh state). -/
def cexC6B2 : FSM :=
  ⟨{2, 3, 4}, {some 'b'},
    [((2, some 'b'), {3}), ((3, some 'b'), {4}), ((4, some 'b'), {4})],
    2, {3}⟩

theorem stage_C6_4 : complementD cexC6B1 8 = (cexC6B2, 8) :=
  pair_fsm_eq (by rfl)

/-- The union cexC6M1 | cexC6B2 after normalisation. -/
def cexC6U : FSM :=
  ⟨{2, 3, 4, 5, 6, 7, 8, 9, 10, 11}, {some 'a', some 'b'},
    [((5, some 'a'), {6}), ((6, some 'a'), {7}), ((7, some 'a'), {7}),
     ((5, none), {8}), ((7, none), {8}), ((2, some 'b'), {3}),
     ((3, some 'b'), {4}), ((4, some 'b'), {4}), ((3, none), {9}),
     ((10, none), {2, 5}), ((8, none), {11}), ((9, none), {11})],
    10, {11}⟩

theorem stage_C6_5 : unionFSM cexC6M1 cexC6B2 8 = (cexC6U, 12) :=
  pair_fsm_eq (by rfl)

/-- The subset construction of the union. -/
def cexC6T : FSM :=
  ⟨{12, 13, 14, 15, 16}, {some 'a', some 'b'},
    [((12, some 'a'), {13}), ((12, some 'b'), {14}), ((14, some 'b'), {15}),
     ((15, some 'b'), {15}), ((13, some 'a'), {16}), ((16, some 'a'), {16})],
    12, {12, 14, 16}⟩

theorem stage_C6_6 : toDfsm cexC6U 12 8 = some (cexC6T, 17) :=
  option_fsm_eq (by rfl)

theorem stage_C6_7 : complementD cexC6T 17 = (cexC6D, 18) :=
  pair_fsm_eq (by rfl)

theorem subD_cexC6 : subD cexC6A cexC6B 4 8 = some (cexC6D, 18) := by
  rw [subD, stage_C6_1]
  rw [intersectionN, complementN, stage_C6_2]
  simp only [Option.bind_eq_bind, Option.some_bind, Option.pure_def]
  rw [stage_C6_3]
  simp only [Option.some_bind]
  rw [stage_C6_4, stage_C6_5]
  rw [complementN, stage_C6_6]
  simp only [Option.bind_eq_bind, Option.some_bind, Option.pure_def]
  rw [stage_C6_7]

/-- bool(cexC6D) never returns: the useless-state sweep diverges. -/
theorem boolD_cexC6D_diverges : ∀ fuel c, boolD cexC6D c fuel = none := by
  intro fuel c
  have hul : getUselessStates cexC6D fuel = none := by
    rw [getUselessStates]
    rw [frontLoop_diverge _ 17 ?_ fuel ∅ cexC6D.accepting (by decide)]
    · rfl
    · intro s hs
      exact Finset.mem_biUnion.2 ⟨17, hs, by decide⟩
  rw [boolD, simplifyF, hul]
  rfl

/-! Helper computations for machines over the empty alphabet, used to
settle the terminating fragment of ==. -/

theorem isTotal_nil_alphabet {m : FSM} (hα : m.alphabet = ∅) :
    isTotal m = true := by
  rw [isTotal]
  apply decide_eq_true
  intro x _ sym hsym
  rw [hα] at hsym
  exact absurd hsym (Finset.not_mem_empty sym)

theorem complementD_nil_alphabet {m : FSM} (hα : m.alphabet = ∅) (c : ℕ) :
    complementD m c =
      (⟨m.states, m.alphabet, m.transitions, m.start,
        m.states \ m.accepting⟩, c) := by
  rw [complementD, makeTotal, if_pos (isTotal_nil_alphabet hα)]

theorem symList_empty : symList ∅ = [] := rfl

theorem getEpsilonClosure_nil_trans {m : FSM} (hT : m.transitions = [])
    (q : ℕ) {fuel : ℕ} (h : 1 ≤ fuel) :
    getEpsilonClosure m q fuel = some {q} := by
  obtain ⟨k, rfl⟩ : ∃ k, fuel = k + 1 := ⟨fuel - 1, by omega⟩
  rw [getEpsilonClosure, frontLoop_succ _ _ _ _ (by simp)]
  have hstep : ({q} : Finset ℕ).biUnion
      (fun q2 => dictTargets m.transitions (q2, none)) = ∅ := by
    rw [Finset.singleton_biUnion, hT]
    rfl
  rw [hstep, frontLoop_stop _ _ _ _ rfl, Finset.empty_union]

theorem toDfsmLoop_nil_alphabet {m : FSM} (hα : m.alphabet = ∅) (ef : ℕ)
    {fuel : ℕ} (h : 1 ≤ fuel) (cl : Finset ℕ) (sups trs acc cnt) :
    toDfsmLoop m ef fuel [cl] sups trs acc cnt = some (sups, trs, acc, cnt) := by
  obtain ⟨k, rfl⟩ : ∃ k, fuel = k + 1 := ⟨fuel - 1, by omega⟩
  simp only [toDfsmLoop, hα, symList_empty, List.foldlM_nil, Option.pure_def,
    Option.bind_eq_bind, Option.some_bind]

/-- Subset construction of a machine with no transitions over the empty
alphabet: one fresh state, accepting iff the start state was. -/
theorem toDfsm_nil {Q F0 : Finset ℕ} {q0 : ℕ} (c : ℕ) {fuel : ℕ}
    (h : 2 ≤ fuel) :
    toDfsm ⟨Q, ∅, [], q0, F0⟩ c fuel =
      some (⟨{c}, ∅, [], c, if q0 ∈ F0 then {c} else ∅⟩, c + 1) := by
  rw [toDfsm, getEpsilonClosure_nil_trans rfl _ (by omega)]
  simp only [Option.bind_eq_bind, Option.some_bind]
  rw [toDfsmLoop_nil_alphabet rfl fuel (by omega)]
  simp only [Option.some_bind, Option.pure_def]
  have hmap : ([((
      {q0} : Finset ℕ), c)].map Prod.snd).toFinset = {c} := by simp
  by_cases hq : q0 ∈ F0
  · rw [if_pos (by
      rw [Finset.singleton_inter_of_mem hq]
      exact Finset.singleton_ne_empty q0)]
    simp only [hmap, List.map_nil, if_pos hq]
  · rw [if_neg (by
      rw [Finset.singleton_inter_of_not_mem hq]
      simp)]
    simp only [hmap, List.map_nil, if_neg hq]

/-- Subset construction over the empty alphabet whose start closure meets
the accepting set: the one fresh superstate is accepting. -/
theorem toDfsm_eps_accept {m : FSM} (hα : m.alphabet = ∅) {CL : Finset ℕ}
    (c : ℕ) {fuel : ℕ} (hf : 1 ≤ fuel)
    (hcl : getEpsilonClosure m m.start fuel = some CL)
    (hacc : CL ∩ m.accepting ≠ ∅) :
    toDfsm m c fuel = some (⟨{c}, m.alphabet, [], c, {c}⟩, c + 1) := by
  rw [toDfsm, hcl]
  simp only [Option.bind_eq_bind, Option.some_bind]
  rw [toDfsmLoop_nil_alphabet hα fuel hf]
  simp only [Option.some_bind, Option.pure_def, if_pos hacc]
  simp

/-- bool of a one-state machine with no accepting states: its start is
useless, simplify returns the canonical empty machine, bool is False. -/
theorem boolD_dead (s0 c fuel : ℕ) :
    boolD ⟨{s0}, ∅, [], s0, ∅⟩ c fuel = some (false, c + 1) := by
  rw [boolD, simplifyF, getUselessStates, frontLoop_stop _ _ _ _ rfl]
  simp only [Option.map_some', Option.bind_eq_bind, Option.some_bind]
  rw [if_pos (show s0 ∈ ({s0} : Finset ℕ) \ ∅ by simp)]
  rfl

theorem natList_empty : natList ∅ = [] := rfl

/-- C6, amended: on the fragment where every stage of == terminates —
machines over the empty alphabet — A == A evaluates to False, never True:
the implemented equality is not reflexive.  (On richer machines, such as
the two atom recognizers of the counterexample, == does not even return.)
Stated for the one-state machines ⟨{q}, ∅, {}, q, F⟩ with any accepting
set F ⊆ {q}, any fresh state counter c > q and any sufficient fuel. -/
theorem claim_C6_eq_not_reflexive (q c : ℕ) (F : Finset ℕ)
    (hF : F ⊆ {q}) (hqc : q < c) (fuel : ℕ) (hfuel : 20 ≤ fuel) :
    eqD ⟨{q}, ∅, [], q, F⟩ ⟨{q}, ∅, [], q, F⟩ c fuel = some false := by
  obtain ⟨k, rfl⟩ : ∃ k, fuel = k + 20 := ⟨fuel - 20, by omega⟩
  have n1 : c + 2 ≠ c + 1 := by omega
  have n2 : c + 2 ≠ c := by omega
  have n3 : c + 1 ≠ c := by omega
  have n4 : c + 2 ≠ q := by omega
  have n5 : c + 1 ≠ q := by omega
  have n6 : c ≠ q := by omega
  have n7 : q ≠ c := by omega
  have n8 : c + 2 ≠ c + 3 := by omega
  have n9 : c + 1 ≠ c + 3 := by omega
  have n10 : q ≠ c + 3 := by omega
  have n11 : c ≠ c + 3 := by omega
  have n12 : c ≠ c + 1 := by omega
  have n13 : c ≠ c + 2 := by omega
  have n14 : q ≠ c + 1 := by omega
  have n15 : q ≠ c + 2 := by omega
  rcases Finset.subset_singleton_iff.mp hF with rfl | rfl
  · -- F = ∅: the machine rejects ε, its complement accepts it.
    have h1 : complementD ⟨{q}, ∅, [], q, (∅ : Finset ℕ)⟩ c =
        (⟨{q}, ∅, [], q, {q}⟩, c) := by
      rw [complementD_nil_alphabet rfl, Finset.sdiff_empty]
    have h2 : toDfsm ⟨{q}, ∅, [], q, (∅ : Finset ℕ)⟩ c (k + 20) =
        some (⟨{c}, ∅, [], c, ∅⟩, c + 1) := by
      rw [toDfsm_nil c (by omega), if_neg (Finset.not_mem_empty q)]
    have h3 : complementD ⟨{c}, ∅, [], c, (∅ : Finset ℕ)⟩ (c + 1) =
        (⟨{c}, ∅, [], c, {c}⟩, c + 1) := by
      rw [complementD_nil_alphabet rfl, Finset.sdiff_empty]
    have h4 : complementN ⟨{q}, ∅, [], q, (∅ : Finset ℕ)⟩ c (k + 20) =
        some (⟨{c}, ∅, [], c, {c}⟩, c + 1) := by
      rw [complementN, h2]
      simp only [Option.bind_eq_bind, Option.some_bind, Option.pure_def]
      rw [h3]
    have h5 : complementD ⟨{q}, ∅, [], q, ({q} : Finset ℕ)⟩ (c + 1) =
        (⟨{q}, ∅, [], q, ∅⟩, c + 1) := by
      rw [complementD_nil_alphabet rfl, Finset.sdiff_self]
    have hnfA : toNormalForm ⟨{c}, ∅, [], c, ({c} : Finset ℕ)⟩ (c + 1) =
        (⟨{c} ∪ {c, c}, ∅, [], c, {c}⟩, c + 1) := by
      rw [toNormalForm_ff (by simp [getAllPrevStates]) ?_]
      · rw [pick1_singleton]
      · rw [acceptingInNormalForm, if_pos (Finset.card_singleton c)]
        apply decide_eq_true
        intro sym _
        rfl
    have hnfB : toNormalForm ⟨{q}, ∅, [], q, (∅ : Finset ℕ)⟩ (c + 1) =
        (⟨{q} ∪ {q, c + 1}, ∅, [], q, {c + 1}⟩, c + 2) := by
      rw [toNormalForm_ft (by simp [getAllPrevStates])
        (by simp [acceptingInNormalForm])]
      rw [natList_empty]
      rfl
    have h6 : unionFSM ⟨{c}, ∅, [], c, ({c} : Finset ℕ)⟩
        ⟨{q}, ∅, [], q, (∅ : Finset ℕ)⟩ (c + 1) =
        (⟨({c} ∪ {c, c}) ∪ ({q} ∪ {q, c + 1}) ∪ {c + 2, c + 3}, ∅,
          [((c + 2, none), {c, q}), ((c, none), {c + 3}),
           ((c + 1, none), {c + 3})], c + 2, {c + 3}⟩, c + 4) := by
      rw [unionFSM, hnfA]
      rw [show ((⟨{c} ∪ {c, c}, ∅, [], c, {c}⟩, c + 1) : FSM × ℕ).2 = c + 1
        from rfl, hnfB]
      simp only [pick1_singleton, Finset.union_empty, Prod.mk.injEq]
      refine ⟨?_, trivial⟩
      rw [FSM.mk.injEq]
      refine ⟨rfl, rfl, ?_, rfl, rfl⟩
      simp [dictMerge, updateState, dictFind, dictSet, Prod.mk.injEq, n1, n2,
        n3, n4, n5]
    have hcl : getEpsilonClosure
        (⟨({c} ∪ {c, c}) ∪ ({q} ∪ {q, c + 1}) ∪ {c + 2, c + 3}, ∅,
          [((c + 2, none), {c, q}), ((c, none), {c + 3}),
           ((c + 1, none), {c + 3})], c + 2, {c + 3}⟩ : FSM) (c + 2) (k + 20) =
        some (((∅ ∪ {c + 2}) ∪ {c, q}) ∪ {c + 3}) := by
      rw [getEpsilonClosure]
      rw [frontLoop_succ _ _ _ _ (by simp)]
      rw [show ({c + 2} : Finset ℕ).biUnion (fun q2 =>
          dictTargets [((c + 2, none), ({c, q} : Finset ℕ)),
            ((c, none), {c + 3}), ((c + 1, none), {c + 3})] (q2, none)) =
          {c, q} by
        rw [Finset.singleton_biUnion]
        simp [dictTargets, dictFind]]
      rw [frontLoop_succ _ _ _ _ (Finset.insert_ne_empty c {q})]
      rw [show ({c, q} : Finset ℕ).biUnion (fun q2 =>
          dictTargets [((c + 2, none), ({c, q} : Finset ℕ)),
            ((c, none), {c + 3}), ((c + 1, none), {c + 3})] (q2, none)) =
          {c + 3} by
        rw [show ({c, q} : Finset ℕ) = insert c {q} from rfl,
          Finset.biUnion_insert, Finset.singleton_biUnion]
        simp [dictTargets, dictFind, Prod.mk.injEq, n2, n4, n5, n6]]
      rw [frontLoop_succ _ _ _ _ (Finset.singleton_ne_empty (c + 3))]
      rw [show ({c + 3} : Finset ℕ).biUnion (fun q2 =>
          dictTargets [((c + 2, none), ({c, q} : Finset ℕ)),
            ((c, none), {c + 3}), ((c + 1, none), {c + 3})] (q2, none)) =
          ∅ by
        rw [Finset.singleton_biUnion]
        simp [dictTargets, dictFind, Prod.mk.injEq, n8, n11, n9]]
      rw [frontLoop_stop _ _ _ _ rfl]
    have h7 : toDfsm
        (⟨({c} ∪ {c, c}) ∪ ({q} ∪ {q, c + 1}) ∪ {c + 2, c + 3}, ∅,
          [((c + 2, none), {c, q}), ((c, none), {c + 3}),
           ((c + 1, none), {c + 3})], c + 2, {c + 3}⟩ : FSM) (c + 4) (k + 20) =
        some (⟨{c + 4}, ∅, [], c + 4, {c + 4}⟩, c + 5) := by
      rw [toDfsm_eps_accept rfl (c + 4) (by omega) hcl ?_]
      apply Finset.ne_empty_of_mem
      refine Finset.mem_inter.2 ⟨?_, Finset.mem_singleton_self (c + 3)⟩
      exact Finset.mem_union_right _ (Finset.mem_singleton_self (c + 3))
    have h9 : complementN
        (⟨({c} ∪ {c, c}) ∪ ({q} ∪ {q, c + 1}) ∪ {c + 2, c + 3}, ∅,
          [((c + 2, none), {c, q}), ((c, none), {c + 3}),
           ((c + 1, none), {c + 3})], c + 2, {c + 3}⟩ : FSM) (c + 4) (k + 20) =
        some (⟨{c + 4}, ∅, [], c + 4, ∅⟩, c + 5) := by
      rw [complementN, h7]
      simp only [Option.bind_eq_bind, Option.some_bind, Option.pure_def]
      rw [complementD_nil_alphabet rfl, Finset.sdiff_self]
    have hsub : subD ⟨{q}, ∅, [], q, (∅ : Finset ℕ)⟩
        ⟨{q}, ∅, [], q, (∅ : Finset ℕ)⟩ c (k + 20) =
        some (⟨{c + 4}, ∅, [], c + 4, ∅⟩, c + 5) := by
      rw [subD, h1, intersectionN, h4]
      simp only [Option.bind_eq_bind, Option.some_bind]
      rw [h5, h6, h9]
    rw [eqD, hsub]
    simp only [Option.bind_eq_bind, Option.some_bind]
    rw [boolD_dead]
    simp only [Option.some_bind]
    rfl
  · -- F = {q}: the machine accepts ε, its complement rejects it.
    have h1 : complementD ⟨{q}, ∅, [], q, ({q} : Finset ℕ)⟩ c =
        (⟨{q}, ∅, [], q, ∅⟩, c) := by
      rw [complementD_nil_alphabet rfl, Finset.sdiff_self]
    have h2 : toDfsm ⟨{q}, ∅, [], q, ({q} : Finset ℕ)⟩ c (k + 20) =
        some (⟨{c}, ∅, [], c, {c}⟩, c + 1) := by
      rw [toDfsm_nil c (by omega), if_pos (Finset.mem_singleton_self q)]
    have h3 : complementD ⟨{c}, ∅, [], c, ({c} : Finset ℕ)⟩ (c + 1) =
        (⟨{c}, ∅, [], c, ∅⟩, c + 1) := by
      rw [complementD_nil_alphabet rfl, Finset.sdiff_self]
    have h4 : complementN ⟨{q}, ∅, [], q, ({q} : Finset ℕ)⟩ c (k + 20) =
        some (⟨{c}, ∅, [], c, ∅⟩, c + 1) := by
      rw [complementN, h2]
      simp only [Option.bind_eq_bind, Option.some_bind, Option.pure_def]
      rw [h3]
    have h5 : complementD ⟨{q}, ∅, [], q, (∅ : Finset ℕ)⟩ (c + 1) =
        (⟨{q}, ∅, [], q, {q}⟩, c + 1) := by
      rw [complementD_nil_alphabet rfl, Finset.sdiff_empty]
    have hnfA : toNormalForm ⟨{c}, ∅, [], c, (∅ : Finset ℕ)⟩ (c + 1) =
        (⟨{c} ∪ {c, c + 1}, ∅, [], c, {c + 1}⟩, c + 2) := by
      rw [toNormalForm_ft (by simp [getAllPrevStates])
        (by simp [acceptingInNormalForm])]
      rw [natList_empty]
      rfl
    have hnfB : toNormalForm ⟨{q}, ∅, [], q, ({q} : Finset ℕ)⟩ (c + 2) =
        (⟨{q} ∪ {q, q}, ∅, [], q, {q}⟩, c + 2) := by
      rw [toNormalForm_ff (by simp [getAllPrevStates]) ?_]
      · rw [pick1_singleton]
      · rw [acceptingInNormalForm, if_pos (Finset.card_singleton q)]
        apply decide_eq_true
        intro sym _
        rfl
    have h6 : unionFSM ⟨{c}, ∅, [], c, (∅ : Finset ℕ)⟩
        ⟨{q}, ∅, [], q, ({q} : Finset ℕ)⟩ (c + 1) =
        (⟨({c} ∪ {c, c + 1}) ∪ ({q} ∪ {q, q}) ∪ {c + 2, c + 3}, ∅,
          [((c + 2, none), {c, q}), ((c + 1, none), {c + 3}),
           ((q, none), {c + 3})], c + 2, {c + 3}⟩, c + 4) := by
      rw [unionFSM, hnfA]
      rw [show ((⟨{c} ∪ {c, c + 1}, ∅, [], c, {c + 1}⟩, c + 2) : FSM × ℕ).2 =
        c + 2 from rfl, hnfB]
      simp only [pick1_singleton, Finset.union_empty, Prod.mk.injEq]
      refine ⟨?_, trivial⟩
      rw [FSM.mk.injEq]
      refine ⟨rfl, rfl, ?_, rfl, rfl⟩
      simp [dictMerge, updateState, dictFind, dictSet, Prod.mk.injEq, n1, n2,
        n3, n4, n5]
    have hcl : getEpsilonClosure
        (⟨({c} ∪ {c, c + 1}) ∪ ({q} ∪ {q, q}) ∪ {c + 2, c + 3}, ∅,
          [((c + 2, none), {c, q}), ((c + 1, none), {c + 3}),
           ((q, none), {c + 3})], c + 2, {c + 3}⟩ : FSM) (c + 2) (k + 20) =
        some (((∅ ∪ {c + 2}) ∪ {c, q}) ∪ {c + 3}) := by
      rw [getEpsilonClosure]
      rw [frontLoop_succ _ _ _ _ (by simp)]
      rw [show ({c + 2} : Finset ℕ).biUnion (fun q2 =>
          dictTargets [((c + 2, none), ({c, q} : Finset ℕ)),
            ((c + 1, none), {c + 3}), ((q, none), {c + 3})] (q2, none)) =
          {c, q} by
        rw [Finset.singleton_biUnion]
        simp [dictTargets, dictFind]]
      rw [frontLoop_succ _ _ _ _ (Finset.insert_ne_empty c {q})]
      rw [show ({c, q} : Finset ℕ).biUnion (fun q2 =>
          dictTargets [((c + 2, none), ({c, q} : Finset ℕ)),
            ((c + 1, none), {c + 3}), ((q, none), {c + 3})] (q2, none)) =
          {c + 3} by
        rw [show ({c, q} : Finset ℕ) = insert c {q} from rfl,
          Finset.biUnion_insert, Finset.singleton_biUnion]
        simp [dictTargets, dictFind, Prod.mk.injEq, n2, n3, n4, n5, n7]]
      rw [frontLoop_succ _ _ _ _ (Finset.singleton_ne_empty (c + 3))]
      rw [show ({c + 3} : Finset ℕ).biUnion (fun q2 =>
          dictTargets [((c + 2, none), ({c, q} : Finset ℕ)),
            ((c + 1, none), {c + 3}), ((q, none), {c + 3})] (q2, none)) =
          ∅ by
        rw [Finset.singleton_biUnion]
        simp [dictTargets, dictFind, Prod.mk.injEq, n8, n9, n10]]
      rw [frontLoop_stop _ _ _ _ rfl]
    have h7 : toDfsm
        (⟨({c} ∪ {c, c + 1}) ∪ ({q} ∪ {q, q}) ∪ {c + 2, c + 3}, ∅,
          [((c + 2, none), {c, q}), ((c + 1, none), {c + 3}),
           ((q, none), {c + 3})], c + 2, {c + 3}⟩ : FSM) (c + 4) (k + 20) =
        some (⟨{c + 4}, ∅, [], c + 4, {c + 4}⟩, c + 5) := by
      rw [toDfsm_eps_accept rfl (c + 4) (by omega) hcl ?_]
      apply Finset.ne_empty_of_mem
      refine Finset.mem_inter.2 ⟨?_, Finset.mem_singleton_self (c + 3)⟩
      exact Finset.mem_union_right _ (Finset.mem_singleton_self (c + 3))
    have h9 : complementN
        (⟨({c} ∪ {c, c + 1}) ∪ ({q} ∪ {q, q}) ∪ {c + 2, c + 3}, ∅,
          [((c + 2, none), {c, q}), ((c + 1, none), {c + 3}),
           ((q, none), {c + 3})], c + 2, {c + 3}⟩ : FSM) (c + 4) (k + 20) =
        some (⟨{c + 4}, ∅, [], c + 4, ∅⟩, c + 5) := by
      rw [complementN, h7]
      simp only [Option.bind_eq_bind, Option.some_bind, Option.pure_def]
      rw [complementD_nil_alphabet rfl, Finset.sdiff_self]
    have hsub : subD ⟨{q}, ∅, [], q, ({q} : Finset ℕ)⟩
        ⟨{q}, ∅, [], q, ({q} : Finset ℕ)⟩ c (k + 20) =
        some (⟨{c + 4}, ∅, [], c + 4, ∅⟩, c + 5) := by
      rw [subD, h1, intersectionN, h4]
      simp only [Option.bind_eq_bind, Option.some_bind]
      rw [h5, h6, h9]
    rw [eqD, hsub]
    simp only [Option.bind_eq_bind, Option.some_bind]
    rw [boolD_dead]
    simp only [Option.some_bind]
    rfl

/-- C6, witness: the amended theorem applied to the one-state machine on
state 0 accepting ε, with counter 1 and fuel 20. -/
theorem claim_C6_eq_not_reflexive_witness :
    (({0} : Finset ℕ) ⊆ {0}) ∧ 0 < 1 ∧ 20 ≤ 20 ∧
    eqD ⟨{0}, ∅, [], 0, {0}⟩ ⟨{0}, ∅, [], 0, {0}⟩ 1 20 = some false :=
  ⟨by decide, by decide, by decide,
    claim_C6_eq_not_reflexive 0 1 {0} (by decide) (by decide) 20 (by decide)⟩

/-- C6, counterexample: the two atom recognizers for a and b have
non-empty differences in both directions (a lies in the first language
only, b in the second only), so the claim says == returns True on them —
but the computation never returns at all, for any amount of fuel. -/
theorem claim_C6_counterexample :
    (∀ fuel, eqD cexC6A cexC6B 4 fuel = none) ∧
    runBoolD cexC6A ['a'] = true ∧ runBoolD cexC6B ['a'] = false ∧
    runBoolD cexC6B ['b'] = true ∧ runBoolD cexC6A ['b'] = false := by
  refine ⟨?_, by decide, by decide, by decide, by decide⟩
  intro fuel
  rw [eqD]
  rcases hsub : subD cexC6A cexC6B 4 fuel with _ | p
  · rfl
  · have h1 := subD_mono (le_max_left fuel 8) hsub
    have h2 := subD_mono (le_max_right fuel 8) subD_cexC6
    rw [h1] at h2
    have hp : p = (cexC6D, 18) := Option.some_injective _ h2
    rw [hp]
    simp only [Option.bind_eq_bind, Option.some_bind]
    rw [boolD_cexC6D_diverges]
    rfl

/-! ### C8: RegularSet cardinality (regular_set.py, regex_parser.py)

RegularSet parses its regex with regex_parser.parse_regex and sizes the
syntax tree with _calc_tree_size, which returns the float infinity for a
Kleene-star node; __len__ raises ValueError("Cannot compute length of
infinite set") on an infinite size, but cardinality() returns
_calc_tree_size's value directly, error-free. -/

/-- regex_parser._fix_kleene_star: star the last node, reaching under a
trailing union's right operand; none where the source would index an
empty list. -/
def fixKleeneStar : List RTree → Option (List RTree)
  | [] => none
  | RTree.union l r :: rest => some (RTree.union l (RTree.star r) :: rest)
  | t :: rest => some (RTree.star t :: rest)

/-- Push a parsed node, folding a pending union (the perform_union == 1
step of regex_parser._parse); the node stack's head is its top. -/
def pushFold (current : List RTree) (t : RTree) (pu : ℕ) :
    Option (List RTree × ℕ) :=
  if pu = 1 then
    match t :: current with
    | a :: b :: rest => some (RTree.union b a :: rest, 0)
    | _ => none
  else some (t :: current, pu)

/-- regex_parser._parse's loop (fuelled).  perform_union is 0 or 1 here:
the source sets it to 2 and downgrades it to 1 at the bottom of the same
iteration.  Returns the node stack and the unconsumed input. -/
def parseLoop : ℕ → List Char → Bool → List RTree → ℕ →
    Option (List RTree × List Char)
  | 0, _, _, _, _ => none
  | _ + 1, [], recursive, current, _ =>
    if recursive then none else some (current, [])
  | fuel + 1, ch :: rest, recursive, current, pu =>
    if ch = '*' then
      if pu ≠ 0 then none
      else do
        let cur2 ← fixKleeneStar current
        parseLoop fuel rest recursive cur2 0
    else if ch = '|' then
      if pu ≠ 0 then none
      else parseLoop fuel rest recursive current 1
    else if ch = ')' then
      if pu ≠ 0 then none
      else if recursive then some (current, rest)
      else none
    else if ch = '(' then do
      let (sub, rem) ← parseLoop fuel rest true [] 0
      let subTree ← makeChain sub.reverse
      let (cur2, pu2) ← pushFold current subTree pu
      parseLoop fuel rem recursive cur2 pu2
    else do
      let (cur2, pu2) ← pushFold current (RTree.leaf (some ch)) pu
      parseLoop fuel rest recursive cur2 pu2

/-- regex_parser.parse_regex (fuelled). -/
def parseRegexR (pattern : List Char) (fuel : ℕ) : Option RTree := do
  let (cur, _) ← parseLoop fuel pattern false [] 0
  makeChain cur.reverse

/-- The size domain of RegularSet._calc_tree_size: a natural number or
the float infinity. -/
inductive RSize where
  | fin : ℕ → RSize
  | inf : RSize
deriving DecidableEq

/-- Multiplication with an absorbing infinity (tree sizes are at least 1,
so the float arithmetic of the source never multiplies infinity by 0). -/
def rmul : RSize → RSize → RSize
  | RSize.fin a, RSize.fin b => RSize.fin (a * b)
  | _, _ => RSize.inf

/-- Addition with an absorbing infinity. -/
def radd : RSize → RSize → RSize
  | RSize.fin a, RSize.fin b => RSize.fin (a + b)
  | _, _ => RSize.inf

/-- RegularSet._calc_tree_size. -/
def calcTreeSize : RTree → RSize
  | RTree.leaf _ => RSize.fin 1
  | RTree.concat l r => rmul (calcTreeSize l) (calcTreeSize r)
  | RTree.union l r => radd (calcTreeSize l) (calcTreeSize r)
  | RTree.star _ => RSize.inf

/-- RegularSet.cardinality: _calc_tree_size's value, unconditionally. -/
def cardinalityRS (t : RTree) : RSize := calcTreeSize t

/-- RegularSet.__len__: the same size, but a ValueError on infinity. -/
def lenRS (t : RTree) : Except String ℕ :=
  match calcTreeSize t with
  | RSize.fin n => Except.ok n
  | RSize.inf => Except.error "Cannot compute length of infinite set"

/-- Does the syntax tree contain a Kleene-star node? -/
def containsStar : RTree → Bool
  | RTree.leaf _ => false
  | RTree.concat l r => containsStar l || containsStar r
  | RTree.union l r => containsStar l || containsStar r
  | RTree.star _ => true

/-- C8, counterexample: the RegularSet of the regex a* — whose tree is a
Kleene star — answers cardinality() with the infinite value; no error is
raised (the domain error lives in __len__ alone). -/
theorem claim_C8_counterexample :
    parseRegexR ['a', '*'] 10 = some (RTree.star (RTree.leaf (some 'a'))) ∧
    containsStar (RTree.star (RTree.leaf (some 'a'))) = true ∧
    cardinalityRS (RTree.star (RTree.leaf (some 'a'))) = RSize.inf := by
  exact ⟨by decide, by decide, by decide⟩

/-- C8: a tree containing a star always sizes to infinity. -/
theorem calcTreeSize_inf_of_star :
    ∀ t : RTree, containsStar t = true → calcTreeSize t = RSize.inf := by
  intro t
  induction t with
  | leaf s => intro h; exact absurd h (by simp [containsStar])
  | union l r ihl ihr =>
    intro h
    rcases Bool.or_eq_true_iff.mp h with hl | hr
    · rw [calcTreeSize, ihl hl]
      rfl
    · rw [calcTreeSize, ihr hr]
      cases calcTreeSize l <;> rfl
  | concat l r ihl ihr =>
    intro h
    rcases Bool.or_eq_true_iff.mp h with hl | hr
    · rw [calcTreeSize, ihl hl]
      rfl
    · rw [calcTreeSize, ihr hr]
      cases calcTreeSize l <;> rfl
  | star t ih => intro _; rfl

/-- C8, amended: for every syntax tree containing a Kleene star, len()
fails with the domain error ValueError("Cannot compute length of infinite
set"), while cardinality() does return a value — the infinity that
_calc_tree_size produced.  The claim's "fails rather than returning a
value" holds of __len__ only. -/
theorem claim_C8_cardinality_infinite (t : RTree)
    (h : containsStar t = true) :
    cardinalityRS t = RSize.inf ∧
    lenRS t = Except.error "Cannot compute length of infinite set" := by
  have hs := calcTreeSize_inf_of_star t h
  refine ⟨hs, ?_⟩
  rw [lenRS, hs]

/-- C8, witness: the amended theorem applied to the tree of a*. -/
theorem claim_C8_cardinality_infinite_witness :
    containsStar (RTree.star (RTree.leaf (some 'a'))) = true ∧
    cardinalityRS (RTree.star (RTree.leaf (some 'a'))) = RSize.inf ∧
    lenRS (RTree.star (RTree.leaf (some 'a'))) =
      Except.error "Cannot compute length of infinite set" := by
  obtain ⟨h1, h2⟩ := claim_C8_cardinality_infinite
    (RTree.star (RTree.leaf (some 'a'))) (by decide)
  exact ⟨by decide, h1, h2⟩

/-! ### C9 and C10: the find and search operations (runners.py)

The find operations run the same breadth-first loop as run_with, with the
sliding acceptance check, and stop at the first dequeued configuration
whose input is exhausted.  The search operations sweep a start offset
over range(len(string)) and re-anchor each found match by that offset.
All are fuelled like runAux; some none / some [] means the operation
finished and found nothing. -/

/-- Runner.find_first's loop. -/
def findFirstAux (r : RunnerI) (w : List Char) :
    ℕ → List (Finset Cfg × Cfg) → Option (Option SimpleMatch)
  | 0, _ => none
  | _ + 1, [] => some none
  | fuel + 1, (seen, c) :: rest =>
    if r.check c ≠ RunnerState.CONTINUE then
      if r.check c = RunnerState.ACCEPT then some (some (fsmMakeMatch w c))
      else some none
    else if r.checkSliding c = RunnerState.ACCEPT then
      some (some (fsmMakeMatch w c))
    else
      findFirstAux r w fuel (rest ++ pushToBacklog seen (r.succs c))

/-- Runner.find_first. -/
def findFirstF (r : RunnerI) (w : List Char) (fuel : ℕ) :
    Option (Option SimpleMatch) :=
  findFirstAux r w fuel [(∅, r.initCfg w)]

/-- Runner.find_last's loop, carrying the best match so far. -/
def findLastAux (r : RunnerI) (w : List Char) :
    ℕ → List (Finset Cfg × Cfg) → Option SimpleMatch →
    Option (Option SimpleMatch)
  | 0, _, _ => none
  | _ + 1, [], best => some best
  | fuel + 1, (seen, c) :: rest, best =>
    if r.check c ≠ RunnerState.CONTINUE then
      if r.check c = RunnerState.ACCEPT then some (some (fsmMakeMatch w c))
      else some best
    else
      findLastAux r w fuel (rest ++ pushToBacklog seen (r.succs c))
        (if r.checkSliding c = RunnerState.ACCEPT then some (fsmMakeMatch w c)
          else best)

/-- Runner.find_last. -/
def findLastF (r : RunnerI) (w : List Char) (fuel : ℕ) :
    Option (Option SimpleMatch) :=
  findLastAux r w fuel [(∅, r.initCfg w)] none

/-- Runner.find_all's loop, collecting matches in order. -/
def findAllAux (r : RunnerI) (w : List Char) :
    ℕ → List (Finset Cfg × Cfg) → List SimpleMatch →
    Option (List SimpleMatch)
  | 0, _, _ => none
  | _ + 1, [], ms => some ms
  | fuel + 1, (seen, c) :: rest, ms =>
    if r.check c ≠ RunnerState.CONTINUE then
      if r.check c = RunnerState.ACCEPT then some (ms ++ [fsmMakeMatch w c])
      else some ms
    else
      findAllAux r w fuel (rest ++ pushToBacklog seen (r.succs c))
        (if r.checkSliding c = RunnerState.ACCEPT then ms ++ [fsmMakeMatch w c]
          else ms)

/-- Runner.find_all. -/
def findAllF (r : RunnerI) (w : List Char) (fuel : ℕ) :
    Option (List SimpleMatch) :=
  findAllAux r w fuel [(∅, r.initCfg w)] []

/-- Runner.__make_match: re-anchor a match found in a suffix by the
suffix's offset; the stored string becomes the whole word. -/
def runnerMakeMatch (mt : SimpleMatch) (offset : ℕ) (w : List Char) :
    SimpleMatch :=
  ⟨mt.start + offset, mt.stop + offset, w⟩

/-- len(SimpleMatch): stop - start. -/
def matchLen (mt : SimpleMatch) : Int :=
  mt.stop - mt.start

/-- max(a, b, key=len): the second argument only when strictly longer. -/
def pyMax2 (a b : SimpleMatch) : SimpleMatch :=
  if matchLen a < matchLen b then b else a

/-- min(a, b, key=len): the second argument only when strictly shorter. -/
def pyMin2 (a b : SimpleMatch) : SimpleMatch :=
  if matchLen b < matchLen a then b else a

/-- One offset of Runner._search_best's sweep. -/
def searchBestStep (pred : SimpleMatch → SimpleMatch → SimpleMatch)
    (finder : List Char → Option (Option SimpleMatch)) (w : List Char)
    (best : Option SimpleMatch) (x : ℕ) : Option (Option SimpleMatch) := do
  let res ← finder (w.drop x)
  match res with
  | none => pure best
  | some mt =>
    match best with
    | none => pure (some (runnerMakeMatch mt x w))
    | some b => pure (some (pred b (runnerMakeMatch mt x w)))

/-- Runner._search_best: sweep the start offset, keep the predicate's
pick of the re-anchored matches. -/
def searchBestF (pred : SimpleMatch → SimpleMatch → SimpleMatch)
    (finder : List Char → Option (Option SimpleMatch)) (w : List Char) :
    Option (Option SimpleMatch) :=
  (List.range w.length).foldlM (searchBestStep pred finder w) none

/-- Runner.search_longest. -/
def searchLongestF (r : RunnerI) (w : List Char) (fuel : ℕ) :
    Option (Option SimpleMatch) :=
  searchBestF pyMax2 (fun s => findLastF r s fuel) w

/-- Runner.search_shortest. -/
def searchShortestF (r : RunnerI) (w : List Char) (fuel : ℕ) :
    Option (Option SimpleMatch) :=
  searchBestF pyMin2 (fun s => findLastF r s fuel) w

/-- The offset loop of search_first / search_last: the first offset whose
find succeeds wins. -/
def searchLoop (finder : List Char → Option (Option SimpleMatch))
    (w : List Char) : List ℕ → Option (Option SimpleMatch)
  | [] => some none
  | x :: xs => do
    let res ← finder (w.drop x)
    match res with
    | some mt => pure (some (runnerMakeMatch mt x w))
    | none => searchLoop finder w xs

/-- Runner.search_first. -/
def searchFirstF (r : RunnerI) (w : List Char) (fuel : ℕ) :
    Option (Option SimpleMatch) :=
  searchLoop (fun s => findFirstF r s fuel) w (List.range w.length)

/-- Runner.search_last: the offsets in reverse. -/
def searchLastF (r : RunnerI) (w : List Char) (fuel : ℕ) :
    Option (Option SimpleMatch) :=
  searchLoop (fun s => findLastF r s fuel) w (List.range w.length).reverse

/-- One offset of Runner.search_all's sweep. -/
def searchAllStep (r : RunnerI) (fuel : ℕ) (w : List Char)
    (ms : List SimpleMatch) (x : ℕ) : Option (List SimpleMatch) := do
  let res ← findAllF r (w.drop x) fuel
  pure (ms ++ res.map (fun mt => runnerMakeMatch mt x w))

/-- Runner.search_all: every re-anchored match of every offset. -/
def searchAllF (r : RunnerI) (w : List Char) (fuel : ℕ) :
    Option (List SimpleMatch) :=
  (List.range w.length).foldlM (searchAllStep r fuel w) []

/-! ### C9: every returned match is within bounds -/

/-- The spec's match invariant: 0 ≤ start ≤ stop ≤ |source|. -/
def MatchBounds (mt : SimpleMatch) (w : List Char) : Prop :=
  0 ≤ mt.start ∧ mt.start ≤ mt.stop ∧ mt.stop ≤ (w.length : Int)

instance (mt : SimpleMatch) (w : List Char) : Decidable (MatchBounds mt w) :=
  inferInstanceAs (Decidable (_ ∧ _ ∧ _))

theorem dfsmSuccs_string_len {m : FSM} {c c' : Cfg}
    (h : c' ∈ dfsmSuccs m c) : c'.string.length ≤ c.string.length := by
  rw [dfsmSuccs] at h
  simp only [List.mem_flatMap, List.mem_map] at h
  obtain ⟨k, _, q, _, rfl⟩ := h
  rw [dfsmNextConfig]
  simp only [List.length_tail]
  omega

theorem nfsmSuccs_string_len {m : FSM} {c c' : Cfg}
    (h : c' ∈ nfsmSuccs m c) : c'.string.length ≤ c.string.length := by
  rw [nfsmSuccs] at h
  simp only [List.mem_flatMap, List.mem_map] at h
  obtain ⟨k, _, q, _, rfl⟩ := h
  rw [nfsmNextConfig]
  by_cases hk : k.2 = none
  · rw [if_pos hk]
  · rw [if_neg hk, dfsmNextConfig]
    simp only [List.length_tail]
    omega

theorem fsmMakeMatch_bounds {w : List Char} {c : Cfg}
    (h : c.string.length ≤ w.length) : MatchBounds (fsmMakeMatch w c) w := by
  rw [fsmMakeMatch, MatchBounds]
  refine ⟨?_, ?_, ?_⟩ <;> simp <;> omega

theorem findFirstAux_bounds {r : RunnerI}
    (hs : ∀ c c', c' ∈ r.succs c → c'.string.length ≤ c.string.length)
    (w : List Char) :
    ∀ fuel (bl : List (Finset Cfg × Cfg)),
      (∀ p ∈ bl, p.2.string.length ≤ w.length) →
      ∀ mt, findFirstAux r w fuel bl = some (some mt) → MatchBounds mt w := by
  intro fuel
  induction fuel with
  | zero =>
    intro bl _ mt h
    cases bl with
    | nil => exact absurd h (by simp [findFirstAux])
    | cons p rest => exact absurd h (by simp [findFirstAux])
  | succ fuel ih =>
    intro bl hbl mt h
    cases bl with
    | nil => exact absurd h (by simp [findFirstAux])
    | cons p rest =>
      obtain ⟨seen, c⟩ := p
      have hc : c.string.length ≤ w.length := hbl _ (List.mem_cons_self _ _)
      rw [findFirstAux] at h
      by_cases h1 : r.check c ≠ RunnerState.CONTINUE
      · rw [if_pos h1] at h
        by_cases h2 : r.check c = RunnerState.ACCEPT
        · rw [if_pos h2] at h
          obtain rfl : fsmMakeMatch w c = mt :=
            Option.some_injective _ (Option.some_injective _ h)
          exact fsmMakeMatch_bounds hc
        · rw [if_neg h2] at h
          exact absurd h (by simp)
      · rw [if_neg h1] at h
        by_cases h2 : r.checkSliding c = RunnerState.ACCEPT
        · rw [if_pos h2] at h
          obtain rfl : fsmMakeMatch w c = mt :=
            Option.some_injective _ (Option.some_injective _ h)
          exact fsmMakeMatch_bounds hc
        · rw [if_neg h2] at h
          refine ih _ ?_ mt h
          intro p hp
          rcases List.mem_append.mp hp with hp | hp
          · exact hbl _ (List.mem_cons_of_mem _ hp)
          · obtain ⟨c', hc', _, rfl⟩ := mem_pushToBacklog.mp hp
            exact le_trans (hs c c' hc') hc

theorem findLastAux_bounds {r : RunnerI}
    (hs : ∀ c c', c' ∈ r.succs c → c'.string.length ≤ c.string.length)
    (w : List Char) :
    ∀ fuel (bl : List (Finset Cfg × Cfg)) (best : Option SimpleMatch),
      (∀ p ∈ bl, p.2.string.length ≤ w.length) →
      (∀ mt, best = some mt → MatchBounds mt w) →
      ∀ mt, findLastAux r w fuel bl best = some (some mt) →
        MatchBounds mt w := by
  intro fuel
  induction fuel with
  | zero =>
    intro bl best _ _ mt h
    cases bl with
    | nil => exact absurd h (by simp [findLastAux])
    | cons p rest => exact absurd h (by simp [findLastAux])
  | succ fuel ih =>
    intro bl best hbl hbest mt h
    cases bl with
    | nil =>
      rw [findLastAux] at h
      exact hbest mt (Option.some_injective _ h)
    | cons p rest =>
      obtain ⟨seen, c⟩ := p
      have hc : c.string.length ≤ w.length := hbl _ (List.mem_cons_self _ _)
      rw [findLastAux] at h
      by_cases h1 : r.check c ≠ RunnerState.CONTINUE
      · rw [if_pos h1] at h
        by_cases h2 : r.check c = RunnerState.ACCEPT
        · rw [if_pos h2] at h
          obtain rfl : fsmMakeMatch w c = mt :=
            Option.some_injective _ (Option.some_injective _ h)
          exact fsmMakeMatch_bounds hc
        · rw [if_neg h2] at h
          exact hbest mt (Option.some_injective _ h)
      · rw [if_neg h1] at h
        refine ih _ _ ?_ ?_ mt h
        · intro p hp
          rcases List.mem_append.mp hp with hp | hp
          · exact hbl _ (List.mem_cons_of_mem _ hp)
          · obtain ⟨c', hc', _, rfl⟩ := mem_pushToBacklog.mp hp
            exact le_trans (hs c c' hc') hc
        · intro mt' hmt'
          by_cases h2 : r.checkSliding c = RunnerState.ACCEPT
          · rw [if_pos h2] at hmt'
            obtain rfl : fsmMakeMatch w c = mt' := Option.some_injective _ hmt'
            exact fsmMakeMatch_bounds hc
          · rw [if_neg h2] at hmt'
            exact hbest mt' hmt'

theorem findAllAux_bounds {r : RunnerI}
    (hs : ∀ c c', c' ∈ r.succs c → c'.string.length ≤ c.string.length)
    (w : List Char) :
    ∀ fuel (bl : List (Finset Cfg × Cfg)) (ms : List SimpleMatch),
      (∀ p ∈ bl, p.2.string.length ≤ w.length) →
      (∀ mt ∈ ms, MatchBounds mt w) →
      ∀ ms', findAllAux r w fuel bl ms = some ms' →
        ∀ mt ∈ ms', MatchBounds mt w := by
  intro fuel
  induction fuel with
  | zero =>
    intro bl ms _ _ ms' h
    cases bl with
    | nil => exact absurd h (by simp [findAllAux])
    | cons p rest => exact absurd h (by simp [findAllAux])
  | succ fuel ih =>
    intro bl ms hbl hms ms' h
    cases bl with
    | nil =>
      rw [findAllAux] at h
      obtain rfl : ms = ms' := Option.some_injective _ h
      exact hms
    | cons p rest =>
      obtain ⟨seen, c⟩ := p
      have hc : c.string.length ≤ w.length := hbl _ (List.mem_cons_self _ _)
      have hext : ∀ mt ∈ ms ++ [fsmMakeMatch w c], MatchBounds mt w := by
        intro mt hmt
        rcases List.mem_append.mp hmt with hmt | hmt
        · exact hms mt hmt
        · rw [List.mem_singleton.mp hmt]
          exact fsmMakeMatch_bounds hc
      rw [findAllAux] at h
      by_cases h1 : r.check c ≠ RunnerState.CONTINUE
      · rw [if_pos h1] at h
        by_cases h2 : r.check c = RunnerState.ACCEPT
        · rw [if_pos h2] at h
          obtain rfl := Option.some_injective _ h
          exact hext
        · rw [if_neg h2] at h
          obtain rfl : ms = ms' := Option.some_injective _ h
          exact hms
      · rw [if_neg h1] at h
        refine ih _ _ ?_ ?_ ms' h
        · intro p hp
          rcases List.mem_append.mp hp with hp | hp
          · exact hbl _ (List.mem_cons_of_mem _ hp)
          · obtain ⟨c', hc', _, rfl⟩ := mem_pushToBacklog.mp hp
            exact le_trans (hs c c' hc') hc
        · by_cases h2 : r.checkSliding c = RunnerState.ACCEPT
          · rw [if_pos h2]
            exact hext
          · rw [if_neg h2]
            exact hms

theorem runnerMakeMatch_bounds {mt : SimpleMatch} {x : ℕ} {w : List Char}
    (h : MatchBounds mt (w.drop x)) (hx : x ≤ w.length) :
    MatchBounds (runnerMakeMatch mt x w) w := by
  obtain ⟨h1, h2, h3⟩ := h
  rw [List.length_drop] at h3
  refine ⟨?_, ?_, ?_⟩ <;> simp only [runnerMakeMatch] <;> omega

theorem searchLoop_bounds {finder : List Char → Option (Option SimpleMatch)}
    {w : List Char}
    (hf : ∀ (x : ℕ) mt, finder (w.drop x) = some (some mt) →
      MatchBounds mt (w.drop x)) :
    ∀ xs : List ℕ, (∀ x ∈ xs, x ≤ w.length) →
      ∀ mt, searchLoop finder w xs = some (some mt) → MatchBounds mt w := by
  intro xs
  induction xs with
  | nil =>
    intro _ mt h
    exact absurd h (by simp [searchLoop])
  | cons x xs ih =>
    intro hxs mt h
    rw [searchLoop] at h
    rcases hr : finder (w.drop x) with _ | res
    · rw [hr] at h
      exact absurd h (by simp)
    · rw [hr] at h
      cases res with
      | none =>
        simp only [Option.bind_eq_bind, Option.some_bind] at h
        exact ih (fun y hy => hxs y (List.mem_cons_of_mem _ hy)) mt h
      | some mt0 =>
        simp only [Option.bind_eq_bind, Option.some_bind] at h
        obtain rfl : runnerMakeMatch mt0 x w = mt :=
          Option.some_injective _ (Option.some_injective _ h)
        exact runnerMakeMatch_bounds (hf x mt0 hr)
          (hxs x (List.mem_cons_self _ _))

theorem pyMax2_choice (a b : SimpleMatch) : pyMax2 a b = a ∨ pyMax2 a b = b := by
  rw [pyMax2]
  by_cases h : matchLen a < matchLen b
  · rw [if_pos h]
    exact Or.inr rfl
  · rw [if_neg h]
    exact Or.inl rfl

theorem pyMin2_choice (a b : SimpleMatch) : pyMin2 a b = a ∨ pyMin2 a b = b := by
  rw [pyMin2]
  by_cases h : matchLen b < matchLen a
  · rw [if_pos h]
    exact Or.inr rfl
  · rw [if_neg h]
    exact Or.inl rfl

theorem searchBest_loop_bounds {pred : SimpleMatch → SimpleMatch → SimpleMatch}
    (hpred : ∀ a b, pred a b = a ∨ pred a b = b)
    {finder : List Char → Option (Option SimpleMatch)} {w : List Char}
    (hf : ∀ (x : ℕ) mt, finder (w.drop x) = some (some mt) →
      MatchBounds mt (w.drop x)) :
    ∀ (xs : List ℕ) (best : Option SimpleMatch),
      (∀ x ∈ xs, x ≤ w.length) →
      (∀ mt, best = some mt → MatchBounds mt w) →
      ∀ res mt, List.foldlM (searchBestStep pred finder w) best xs = some res →
        res = some mt → MatchBounds mt w := by
  intro xs
  induction xs with
  | nil =>
    intro best _ hbest res mt h hres
    obtain rfl : best = res := Option.some_injective _ (by simpa using h)
    exact hbest mt hres
  | cons x xs ih =>
    intro best hxs hbest res mt h hres
    rw [List.foldlM_cons] at h
    rcases hstep : searchBestStep pred finder w best x with _ | best2
    · rw [hstep] at h
      exact absurd h (by simp)
    · rw [hstep] at h
      simp only [Option.bind_eq_bind, Option.some_bind] at h
      refine ih best2 (fun y hy => hxs y (List.mem_cons_of_mem _ hy)) ?_
        res mt h hres
      intro mt' hmt'
      rw [searchBestStep] at hstep
      rcases hr : finder (w.drop x) with _ | fres
      · rw [hr] at hstep
        exact absurd hstep (by simp)
      · rw [hr] at hstep
        simp only [Option.bind_eq_bind, Option.some_bind] at hstep
        cases fres with
        | none =>
          obtain rfl : best = best2 := Option.some_injective _ hstep
          exact hbest mt' hmt'
        | some mt0 =>
          have hmt0 : MatchBounds (runnerMakeMatch mt0 x w) w :=
            runnerMakeMatch_bounds (hf x mt0 hr) (hxs x (List.mem_cons_self _ _))
          cases best with
          | none =>
            obtain rfl : some (runnerMakeMatch mt0 x w) = best2 :=
              Option.some_injective _ hstep
            obtain rfl := Option.some_injective _ hmt'
            exact hmt0
          | some b =>
            obtain rfl : some (pred b (runnerMakeMatch mt0 x w)) = best2 :=
              Option.some_injective _ hstep
            obtain rfl := Option.some_injective _ hmt'
            rcases hpred b (runnerMakeMatch mt0 x w) with hp | hp <;> rw [hp]
            · exact hbest b rfl
            · exact hmt0

theorem searchAll_loop_bounds {r : RunnerI} {fuel : ℕ} {w : List Char}
    (hf : ∀ (x : ℕ) (ms : List SimpleMatch),
      findAllF r (w.drop x) fuel = some ms →
      ∀ mt ∈ ms, MatchBounds mt (w.drop x)) :
    ∀ (xs : List ℕ) (ms : List SimpleMatch),
      (∀ x ∈ xs, x ≤ w.length) →
      (∀ mt ∈ ms, MatchBounds mt w) →
      ∀ ms', List.foldlM (searchAllStep r fuel w) ms xs = some ms' →
        ∀ mt ∈ ms', MatchBounds mt w := by
  intro xs
  induction xs with
  | nil =>
    intro ms _ hms ms' h
    obtain rfl : ms = ms' := Option.some_injective _ (by simpa using h)
    exact hms
  | cons x xs ih =>
    intro ms hxs hms ms' h
    rw [List.foldlM_cons] at h
    rcases hstep : searchAllStep r fuel w ms x with _ | ms2
    · rw [hstep] at h
      exact absurd h (by simp)
    · rw [hstep] at h
      simp only [Option.bind_eq_bind, Option.some_bind] at h
      refine ih ms2 (fun y hy => hxs y (List.mem_cons_of_mem _ hy)) ?_ ms' h
      rw [searchAllStep] at hstep
      rcases hr : findAllF r (w.drop x) fuel with _ | fms
      · rw [hr] at hstep
        exact absurd hstep (by simp)
      · rw [hr] at hstep
        simp only [Option.bind_eq_bind, Option.some_bind] at hstep
        obtain rfl : ms ++ fms.map (fun mt => runnerMakeMatch mt x w) = ms2 :=
          Option.some_injective _ hstep
        intro mt hmt
        rcases List.mem_append.mp hmt with hmt | hmt
        · exact hms mt hmt
        · obtain ⟨mt0, hmt0, rfl⟩ := List.mem_map.mp hmt
          exact runnerMakeMatch_bounds (hf x fms hr mt0 hmt0)
            (hxs x (List.mem_cons_self _ _))

/-- C9: every match returned by find_first, find_last, find_all,
search_first, search_last, search_longest, search_shortest or search_all
— on either the deterministic or the nondeterministic runner — satisfies
0 ≤ start ≤ stop ≤ |source|. -/
theorem claim_C9_match_bounds (m : FSM) (r : RunnerI)
    (hr : r = dfsmRI m ∨ r = nfsmRI m) (w : List Char) (fuel : ℕ)
    (mt : SimpleMatch)
    (h : findFirstF r w fuel = some (some mt) ∨
         findLastF r w fuel = some (some mt) ∨
         (∃ ms, findAllF r w fuel = some ms ∧ mt ∈ ms) ∨
         searchFirstF r w fuel = some (some mt) ∨
         searchLastF r w fuel = some (some mt) ∨
         searchLongestF r w fuel = some (some mt) ∨
         searchShortestF r w fuel = some (some mt) ∨
         (∃ ms, searchAllF r w fuel = some ms ∧ mt ∈ ms)) :
    MatchBounds mt w := by
  have hs : ∀ c c', c' ∈ r.succs c → c'.string.length ≤ c.string.length := by
    rcases hr with rfl | rfl
    · exact fun c c' h => dfsmSuccs_string_len h
    · exact fun c c' h => nfsmSuccs_string_len h
  have hinit : ∀ s : List Char, (r.initCfg s).string = s := by
    rcases hr with rfl | rfl <;> exact fun s => rfl
  have hbl : ∀ s : List Char, ∀ p ∈ [((∅ : Finset Cfg), r.initCfg s)],
      p.2.string.length ≤ s.length := by
    intro s p hp
    rw [List.mem_singleton.mp hp, hinit s]
  have hFirst : ∀ (s : List Char) mt', findFirstF r s fuel = some (some mt') →
      MatchBounds mt' s := fun s mt' h' =>
    findFirstAux_bounds hs s fuel _ (hbl s) mt' h'
  have hLast : ∀ (s : List Char) mt', findLastF r s fuel = some (some mt') →
      MatchBounds mt' s := fun s mt' h' =>
    findLastAux_bounds hs s fuel _ none (hbl s) (by simp) mt' h'
  have hAll : ∀ (s : List Char) ms, findAllF r s fuel = some ms →
      ∀ mt' ∈ ms, MatchBounds mt' s := fun s ms h' =>
    findAllAux_bounds hs s fuel _ [] (hbl s) (by simp) ms h'
  have hrange : ∀ x ∈ List.range w.length, x ≤ w.length :=
    fun x hx => le_of_lt (List.mem_range.mp hx)
  rcases h with h | h | ⟨ms, h, hmem⟩ | h | h | h | h | ⟨ms, h, hmem⟩
  · exact hFirst w mt h
  · exact hLast w mt h
  · exact hAll w ms h mt hmem
  · exact searchLoop_bounds (fun x mt' => hFirst (w.drop x) mt') _ hrange mt h
  · refine searchLoop_bounds (fun x mt' => hLast (w.drop x) mt') _ ?_ mt h
    intro x hx
    exact le_of_lt (List.mem_range.mp (List.mem_reverse.mp hx))
  · exact searchBest_loop_bounds pyMax2_choice
      (fun x mt' => hLast (w.drop x) mt') _ none hrange (by simp) _ mt h rfl
  · exact searchBest_loop_bounds pyMin2_choice
      (fun x mt' => hLast (w.drop x) mt') _ none hrange (by simp) _ mt h rfl
  · exact searchAll_loop_bounds (fun x ms' => hAll (w.drop x) ms') _ []
      hrange (by simp) ms h mt hmem

/-- C9, witness: find_first of the atom recognizer of a on the word a
returns the match (0, 1, "a"), and the theorem bounds it. -/
theorem claim_C9_match_bounds_witness :
    (nfsmRI ⟨{0, 1}, {some 'a'}, [((0, some 'a'), {1})], 0, {1}⟩ =
        dfsmRI ⟨{0, 1}, {some 'a'}, [((0, some 'a'), {1})], 0, {1}⟩ ∨
      nfsmRI ⟨{0, 1}, {some 'a'}, [((0, some 'a'), {1})], 0, {1}⟩ =
        nfsmRI ⟨{0, 1}, {some 'a'}, [((0, some 'a'), {1})], 0, {1}⟩) ∧
    findFirstF (nfsmRI ⟨{0, 1}, {some 'a'}, [((0, some 'a'), {1})], 0, {1}⟩)
      ['a'] 50 = some (some ⟨0, 1, ['a']⟩) ∧
    MatchBounds ⟨0, 1, ['a']⟩ ['a'] :=
  ⟨Or.inr rfl, by decide,
    claim_C9_match_bounds ⟨{0, 1}, {some 'a'}, [((0, some 'a'), {1})], 0, {1}⟩
      (nfsmRI ⟨{0, 1}, {some 'a'}, [((0, some 'a'), {1})], 0, {1}⟩)
      (Or.inr rfl) ['a'] 50 ⟨0, 1, ['a']⟩ (Or.inl (by decide))⟩

/-- C10: on the empty input string every search operation's offset sweep
is over range(0) and finds nothing, whatever the machine and whichever
runner — even one that accepts the empty word (only the find operations,
not the searches, can report the empty match). -/
theorem claim_C10_search_empty_string (m : FSM) (fuel : ℕ) :
    searchFirstF (nfsmRI m) [] fuel = some none ∧
    searchLastF (nfsmRI m) [] fuel = some none ∧
    searchLongestF (nfsmRI m) [] fuel = some none ∧
    searchShortestF (nfsmRI m) [] fuel = some none ∧
    searchAllF (nfsmRI m) [] fuel = some [] ∧
    searchFirstF (dfsmRI m) [] fuel = some none ∧
    searchLastF (dfsmRI m) [] fuel = some none ∧
    searchLongestF (dfsmRI m) [] fuel = some none ∧
    searchShortestF (dfsmRI m) [] fuel = some none ∧
    searchAllF (dfsmRI m) [] fuel = some [] :=
  ⟨rfl, rfl, rfl, rfl, rfl, rfl, rfl, rfl, rfl, rfl⟩

end Automata
